import Mathlib

/-!
# Tinyhost: the per-time-step simulation engine and its configuration

A shallow embedding of `src/Tinyhost/tinyhost.cpp` and of the conversions, the
assignment from name-value maps and the sweeps of `src/Tinyhost/Config/config.cpp`.

* The carriage matrix `X` (a `vector<double>`) is a flat `List α` over a linearly
  ordered field `α`: arithmetic is exact.  Every statement holds for the reals;
  the rationals, `α := ℚ`, are used to evaluate the definitions.
* A row pointer `double* x = X.data() + off` is the pair of the store and the
  offset `off`; `x[s]` is the access `X[off + s]`.
* Every read and write is bounds checked: an access outside the vector makes
  the operation return `none`, and every operation passes a `none` on.
* `int` arithmetic is exact arithmetic on natural numbers; a product or sum
  that the source evaluates as `unsigned int` is reduced modulo `2 ^ 32`.
* The random source is external.  What it returns during one event is the
  record `Draws`; a Bernoulli trial is decided by a uniform variate.  Each call
  made to it is recorded, with its argument, in a call log.  What it returns in
  the sampling and shuffling of one time step is the record `Tick`; the loop
  over the time steps takes one `Tick` for each iteration.
* The reporter is modelled by the values it writes (`Line`), not by the text.
  Its quotient `mult / carriers` has no value when the divisor is 0.
-/

namespace Tinyhost

/-! ## Parameters (`config_def.h`) -/

/-- The parameter set `P` of one sweep, field for field as declared in
`config_def.h`.  The `int` parameters are natural numbers: with a negative
count there is no store to run on.  No parameter is range checked. -/
structure Parameters (α : Type) where
  n_strains : Nat
  n_hosts : Nat
  w : List α
  beta : List α
  gamma : α
  theta : List α
  u : List α
  v : α
  k : α
  tau : α
  iota : α
  phi : α
  min_carriage : α
  min_carriers : α
  init : α
  immunity : Bool
  sigma : α
  birth_rate : α
  t_max : α
  t_step : α
  fileout : String
  report : Nat
  first_sero : Bool

/-- The default value of every parameter, as given in `config_def.h`. -/
def defaults : Parameters ℚ where
  n_strains := 2
  n_hosts := 10000
  w := [1, 1]
  beta := [4, 4]
  gamma := 0
  theta := [1, 1]
  u := [1]
  v := 0
  k := 1
  tau := 1 / 10
  iota := 1 / 1000
  phi := 0
  min_carriage := 3 / 100000
  min_carriers := 1
  init := 1 / 10
  immunity := false
  sigma := 1
  birth_rate := 0
  t_max := 24
  t_step := 1 / 1000
  fileout := "./out.txt"
  report := 1000
  first_sero := false

/-! ## Checked memory access and loops -/

section Memory

variable {α : Type}

/-- Read `X[i]`; `none` when `i` is outside the vector. -/
def rd (X : List α) (i : Nat) : Option α := X[i]?

/-- Write `X[i] = v`; `none` when `i` is outside the vector. -/
def wr (X : List α) (i : Nat) (v : α) : Option (List α) :=
  if i < X.length then some (X.set i v) else none

/-- Run `body` once for each loop index in the list, in order, threading the
state; stops with `none` as soon as one iteration fails. -/
def loop {σ : Type} (body : Nat → σ → Option σ) : List Nat → σ → Option σ
  | [], st => some st
  | s :: rest, st =>
    match body s st with
    | none => none
    | some st' => loop body rest st'

/-- The value stored at index `i` (`0` outside the vector). -/
def entry [Zero α] (X : List α) (i : Nat) : α := X.getD i 0

end Memory

section Engine

variable {α : Type} [LinearOrderedField α]

/-- The summand of `Normalize`: `x > 0 ? x : 0`. -/
def posPart (v : α) : α := if v > 0 then v else 0

/-- The call `accumulate(x, x + n, 0.0, [](double X, double x) { return X + (x > 0 ? x : 0); })`. -/
def accumulate (X : List α) (x n : Nat) : Option α :=
  loop (fun s acc => match rd X (x + s) with
    | none => none
    | some v => some (acc + posPart v)) (List.range' 0 n) 0

/-- The body of the division loop of `Normalize`: `if (x[s] > 0) x[s] /= total`. -/
def divideStep (total : α) (x : Nat) (s : Nat) (X : List α) : Option (List α) :=
  match rd X (x + s) with
  | none => none
  | some v => if v > 0 then wr X (x + s) (v / total) else some X

/-- The function `void Normalize(double* x)`, the row pointer being `X.data() + x`. -/
def Normalize (P : Parameters α) (X : List α) (x : Nat) : Option (List α) :=
  match accumulate X x P.n_strains with
  | none => none
  | some total =>
    if total > 0 then loop (divideStep total x) (List.range' 0 P.n_strains) X
    else some X

/-- The loop indices of `for (int s = 0; s < stop; s += step)`. -/
def upTo (stop step : Nat) : List Nat := List.range' 0 ((stop + step - 1) / step) step

/-! ### The random source -/

/-- A call made to the random source `R`, with its argument. -/
inductive Call (α : Type) where
  | Bernoulli (p : α)
  | Discrete (size : Nat)
  | Poisson (mean : α)

/-- Modelled from the spec: `Randomizer::Bernoulli` is declared in `randomizer.h`
but its body is not part of the sources.  A Bernoulli trial with success
probability `p`, decided by a uniform variate `u` of `[0, 1)`: it succeeds when
`u < p`, hence never for `p <= 0` and always for `p >= 1`. -/
def Bernoulli (p u : α) : Bool := decide (u < p)

/-- What the random source returns in the course of one event: the outcome of
each `R.Discrete` call and the variate behind each `R.Bernoulli` call, one
per call site (and per strain inside the strain loop of Transfer). -/
structure Draws (α : Type) where
  host : Nat
  contact : Nat
  block : α
  immune : Nat → α
  success : Nat → α
  cascade : α

/-- The draws of an event on host `host` with contact host `contact` in which every
variate is 0, so that every trial of positive success probability succeeds. -/
abbrev allSucceed (host contact : Nat) : Draws ℚ where
  host := host
  contact := contact
  block := 0
  immune := fun _ => 0
  success := fun _ => 0
  cascade := 0

/-- The state threaded through an event: the store, the local flag `normalize`
and the calls made to the random source so far. -/
structure Run (α : Type) where
  X : List α
  normalize : Bool
  calls : List (Call α)

/-! ### Sweep start -/

/-- The function `Check`: throws when the vector has not the given size. -/
def Check (param : List α) (size : Nat) (name : String) : Except String Unit :=
  if param.length ≠ size then Except.error ("Incorrect size for parameter " ++ name)
  else Except.ok ()

/-- The four checks at the start of a sweep. -/
def checkParameters (P : Parameters α) : Except String Unit := do
  Check P.w P.n_strains "w"
  Check P.beta P.n_strains "beta"
  Check P.theta P.n_strains "theta"
  Check P.u (P.n_strains / 2) "u"

/-- The carriage matrix as allocated: `vector<double> X(P.n_hosts * P.n_strains, 0.0)`. -/
def allocate (P : Parameters α) : List α := List.replicate (P.n_hosts * P.n_strains) 0

/-- The inoculation loop: `n` is the value of `R.Poisson(P.n_hosts * P.init)` and
`pick i` the value of `R.Discrete(P.n_strains)` in iteration `i`.  The index is an
`int` product plus an `unsigned int`, evaluated in 32-bit unsigned arithmetic. -/
def inoculate (P : Parameters α) (n : Nat) (pick : Nat → Nat) (X : List α) : Option (List α) :=
  loop (fun i X => wr X ((P.n_strains * i + pick i) % 2 ^ 32) 1) (List.range' 0 n) X

/-! ### The growth pass -/

/-- The first inner loop of the growth pass for the host whose row starts at `i`:
`if (X[i + s] > 0) total += X[i + s] = (X[i + s] < P.min_carriage ? 0 : X[i + s] * ww[s])`.
The state is the store and `total`. -/
def growStep (P : Parameters α) (ww : Nat → α) (i s : Nat) (st : List α × α) :
    Option (List α × α) :=
  match rd st.1 (i + s) with
  | none => none
  | some v =>
    if v > 0 then
      let v' := if v < P.min_carriage then 0 else v * ww s
      match wr st.1 (i + s) v' with
      | none => none
      | some X' => some (X', st.2 + v')
    else some st

/-- The second inner loop: `if (X[i + s] > 0) l[s] += X[i + s] /= total`.
The state is the store and the tally `l`. -/
def shareStep (total : α) (i s : Nat) (st : List α × List α) : Option (List α × List α) :=
  match rd st.1 (i + s) with
  | none => none
  | some v =>
    if v > 0 then
      match wr st.1 (i + s) (v / total), rd st.2 s with
      | some X', some ls =>
        match wr st.2 s (ls + v / total) with
        | none => none
        | some l' => some (X', l')
      | _, _ => none
    else some st

/-- The body of the loop over hosts (lines 56 to 66). -/
def growHost (P : Parameters α) (ww : Nat → α) (i : Nat) (st : List α × List α) :
    Option (List α × List α) :=
  match loop (growStep P ww i) (List.range' 0 P.n_strains) (st.1, 0) with
  | none => none
  | some (X1, total) =>
    if total > 0 then loop (shareStep total i) (List.range' 0 P.n_strains) (X1, st.2)
    else some (X1, st.2)

/-- Step 1 of a time step (lines 54 to 68): the growth and normalisation pass over
all hosts followed by the effective population carriage.  `ww s` is the
per-time-step growth rate `pow(P.w[s], P.t_step)`.  Returns the store and `l`. -/
def growthPass (P : Parameters α) (ww : Nat → α) (X : List α) : Option (List α × List α) :=
  match loop (growHost P ww) (upTo (P.n_strains * P.n_hosts) P.n_strains)
      (X, List.replicate P.n_strains 0) with
  | none => none
  | some (X', l) => some (X', l.map fun ll => max ll P.min_carriers / (P.n_hosts : α))

/-! ### Events -/

/-- The event kind `Transmission`, to be combined with a strain index. -/
def Transmission : Nat := 0

/-- The event kind `Clearance`, to be combined with a serotype index. -/
def Clearance : Nat := 0x10000

/-- The event kind `Treatment`. -/
def Treatment : Nat := 0x20000

/-- The event kind `Birth`. -/
def Birth : Nat := 0x30000

/-- The event kind `Transfer`. -/
def Transfer : Nat := 0x40000

/-- Step 2 of a time step before the shuffle (lines 71 to 76): for each count
returned by `R.Poisson`, that many copies of the event tag. -/
def sampleEvents (P : Parameters α) (nTransmission nClearance : Nat → Nat)
    (nTreatment nBirth nTransfer : Nat) : List Nat :=
  ((List.range' 0 P.n_strains).map fun s =>
        List.replicate (nTransmission s) (Transmission ||| s)).flatten
    ++ ((List.range' 0 (P.n_strains / 2)).map fun t =>
        List.replicate (nClearance t) (Clearance ||| t)).flatten
    ++ List.replicate nTreatment Treatment
    ++ List.replicate nBirth Birth
    ++ List.replicate nTransfer Transfer

/-- The test `all_of(x, x + P.n_strains, [](double y) { return y <= 0; })` over the
given strains, stopping at the first entry that fails it. -/
def all_of (X : List α) (x : Nat) : List Nat → Option Bool
  | [] => some true
  | s :: rest =>
    match rd X (x + s) with
    | none => none
    | some y => if y ≤ 0 then all_of X x rest else some false

/-- The blocking test `P.k == 1 || all_of(...) || R.Bernoulli(P.k)`, evaluated left
to right with short circuit.  Returns its value and the calls made. -/
def noBlocking (P : Parameters α) (X : List α) (x : Nat) (d : Draws α) :
    Option (Bool × List (Call α)) :=
  if P.k = 1 then some (true, [])
  else
    match all_of X x (List.range' 0 P.n_strains) with
    | none => none
    | some true => some (true, [])
    | some false => some (Bernoulli P.k d.block, [Call.Bernoulli P.k])

/-- The immunity test `!P.immunity || x[s] >= 0 || R.Bernoulli(1 + x[s])`. -/
def noImmunity (P : Parameters α) (X : List α) (x s : Nat) (d : Draws α) :
    Option (Bool × List (Call α)) :=
  if P.immunity = false then some (true, [])
  else
    match rd X (x + s) with
    | none => none
    | some y =>
      if y ≥ 0 then some (true, [])
      else some (Bernoulli (1 + y) (d.immune s), [Call.Bernoulli (1 + y)])

/-- The assignment `x[j] = max(x[j], 0.0) + P.iota; Normalize(x);`. -/
def colonise (P : Parameters α) (X : List α) (x j : Nat) : Option (List α) :=
  match rd X (x + j) with
  | none => none
  | some y =>
    match wr X (x + j) (max y 0 + P.iota) with
    | none => none
    | some X' => Normalize P X' x

/-- The case `Transmission`: colonise host with strain `j`. -/
def caseTransmission (P : Parameters α) (X : List α) (x j : Nat) (d : Draws α) :
    Option (List α × List (Call α)) :=
  match noBlocking P X x d with
  | none => none
  | some (false, c) => some (X, c)
  | some (true, c) =>
    match noImmunity P X x j d with
    | none => none
    | some (false, c') => some (X, c ++ c')
    | some (true, c') =>
      match colonise P X x j with
      | none => none
      | some X' => some (X', c ++ c')

/-- The test `x[j * 2] > 0 || x[j * 2 + 1] > 0`. -/
def carried (X : List α) (x j : Nat) : Option Bool :=
  match rd X (x + j * 2) with
  | none => none
  | some a =>
    if a > 0 then some true
    else
      match rd X (x + (j * 2 + 1)) with
      | none => none
      | some b => some (decide (b > 0))

/-- The body of the cascade loop: `if (x[s] > 0) x[s] = 0`. -/
def zeroStep (x s : Nat) (X : List α) : Option (List α) :=
  match rd X (x + s) with
  | none => none
  | some v => if v > 0 then wr X (x + s) 0 else some X

/-- The case `Clearance`: clear serotype `j` from host. -/
def caseClearance (P : Parameters α) (X : List α) (x j : Nat) (d : Draws α) :
    Option (List α × List (Call α)) :=
  match carried X x j with
  | none => none
  | some false => some (X, [])
  | some true =>
    match wr X (x + (j * 2 + 1)) (-P.sigma) with
    | none => none
    | some X1 =>
      match wr X1 (x + j * 2) (-P.sigma) with
      | none => none
      | some X2 =>
        match (if Bernoulli P.v d.cascade then loop (zeroStep x) (List.range' 0 P.n_strains) X2
               else some X2) with
        | none => none
        | some X3 =>
          match Normalize P X3 x with
          | none => none
          | some X4 => some (X4, [Call.Bernoulli P.v])

/-- The body of the loop of Treatment: `if (x[s] > 0) { x[s] = 0; normalize = true; }`.
The state is the store and the flag `normalize`. -/
def treatStep (x s : Nat) (st : List α × Bool) : Option (List α × Bool) :=
  match rd st.1 (x + s) with
  | none => none
  | some v =>
    if v > 0 then
      match wr st.1 (x + s) 0 with
      | none => none
      | some X' => some (X', true)
    else some st

/-- The case `Treatment`: eliminate all sensitive strains from host. -/
def caseTreatment (P : Parameters α) (X : List α) (x : Nat) : Option (List α × List (Call α)) :=
  match loop (treatStep x) (upTo P.n_strains 2) (X, false) with
  | none => none
  | some (X1, normalize) =>
    if normalize then
      match Normalize P X1 x with
      | none => none
      | some X2 => some (X2, [])
    else some (X1, [])

/-- The case `Birth`: `fill(x, x + P.n_strains, 0.0)`. -/
def caseBirth (P : Parameters α) (X : List α) (x : Nat) : Option (List α × List (Call α)) :=
  match loop (fun s X => wr X (x + s) 0) (List.range' 0 P.n_strains) X with
  | none => none
  | some X' => some (X', [])

/-- The body of the strain loop of Transfer (lines 121 to 123). -/
def transferStep (P : Parameters α) (x xx : Nat) (d : Draws α) (s : Nat) (st : Run α) :
    Option (Run α) :=
  match noImmunity P st.X x s d with
  | none => none
  | some (false, c) => some { st with calls := st.calls ++ c }
  | some (true, c) =>
    match rd P.theta s with
    | none => none
    | some th =>
      if Bernoulli th (d.success s) then
        match rd st.X (x + s), rd st.X (xx + s) with
        | some y, some yy =>
          match wr st.X (x + s) (max y 0 + P.iota * yy) with
          | none => none
          | some X' =>
            some { X := X', normalize := true, calls := st.calls ++ c ++ [Call.Bernoulli th] }
        | _, _ => none
      else some { st with calls := st.calls ++ c ++ [Call.Bernoulli th] }

/-- The case `Transfer`: colonise host with strains carried by a random host.  The
contact row pointer is `X.data() + P.n_strains * R.Discrete(P.n_hosts)`, an `int`
times an `unsigned int`, evaluated in 32-bit unsigned arithmetic. -/
def caseTransfer (P : Parameters α) (X : List α) (x : Nat) (d : Draws α) :
    Option (List α × List (Call α)) :=
  match noBlocking P X x d with
  | none => none
  | some (false, c) => some (X, c)
  | some (true, c) =>
    let xx := (P.n_strains * d.contact) % 2 ^ 32
    match loop (transferStep P x xx d) (List.range' 0 P.n_strains)
        { X := X, normalize := false, calls := c ++ [Call.Discrete P.n_hosts] } with
    | none => none
    | some st =>
      if st.normalize then
        match Normalize P st.X x with
        | none => none
        | some X' => some (X', st.calls)
      else some (st.X, st.calls)

/-- The body of the loop over the events (lines 82 to 128): decode the tag `e`,
choose the host and run the case of the event kind.  Returns the store and the
calls made to the random source. -/
def execute (P : Parameters α) (X : List α) (e : Nat) (d : Draws α) :
    Option (List α × List (Call α)) :=
  let j := e &&& 0xFFFF
  let x := (P.n_strains * d.host) % 2 ^ 32
  let kind := e &&& 0xF0000
  let result :=
    if kind = Transmission then caseTransmission P X x j d
    else if kind = Clearance then caseClearance P X x j d
    else if kind = Treatment then caseTreatment P X x
    else if kind = Birth then caseBirth P X x
    else if kind = Transfer then caseTransfer P X x d
    else some (X, [])
  result.map fun r => (r.1, Call.Discrete P.n_hosts :: r.2)

/-! ### The time step and the reporter -/

/-- What the random source returns in steps 2 and 3 of one time step: the count
returned by each `R.Poisson` call, the sequence that `R.Shuffle` leaves in place of
the sampled one, and the draws of the `k`-th executed event. -/
structure Tick (α : Type) where
  nTransmission : Nat → Nat
  nClearance : Nat → Nat
  nTreatment : Nat
  nBirth : Nat
  nTransfer : Nat
  shuffle : List Nat → List Nat
  draws : Nat → Draws α

/-- Step 3 of a time step: the loop `for (auto e : events)`, the `k`-th event being
executed with the draws `draws k`. -/
def executeAll (P : Parameters α) (draws : Nat → Draws α) :
    List Nat → Nat → List α → Option (List α)
  | [], _, X => some X
  | e :: rest, k, X =>
    match execute P X e (draws k) with
    | none => none
    | some r => executeAll P draws rest (k + 1) r.1

/-- Steps 1 to 3 of a time step (lines 53 to 129): the growth pass, the sampling
and shuffling of the events and their execution.  Returns the store and `l`. -/
def timeStep (P : Parameters α) (ww : Nat → α) (T : Tick α) (X : List α) :
    Option (List α × List α) :=
  match growthPass P ww X with
  | none => none
  | some (X1, l) =>
    match executeAll P T.draws
        (T.shuffle (sampleEvents P T.nTransmission T.nClearance T.nTreatment T.nBirth
          T.nTransfer)) 0 X1 with
    | none => none
    | some X2 => some (X2, l)

/-- The call `count_if(X.begin() + i, X.begin() + i + n, [](double x) { return x > 0; })`. -/
def count_if (X : List α) (i n : Nat) : Option Nat :=
  loop (fun s m => match rd X (i + s) with
    | none => none
    | some v => some (if v > 0 then m + 1 else m)) (List.range' 0 n) 0

/-- The number of strains the reporter looks at in each row:
`P.first_sero ? 2 : P.n_strains`. -/
def counted (P : Parameters α) : Nat := if P.first_sero then 2 else P.n_strains

/-- The locals of the reporter that its loop over the hosts updates: the vector
`strain_count` and the doubles `mult` and `carriers` (`serotype_count` and `STmult`
are declared but never used). -/
structure Counts (α : Type) where
  strain_count : List Nat
  mult : α
  carriers : α

/-- The body of the loop over the hosts of the reporter (lines 153 to 157):
`if (m > 0) { ++carriers; mult += m; } ++strain_count[min(8, m)];`. -/
def countHost (P : Parameters α) (X : List α) (i : Nat) (c : Counts α) : Option (Counts α) :=
  match count_if X i (counted P) with
  | none => none
  | some m =>
    let c1 : Counts α :=
      if m > 0 then { c with carriers := c.carriers + 1, mult := c.mult + (m : α) } else c
    match c1.strain_count[min 8 m]? with
    | none => none
    | some k => some { c1 with strain_count := c1.strain_count.set (min 8 m) (k + 1) }

/-- The loop over the hosts of the reporter, started from
`strain_count(9, 0)`, `mult = 0`, `carriers = 0`. -/
def countHosts (P : Parameters α) (X : List α) : Option (Counts α) :=
  loop (countHost P X) (upTo (P.n_strains * P.n_hosts) P.n_strains)
    { strain_count := List.replicate 9 0, mult := 0, carriers := 0 }

/-- The quotient `a / b` of two doubles as a real number: there is none when the
divisor is 0. -/
def quotient (a b : α) : Option α := if b = 0 then none else some (a / b)

/-- The values written in one line of the report: the run, `P.tau`, the time
`g * P.t_step`, the tallies `l`, the mean multiplicity `mult / carriers` and the
entries of `strain_count`. -/
structure Line (α : Type) where
  run : Nat
  tau : α
  t : α
  l : List α
  mult : Option α
  strain_count : List Nat

/-- Step 4 of a time step, once `g % P.report == 0` holds (lines 146 to 160); the
header and the handling of the output file are left out. -/
def report (P : Parameters α) (run g : Nat) (X l : List α) : Option (Line α) :=
  match countHosts P X with
  | none => none
  | some c =>
    some { run := run, tau := P.tau, t := (g : α) * P.t_step, l := l,
           mult := quotient c.mult c.carriers, strain_count := c.strain_count }

/-- The loop over the time steps (line 51), one `Tick` for each iteration that the
test `g < P.t_max / P.t_step + 0.5` admits, from step `g` on.  The state is the
store and the lines reported so far.  The remainder `g % P.report` is not defined
for `P.report == 0`. -/
def timeLoop (P : Parameters α) (ww : Nat → α) (run : Nat) :
    List (Tick α) → Nat → List α × List (Line α) → Option (List α × List (Line α))
  | [], _, st => some st
  | T :: rest, g, st =>
    match timeStep P ww T st.1 with
    | none => none
    | some (X, l) =>
      if P.report = 0 then none
      else if g % P.report = 0 then
        match report P run g X l with
        | none => none
        | some line => timeLoop P ww run rest (g + 1) (X, st.2 ++ [line])
      else timeLoop P ww run rest (g + 1) (X, st.2)

/-- One sweep (lines 36 to 167): the four checks, then the store, the inoculation
and the time steps.  The error is the exception thrown by `Check`; `ww s` is the
growth rate `pow(P.w[s], P.t_step)`, `n` and `pick` are the values returned by the
random source during the inoculation. -/
def sweep (P : Parameters α) (ww : Nat → α) (run n : Nat) (pick : Nat → Nat)
    (ticks : List (Tick α)) : Except String (Option (List α × List (Line α))) :=
  match checkParameters P with
  | Except.error msg => Except.error msg
  | Except.ok _ =>
    Except.ok (match inoculate P n pick (allocate P) with
      | none => none
      | some X => timeLoop P ww run ticks 0 (X, []))

/-! ### Vocabulary of the statements -/

/-- The sum of the positive entries of the `n` entries starting at offset `off`. -/
def posSum (X : List α) (off n : Nat) : α :=
  ∑ s in Finset.range n, posPart (entry X (off + s))

/-- The store `X` with the first `k` entries of the row at `off` replaced:
entry `off + s` becomes `f s` of its old value. -/
def onRow (X : List α) (off k : Nat) (f : Nat → α → α) : List α :=
  (List.range' 0 X.length).map fun i =>
    if off ≤ i ∧ i < off + k then f (i - off) (entry X i) else entry X i

/-- What `Normalize` leaves in the store: each positive entry of the row divided by
the sum of the positive entries, when that sum is positive. -/
def normalized (X : List α) (off n : Nat) : List α :=
  if 0 < posSum X off n then
    onRow X off n (fun _ v => if v > 0 then v / posSum X off n else v)
  else X

/-- Colonisation is not blocked: `k == 1`, or the host carries nothing (all entries
`<= 0`), or the Bernoulli trial with success probability `k` succeeds. -/
def Unblocked (P : Parameters α) (X : List α) (x : Nat) (d : Draws α) : Prop :=
  P.k = 1 ∨ (∀ s, s < P.n_strains → entry X (x + s) ≤ 0) ∨ Bernoulli P.k d.block = true

/-- Immunity permits strain `s`: immunity is disabled, or `x[s] >= 0`, or the
Bernoulli trial with success probability `1 + x[s]` succeeds. -/
def Permitted (P : Parameters α) (X : List α) (x s : Nat) (d : Draws α) : Prop :=
  P.immunity = false ∨ 0 ≤ entry X (x + s) ∨
    Bernoulli (1 + entry X (x + s)) (d.immune s) = true

instance (P : Parameters α) (X : List α) (x : Nat) (d : Draws α) :
    Decidable (Unblocked P X x d) := by
  unfold Unblocked; infer_instance

instance (P : Parameters α) (X : List α) (x s : Nat) (d : Draws α) :
    Decidable (Permitted P X x s d) := by
  unfold Permitted; infer_instance

/-- The store once Clearance has made serotype `j` immune memory:
`x[j * 2] = x[j * 2 + 1] = -P.sigma`. -/
def cleared (P : Parameters α) (X : List α) (x j : Nat) : List α :=
  (X.set (x + (j * 2 + 1)) (-P.sigma)).set (x + j * 2) (-P.sigma)

/-- Strain `s` is transferred: immunity permits it and the Bernoulli trial with
success probability `theta[s]` succeeds. -/
def Transferred (P : Parameters α) (X : List α) (x s : Nat) (d : Draws α) : Prop :=
  Permitted P X x s d ∧ Bernoulli (entry P.theta s) (d.success s) = true

instance (P : Parameters α) (X : List α) (x s : Nat) (d : Draws α) :
    Decidable (Transferred P X x s d) := by
  unfold Transferred; infer_instance

/-- The value Transfer leaves in `x[s]` before the row is normalised. -/
def transferValue (P : Parameters α) (X : List α) (x xx : Nat) (d : Draws α) (s : Nat)
    (v : α) : α :=
  if Transferred P X x s d then max v 0 + P.iota * entry X (xx + s) else v

/-- What Treatment does to entry `s`: a positive entry of even index becomes 0. -/
def treated (s : Nat) (v : α) : α := if s % 2 = 0 ∧ v > 0 then 0 else v

/-- What the first inner loop of the growth pass does to entry `s`: a positive
entry below `min_carriage` becomes 0, any other positive entry is multiplied by
`ww[s]`. -/
def grown (P : Parameters α) (ww : Nat → α) (s : Nat) (v : α) : α :=
  if v > 0 then (if v < P.min_carriage then 0 else v * ww s) else v

/-- The value of `total` after the first inner loop over the first `k` strains. -/
def growTotal (P : Parameters α) (ww : Nat → α) (X : List α) (i k : Nat) : α :=
  ∑ s in Finset.range k, if 0 < entry X (i + s) then grown P ww s (entry X (i + s)) else 0

/-- What the second inner loop does to an entry: `X[i + s] /= total` when positive. -/
def shared (total : α) (v : α) : α := if v > 0 then v / total else v

/-- Normalisation invariant: the positive entries of every host row sum to 0 or 1. -/
def Normalised (P : Parameters α) (X : List α) : Prop :=
  ∀ h, h < P.n_hosts →
    posSum X (P.n_strains * h) P.n_strains = 0 ∨ posSum X (P.n_strains * h) P.n_strains = 1

/-- Immune-memory bound: every negative entry lies in `[-sigma, 0)`. -/
def Bounded (P : Parameters α) (X : List α) : Prop :=
  ∀ i, entry X i < 0 → -P.sigma ≤ entry X i

/-- The multiplicity of host `h` as the reporter counts it: the number of positive
entries among the first `counted P` entries of its row. -/
def multiplicity (P : Parameters α) (X : List α) (h : Nat) : Nat :=
  ((Finset.range (counted P)).filter fun s => 0 < entry X (P.n_strains * h + s)).card

/-- The number of hosts whose multiplicity satisfies `p`. -/
def hostsWith (P : Parameters α) (X : List α) (p : Nat → Prop) [DecidablePred p] : Nat :=
  ((Finset.range P.n_hosts).filter fun h => p (multiplicity P X h)).card

/-- The value the growth pass leaves in entry `s` of the row that starts at `i`. -/
def passed (P : Parameters α) (ww : Nat → α) (X : List α) (i s : Nat) : α :=
  if 0 < growTotal P ww X i P.n_strains then
    shared (growTotal P ww X i P.n_strains) (grown P ww s (entry X (i + s)))
  else grown P ww s (entry X (i + s))

/-- What the growth pass of the row that starts at `i` adds to `l[s]`. -/
def tallied (P : Parameters α) (ww : Nat → α) (X : List α) (i s : Nat) : α :=
  if 0 < growTotal P ww X i P.n_strains ∧ 0 < grown P ww s (entry X (i + s)) then
    grown P ww s (entry X (i + s)) / growTotal P ww X i P.n_strains
  else 0

/-- The growth pass of the row that starts at `i` as the specification words it:
the pointwise growth of the row, then each resulting positive entry divided by
the sum of the resulting positive entries when that sum is positive. -/
def claimedGrowth (P : Parameters α) (ww : Nat → α) (X : List α) (i : Nat) : List α :=
  normalized (onRow X i P.n_strains (grown P ww)) i P.n_strains

/-- The tally of strain `s` as the specification words it: the sum over all hosts
of the value of strain `s` in the store `X'` that the pass leaves, floored at
`min_carriers` and divided by `n_hosts`. -/
def claimedTally (P : Parameters α) (X' : List α) (s : Nat) : α :=
  max (∑ h in Finset.range P.n_hosts, entry X' (P.n_strains * h + s)) P.min_carriers
    / (P.n_hosts : α)

/-- The default parameter set with `n` strains and `H` hosts, the vectors `w`,
`beta`, `theta` and `u` being resized with their default entries. -/
def sized (n H : Nat) : Parameters ℚ :=
  { defaults with
    n_strains := n
    n_hosts := H
    w := List.replicate n 1
    beta := List.replicate n 4
    theta := List.replicate n 1
    u := List.replicate (n / 2) 1 }

/-- The outcome of the random source in a time step in which every `R.Poisson` call
returns 0; the shuffle leaves the sequence as it is. -/
def noEvents : Tick ℚ where
  nTransmission := fun _ => 0
  nClearance := fun _ => 0
  nTreatment := 0
  nBirth := 0
  nTransfer := 0
  shuffle := fun es => es
  draws := fun _ => allSucceed 0 0

end Engine

/-! ## The configuration module (`Config/config.cpp`)

A `std::string` is a list of characters.  A name-value map
(`std::map<string, string>`) is the list of its entries in the order of their
keys.  The value of a parameter is what `ConvertFromString` makes of a text; the
conversion of a scalar (`istringstream >> x`) is a function `conv` carried by the
parameter.  `none` stands for an exception that is thrown or for an access
outside a vector.  Output to `cout` is left out. -/

section ConfigModule

/-- The characters that `Trim` removes: `" \t"`. -/
def blank (c : Char) : Bool := c = ' ' || c = Char.ofNat 9

/-- The function `Trim`: the text without leading and trailing blanks. -/
def Trim (s : List Char) : List Char :=
  match s.dropWhile blank with
  | [] => []
  | r => (r.reverse.dropWhile blank).reverse

/-- The loop of `ConvertFromString<vector<Subtype>>`.  `rest` is the text from the
position `start` on; `find(',', start)` is `npos` when no comma is left. -/
def ConvertFromStringLoop {β : Type} (subconv : List Char → β) :
    Nat → List Char → List β → Option (List β)
  | 0, _, _ => none
  | fuel + 1, rest, value_vector =>
    match rest.dropWhile (fun c => c != ',') with
    | [] => some (value_vector ++ [subconv (Trim (rest.takeWhile (fun c => c != ',')))])
    | _ :: rest' =>
      ConvertFromStringLoop subconv fuel rest'
        (value_vector ++ [subconv (Trim (rest.takeWhile (fun c => c != ',')))])

/-- The functor `ConvertFromString<vector<Subtype>>`: comma-delimited tokens are
trimmed and passed to the handler of the value type.  The loop runs at most once
for each character and once more. -/
def ConvertFromStringVector {β : Type} (subconv : List Char → β) (s : List Char) :
    Option (List β) :=
  ConvertFromStringLoop subconv (s.length + 1) s []

/-- The functor `ConvertToString<vector<Subtype>>`: the texts of the elements with a
comma after each but the last. -/
def ConvertToStringVector {β : Type} (subconv : β → List Char) : List β → List Char
  | [] => []
  | [x] => subconv x
  | x :: y :: rest => subconv x ++ ',' :: ConvertToStringVector subconv (y :: rest)

/-- The functor `ConvertFromString<bool>`: `s != "false"`. -/
def ConvertFromStringBool (s : List Char) : Bool := s != "false".toList

/-- The functor `ConvertToString<bool>`: `v ? "true" : "false"`. -/
def ConvertToStringBool (v : Bool) : List Char := if v then "true".toList else "false".toList

/-- The comma-separated tokens of a text. -/
def tokens : List Char → List (List Char)
  | [] => [[]]
  | c :: rest =>
    if c = ',' then [] :: tokens rest
    else
      match tokens rest with
      | [] => [[c]]
      | t :: ts => (c :: t) :: ts

/-- The type `Parameters::NameValueMap`. -/
abbrev NameValueMap := List (List Char × List Char)

/-- The order of the keys of a map: `a < b` for strings. -/
def less : List Char → List Char → Bool
  | _, [] => false
  | [], _ :: _ => true
  | a :: s, b :: t => decide (a.toNat < b.toNat) || (decide (a.toNat = b.toNat) && less s t)

/-- The call `nvm.find(key)`, with the value found. -/
def mapFind : NameValueMap → List Char → Option (List Char)
  | [], _ => none
  | e :: rest, key => if e.1 = key then some e.2 else mapFind rest key

/-- An entry put at its place in the order of the keys. -/
def place (e : List Char × List Char) : NameValueMap → NameValueMap
  | [] => [e]
  | x :: rest => if less e.1 x.1 then e :: x :: rest else x :: place e rest

/-- The call `nvm.insert(e)`: nothing is inserted when the key is present. -/
def mapInsert (nvm : NameValueMap) (e : List Char × List Char) : NameValueMap :=
  match mapFind nvm e.1 with
  | some _ => nvm
  | none => place e nvm

/-- The call `nvm.insert(src.begin(), src.end())`. -/
def mapInsertRange (nvm src : NameValueMap) : NameValueMap := src.foldl mapInsert nvm

/-- The value of a parameter: of a scalar type or of a type `vector<Subtype>`. -/
inductive Value (τ : Type) where
  | scalar (x : τ)
  | vector (xs : List τ)
deriving DecidableEq

/-- A parameter as declared by `PARAMETER(Type, Name, Default)`: its name, the
conversion of its type (of its element type for a vector), its default and its
current value. -/
structure Parameter (τ : Type) where
  Name : List Char
  conv : List Char → τ
  Default : Value τ
  value : Value τ

/-- The functor `ConvertFromString<Type>` for the type of the parameter. -/
def ConvertFromString {τ : Type} (parameter : Parameter τ) (s : List Char) : Option (Value τ) :=
  match parameter.value with
  | Value.scalar _ => some (Value.scalar (parameter.conv s))
  | Value.vector _ => (ConvertFromStringVector parameter.conv s).map Value.vector

/-- The test `isspace` in the "C" locale. -/
def isspace (c : Char) : Bool := c = ' ' || (decide (9 ≤ c.toNat) && decide (c.toNat ≤ 13))

/-- The test `isdigit`. -/
def isdigit (c : Char) : Bool := decide (48 ≤ c.toNat) && decide (c.toNat ≤ 57)

/-- The function `std::stoi` in base 10: leading white space, an optional sign and
the longest run of digits; it throws when there is no digit or the number is
not an `int`. -/
def stoi (s : List Char) : Option Int :=
  let s1 := s.dropWhile isspace
  let s2 := if s1.head? = some '-' ∨ s1.head? = some '+' then s1.tail else s1
  let digits := s2.takeWhile isdigit
  if digits = [] then none
  else
    let n : Int := digits.foldl (fun a c => 10 * a + ((c.toNat : Int) - 48)) 0
    let v : Int := if s1.head? = some '-' then -n else n
    if -2147483648 ≤ v ∧ v ≤ 2147483647 then some v else none

/-- The function `SetParameterFromMap2`: for a type that is not a vector it throws;
for a vector it sets the element `[index]` to the value found under the name of
the parameter.  An index outside the vector is an access outside it. -/
def SetParameterFromMap2 {τ : Type} (parameter : Parameter τ) (nvm : NameValueMap)
    (index : Int) : Option (Parameter τ × Bool) :=
  match parameter.value with
  | Value.scalar _ => none
  | Value.vector xs =>
    match mapFind nvm parameter.Name with
    | none => some (parameter, false)
    | some text =>
      if 0 ≤ index ∧ index < xs.length then
        some ({ parameter with value := Value.vector (xs.set index.toNat (parameter.conv text)) },
          true)
      else none

/-- The function `SetParameterFromMap`: the loop over the entries of the map, which
returns at the first entry whose key is the name of the parameter, or is that
name followed by a dot and an index. -/
def SetParameterFromMap {τ : Type} (parameter : Parameter τ) :
    NameValueMap → Option (Parameter τ × Bool)
  | [] => some (parameter, false)
  | p :: rest =>
    match p.1.dropWhile (fun c => c != '.') with
    | [] =>
      if p.1 = parameter.Name then
        (ConvertFromString parameter p.2).map fun v => ({ parameter with value := v }, true)
      else SetParameterFromMap parameter rest
    | _ :: index =>
      if p.1.takeWhile (fun c => c != '.') = parameter.Name then
        match stoi index with
        | none => none
        | some i =>
          SetParameterFromMap2 parameter [(p.1.takeWhile (fun c => c != '.'), p.2)] i
      else SetParameterFromMap parameter rest

/-- The method `AssignFromMap`: `SetParameterFromMap` on each declared parameter, in
the order of the declarations. -/
def AssignFromMap {τ : Type} (nvm : NameValueMap) :
    List (Parameter τ) → Option (List (Parameter τ))
  | [] => some []
  | parameter :: rest =>
    match SetParameterFromMap parameter nvm with
    | none => none
    | some r =>
      match AssignFromMap nvm rest with
      | none => none
      | some rest' => some (r.1 :: rest')

/-- The members of the class `Parameters` that the sweeps use: the declared
parameters with their values, the maps of the sweeps, the map of the command
line, the current sweep and the flag `_good`. -/
structure Config (τ : Type) where
  parameters : List (Parameter τ)
  _nvm_sweeps : List NameValueMap
  _nvm_override : NameValueMap
  _sweep : Nat
  _good : Bool

/-- The method `SetAllToDefault`. -/
def SetAllToDefault {τ : Type} (c : Config τ) : Config τ :=
  { c with parameters := c.parameters.map fun p => { p with value := p.Default } }

/-- The method `Sweep`. -/
def Sweep {τ : Type} (c : Config τ) : Nat := c._sweep

/-- The method `NSweeps`. -/
def NSweeps {τ : Type} (c : Config τ) : Nat := c._nvm_sweeps.length

/-- The method `Good`. -/
def Good {τ : Type} (c : Config τ) : Bool := c._good

/-- The method `NextSweep`. -/
def NextSweep {τ : Type} (c : Config τ) : Option (Config τ) :=
  if c._sweep + 1 = NSweeps c then some { c with _good := false, _sweep := NSweeps c - 1 }
  else
    match c._nvm_sweeps[c._sweep + 1]? with
    | none => none
    | some nvm =>
      match AssignFromMap nvm c.parameters with
      | none => none
      | some ps =>
        match AssignFromMap c._nvm_override ps with
        | none => none
        | some ps' => some { c with _sweep := c._sweep + 1, parameters := ps' }

/-- The loop `for (int S = 0; S < s; ++S) NextSweep();`. -/
def advance {τ : Type} (c : Config τ) : Nat → Option (Config τ)
  | 0 => some c
  | s + 1 =>
    match NextSweep c with
    | none => none
    | some c' => advance c' s

/-- The method `GoToSweep`, for `s >= 0`. -/
def GoToSweep {τ : Type} (c : Config τ) (s : Nat) : Option (Config τ) :=
  if s > NSweeps c then none else advance (SetAllToDefault c) s

/-- The skipped sweeps combined into the first sweep that is not skipped (lines 330
to 333): the maps of the sweeps `sweep_start - 2` down to 0 inserted, in this
order, into the map of sweep `sweep_start - 1`. -/
def combine (sweeps : List NameValueMap) (sweep_start : Nat) : NameValueMap :=
  (List.range (sweep_start - 1)).reverse.foldl
    (fun nvm i => mapInsertRange nvm (sweeps.getD i []))
    (sweeps.getD (sweep_start - 1) [])

/-- The limiting of the run to the sweeps `sweep_start` to `sweep_end` (lines 324 to
336). -/
def limitSweeps {τ : Type} (c : Config τ) (sweep_start sweep_end : Nat) : Option (Config τ) :=
  if sweep_start < 1 ∨ sweep_end < 1 ∨ sweep_start > NSweeps c ∨ sweep_end > NSweeps c
      ∨ sweep_start > sweep_end then none
  else
    some { c with
      _nvm_sweeps :=
        ((c._nvm_sweeps.set (sweep_start - 1) (combine c._nvm_sweeps sweep_start)).take
          sweep_end).drop (sweep_start - 1) }

/-- The method `Read(argc, argv)` from line 307 on, `c` being the state that
`InterpretLines` leaves: `range` is the sweep range of the command line, if one
is given, and `override` the map that the loop over the command line leaves in
`_nvm_override`. -/
def Read {τ : Type} (c : Config τ) (range : Option (Nat × Nat)) (override : NameValueMap) :
    Option (Config τ) :=
  match (match range with
    | none => some c
    | some r => limitSweeps c r.1 r.2) with
  | none => none
  | some c1 =>
    match c1._nvm_sweeps[c1._sweep]? with
    | none => none
    | some nvm =>
      match AssignFromMap nvm c1.parameters with
      | none => none
      | some ps =>
        match AssignFromMap override ps with
        | none => none
        | some ps' => some { c1 with parameters := ps', _nvm_override := override }

/-- The loop `for (...; P.Good(); P.NextSweep())` of `main`: the values of `Sweep()`
with which the body runs, and the state in which the loop ends. -/
def sweepLoop {τ : Type} : Nat → Config τ → Option (List Nat × Config τ)
  | 0, _ => none
  | fuel + 1, c =>
    if Good c then
      match NextSweep c with
      | none => none
      | some c' => (sweepLoop fuel c').map fun r => (Sweep c :: r.1, r.2)
    else some ([], c)

/-- A declaration `PARAMETER(Type, Name, Default)` of `config_def.h`, the default
being given by the text of its elements; values are kept as text. -/
def PARAMETER (type Name : String) (Default : List String) : Parameter (List Char) :=
  let d : Value (List Char) :=
    if "vector<".toList.isPrefixOf type.toList then Value.vector (Default.map String.toList)
    else Value.scalar (Default.headD "").toList
  { Name := Name.toList, conv := fun s => s, Default := d, value := d }

/-- The declarations of `config_def.h`. -/
def config_def : List (Parameter (List Char)) :=
  [ PARAMETER "int" "n_strains" ["2"],
    PARAMETER "int" "n_hosts" ["10000"],
    PARAMETER "vector<double>" "w" ["1", "1"],
    PARAMETER "vector<double>" "beta" ["4", "4"],
    PARAMETER "double" "gamma" ["0.0"],
    PARAMETER "vector<double>" "theta" ["1", "1"],
    PARAMETER "vector<double>" "u" ["1"],
    PARAMETER "double" "v" ["0.0"],
    PARAMETER "double" "k" ["1.0"],
    PARAMETER "double" "tau" ["0.1"],
    PARAMETER "double" "iota" ["1e-3"],
    PARAMETER "double" "phi" ["0.0"],
    PARAMETER "double" "min_carriage" ["3e-5"],
    PARAMETER "double" "min_carriers" ["1"],
    PARAMETER "double" "init" ["0.1"],
    PARAMETER "bool" "immunity" ["false"],
    PARAMETER "double" "sigma" ["1.0"],
    PARAMETER "double" "birth_rate" ["0"],
    PARAMETER "double" "t_max" ["24"],
    PARAMETER "double" "t_step" ["0.001"],
    PARAMETER "string" "fileout" ["./out.txt"],
    PARAMETER "int" "report" ["1000"],
    PARAMETER "bool" "first_sero" ["false"] ]

/-- The state that the constructor and `InterpretLines` leave for a file whose
sweeps are `sweeps`: the parameters at their defaults, no override, sweep 0. -/
def interpreted (sweeps : List NameValueMap) : Config (List Char) :=
  { parameters := config_def, _nvm_sweeps := sweeps, _nvm_override := [], _sweep := 0,
    _good := true }

/-- The value of the parameter `Name`. -/
def valueOf {τ : Type} (c : Config τ) (Name : String) : Option (Value τ) :=
  (c.parameters.find? fun p => p.Name = Name.toList).map fun p => p.value

end ConfigModule

/-! ## Basic facts about memory and loops -/

section MemoryLemmas

variable {α : Type}

theorem rd_eq_entry [Zero α] (X : List α) (i : Nat) (h : i < X.length) :
    rd X i = some (entry X i) := by
  simp [rd, entry, List.getD, List.getElem?_eq_getElem h]

theorem wr_eq_set (X : List α) (i : Nat) (v : α) (h : i < X.length) :
    wr X i v = some (X.set i v) := by
  simp [wr, h]

/-- A read fails exactly when its index is outside the store. -/
theorem rd_eq_none_iff (X : List α) (i : Nat) : rd X i = none ↔ X.length ≤ i := by
  simp [rd]

/-- A write fails exactly when its index is outside the store. -/
theorem wr_eq_none_iff (X : List α) (i : Nat) (v : α) : wr X i v = none ↔ X.length ≤ i := by
  unfold wr
  split
  · simp; omega
  · simp; omega

theorem entry_set [Zero α] (X : List α) (i j : Nat) (v : α) (h : i < X.length) :
    entry (X.set i v) j = if j = i then v else entry X j := by
  unfold entry
  by_cases hji : j = i
  · subst hji; simp [List.getD, h]
  · have : i ≠ j := fun e => hji e.symm
    simp [List.getD, List.getElem?_set_ne this, hji]

theorem entry_of_le [Zero α] (X : List α) (i : Nat) (h : X.length ≤ i) :
    entry X i = 0 := by
  simp [entry, List.getD, List.getElem?_eq_none h]

/-- Two stores of one length with the same entries are equal. -/
theorem store_ext [Zero α] (X Y : List α) (hl : X.length = Y.length)
    (h : ∀ i, i < X.length → entry X i = entry Y i) : X = Y := by
  apply List.ext_getElem hl
  intro i h1 h2
  have := h i h1
  simpa [entry, List.getD, List.getElem?_eq_getElem h1, List.getElem?_eq_getElem h2] using this

/-- Loop rule: an invariant indexed by the number of iterations done. -/
theorem loop_inv {σ : Type} (body : Nat → σ → Option σ) (c : Nat) :
    ∀ (cnt a : Nat) (Inv : Nat → σ → Prop) (st : σ), Inv 0 st →
      (∀ k, k < cnt → ∀ st, Inv k st → ∃ st', body (a + c * k) st = some st' ∧ Inv (k + 1) st') →
      ∃ st', loop body (List.range' a cnt c) st = some st' ∧ Inv cnt st' := by
  intro cnt
  induction cnt with
  | zero =>
    intro a Inv st h0 _
    exact ⟨st, by simp [loop], h0⟩
  | succ n ih =>
    intro a Inv st h0 hstep
    obtain ⟨st1, hb, h1⟩ := hstep 0 (Nat.succ_pos n) st h0
    simp only [Nat.mul_zero, Nat.add_zero] at hb
    obtain ⟨st2, hl, h2⟩ := ih (a + c) (fun k s => Inv (k + 1) s) st1 h1 (by
      intro k hk s hs
      have := hstep (k + 1) (Nat.succ_lt_succ hk) s hs
      have e : a + c * (k + 1) = a + c + c * k := by ring
      rw [e] at this
      exact this)
    refine ⟨st2, ?_, h2⟩
    simp only [List.range'_succ, loop, hb]
    exact hl

end MemoryLemmas

/-! ## The row view `onRow` -/

section RowLemmas

variable {α : Type} [LinearOrderedField α]

theorem length_onRow (X : List α) (off k : Nat) (f : Nat → α → α) :
    (onRow X off k f).length = X.length := by
  simp [onRow]

theorem entry_onRow (X : List α) (off k : Nat) (f : Nat → α → α) (i : Nat)
    (hi : i < X.length) :
    entry (onRow X off k f) i =
      if off ≤ i ∧ i < off + k then f (i - off) (entry X i) else entry X i := by
  have hl : i < (onRow X off k f).length := by rw [length_onRow]; exact hi
  have h1 : entry (onRow X off k f) i = (onRow X off k f)[i] := by
    simp [entry, List.getD, List.getElem?_eq_getElem hl]
  rw [h1]
  simp [onRow, List.getElem_range']

theorem entry_onRow_in (X : List α) (off k : Nat) (f : Nat → α → α) (s : Nat)
    (hs : s < k) (hk : off + k ≤ X.length) :
    entry (onRow X off k f) (off + s) = f s (entry X (off + s)) := by
  rw [entry_onRow X off k f (off + s) (by omega)]
  have : off ≤ off + s ∧ off + s < off + k := ⟨by omega, by omega⟩
  simp [this]

theorem entry_onRow_out (X : List α) (off k : Nat) (f : Nat → α → α) (i : Nat)
    (hi : i < off ∨ off + k ≤ i) :
    entry (onRow X off k f) i = entry X i := by
  by_cases hl : i < X.length
  · rw [entry_onRow X off k f i hl]
    have : ¬ (off ≤ i ∧ i < off + k) := by omega
    simp [this]
  · rw [entry_of_le _ _ (by rw [length_onRow]; omega), entry_of_le _ _ (by omega)]

theorem onRow_zero (X : List α) (off : Nat) (f : Nat → α → α) : onRow X off 0 f = X := by
  apply store_ext _ _ (length_onRow X off 0 f)
  intro i _
  exact entry_onRow_out X off 0 f i (by omega)

/-- One more iteration of a pointwise loop over a row. -/
theorem set_onRow (X : List α) (off k : Nat) (f : Nat → α → α) (hk : off + k < X.length) :
    (onRow X off k f).set (off + k) (f k (entry X (off + k))) = onRow X off (k + 1) f := by
  apply store_ext
  · simp [length_onRow]
  · intro i hi
    rw [List.length_set, length_onRow] at hi
    rw [entry_set _ _ _ _ (by rw [length_onRow]; exact hk), entry_onRow X off (k + 1) f i hi]
    by_cases h1 : i = off + k
    · subst h1
      have : off ≤ off + k ∧ off + k < off + (k + 1) := ⟨by omega, by omega⟩
      simp [this]
    · rw [if_neg h1, entry_onRow X off k f i hi]
      by_cases h2 : off ≤ i ∧ i < off + k
      · have h3 : off ≤ i ∧ i < off + (k + 1) := ⟨h2.1, by omega⟩
        rw [if_pos h2, if_pos h3]
      · have h3 : ¬ (off ≤ i ∧ i < off + (k + 1)) := by omega
        rw [if_neg h2, if_neg h3]

/-- A pointwise map that leaves every entry as it is leaves the store as it is. -/
theorem onRow_id (X : List α) (off k : Nat) (f : Nat → α → α)
    (hf : ∀ s, s < k → f s (entry X (off + s)) = entry X (off + s)) : onRow X off k f = X := by
  apply store_ext _ _ (length_onRow X off k f)
  intro i hi
  rw [length_onRow] at hi
  rw [entry_onRow X off k f i hi]
  split
  · rename_i h
    have := hf (i - off) (by omega)
    have e : off + (i - off) = i := by omega
    rw [e] at this
    exact this
  · rfl

theorem posSum_congr (X Y : List α) (off n : Nat)
    (h : ∀ s, s < n → entry Y (off + s) = entry X (off + s)) : posSum Y off n = posSum X off n := by
  unfold posSum
  apply Finset.sum_congr rfl
  intro s hs
  rw [h s (Finset.mem_range.mp hs)]

theorem posPart_of_pos (v : α) (h : 0 < v) : posPart v = v := by
  simp [posPart, h]

theorem posPart_of_not_pos (v : α) (h : ¬ 0 < v) : posPart v = 0 := by
  simp only [posPart, gt_iff_lt, if_neg h]

theorem posPart_nonneg (v : α) : 0 ≤ posPart v := by
  unfold posPart
  split
  · rename_i h; exact le_of_lt h
  · exact le_refl 0

theorem posSum_nonneg (X : List α) (off n : Nat) : 0 ≤ posSum X off n :=
  Finset.sum_nonneg fun _ _ => posPart_nonneg _

/-- The sum of the positive entries is positive exactly when some entry is positive. -/
theorem posSum_pos_iff (X : List α) (off n : Nat) :
    0 < posSum X off n ↔ ∃ s, s < n ∧ 0 < entry X (off + s) := by
  constructor
  · intro h
    by_contra hne
    push_neg at hne
    have : posSum X off n = 0 := by
      unfold posSum
      apply Finset.sum_eq_zero
      intro s hs
      have := hne s (Finset.mem_range.mp hs)
      simp [posPart, not_lt.mpr this]
    rw [this] at h
    exact lt_irrefl 0 h
  · rintro ⟨s, hs, hpos⟩
    unfold posSum
    have h1 : posPart (entry X (off + s)) ≤ ∑ t in Finset.range n, posPart (entry X (off + t)) :=
      Finset.single_le_sum (f := fun t => posPart (entry X (off + t)))
        (fun t _ => posPart_nonneg _) (Finset.mem_range.mpr hs)
    have h2 : posPart (entry X (off + s)) = entry X (off + s) := by simp [posPart, hpos]
    rw [h2] at h1
    exact lt_of_lt_of_le hpos h1

end RowLemmas

/-! ## `Normalize` in closed form -/

section NormalizeLemmas

variable {α : Type} [LinearOrderedField α]

theorem accumulate_eq (X : List α) (x n : Nat) (h : x + n ≤ X.length) :
    accumulate X x n = some (posSum X x n) := by
  obtain ⟨acc, hacc, hinv⟩ := loop_inv
    (fun s acc => match rd X (x + s) with
      | none => none
      | some v => some (acc + posPart v)) 1 n 0
    (fun k acc => acc = posSum X x k) (0 : α) (by simp [posSum]) (by
      intro k hk acc hacc
      have hr : rd X (x + (0 + 1 * k)) = some (entry X (x + k)) := by
        have e : 0 + 1 * k = k := by omega
        rw [e]
        exact rd_eq_entry X (x + k) (by omega)
      refine ⟨acc + posPart (entry X (x + k)), ?_, ?_⟩
      · simp only [hr]
      · rw [hacc]
        simp [posSum, Finset.sum_range_succ])
  unfold accumulate
  rw [hacc, hinv]

theorem Normalize_eq (P : Parameters α) (X : List α) (x : Nat)
    (h : x + P.n_strains ≤ X.length) :
    Normalize P X x = some (normalized X x P.n_strains) := by
  unfold Normalize normalized
  rw [accumulate_eq X x P.n_strains h]
  simp only [gt_iff_lt]
  by_cases ht : 0 < posSum X x P.n_strains
  · rw [if_pos ht, if_pos ht]
    obtain ⟨X', hX', hinv⟩ := loop_inv (divideStep (posSum X x P.n_strains) x) 1 P.n_strains 0
      (fun k Y => Y = onRow X x k (fun _ v => if v > 0 then v / posSum X x P.n_strains else v)) X
      (onRow_zero X x _).symm (by
        intro k hk Y hY
        have e : 0 + 1 * k = k := by omega
        rw [e]
        have hlen : x + k < Y.length := by rw [hY, length_onRow]; omega
        have hent : entry Y (x + k) = entry X (x + k) := by
          rw [hY]; exact entry_onRow_out X x k _ (x + k) (by omega)
        unfold divideStep
        rw [rd_eq_entry Y (x + k) hlen, hent]
        simp only [gt_iff_lt]
        by_cases hp : 0 < entry X (x + k)
        · rw [if_pos hp, wr_eq_set Y _ _ hlen]
          refine ⟨_, rfl, ?_⟩
          rw [hY, ← set_onRow X x k _ (by omega)]
          simp [hp]
        · rw [if_neg hp]
          refine ⟨_, rfl, ?_⟩
          rw [hY, ← set_onRow X x k _ (by omega)]
          simp only [gt_iff_lt, if_neg hp]
          apply store_ext
          · simp
          · intro i hi
            rw [entry_set _ _ _ _ (by rw [length_onRow]; omega)]
            split
            · rename_i hi2
              rw [hi2, entry_onRow_out X x k _ (x + k) (by omega)]
            · rfl)
    rw [hX', hinv]
  · rw [if_neg ht, if_neg ht]

theorem length_normalized (X : List α) (off n : Nat) :
    (normalized X off n).length = X.length := by
  unfold normalized
  split
  · exact length_onRow _ _ _ _
  · rfl

theorem entry_normalized_out (X : List α) (off n i : Nat) (hi : i < off ∨ off + n ≤ i) :
    entry (normalized X off n) i = entry X i := by
  unfold normalized
  split
  · exact entry_onRow_out _ _ _ _ _ hi
  · rfl

/-- Inside the row: a positive entry is divided by the sum of the positive
entries, any other entry is kept. -/
theorem entry_normalized_in (X : List α) (off n s : Nat) (hs : s < n)
    (hn : off + n ≤ X.length) :
    entry (normalized X off n) (off + s) =
      if 0 < entry X (off + s) then entry X (off + s) / posSum X off n
      else entry X (off + s) := by
  unfold normalized
  split
  · rw [entry_onRow_in X off n _ s hs hn]
  · rename_i ht
    split
    · rename_i hp
      exact absurd ((posSum_pos_iff X off n).mpr ⟨s, hs, hp⟩) ht
    · rfl

/-- After normalisation the positive entries of the row sum to 1, or to 0 when
there is none. -/
theorem posSum_normalized (X : List α) (off n : Nat) (hn : off + n ≤ X.length) :
    posSum (normalized X off n) off n = if 0 < posSum X off n then 1 else 0 := by
  by_cases ht : 0 < posSum X off n
  · rw [if_pos ht]
    have h1 : posSum (normalized X off n) off n
        = ∑ s in Finset.range n, posPart (entry X (off + s)) / posSum X off n := by
      show (∑ s in Finset.range n, posPart (entry (normalized X off n) (off + s))) = _
      apply Finset.sum_congr rfl
      intro s hs
      rw [entry_normalized_in X off n s (Finset.mem_range.mp hs) hn]
      by_cases hp : 0 < entry X (off + s)
      · rw [if_pos hp, posPart_of_pos _ (div_pos hp ht), posPart_of_pos _ hp]
      · rw [if_neg hp, posPart_of_not_pos _ hp, zero_div]
    rw [h1, ← Finset.sum_div]
    exact div_self (ne_of_gt ht)
  · rw [if_neg ht]
    have : normalized X off n = X := by unfold normalized; rw [if_neg ht]
    rw [this]
    exact le_antisymm (not_lt.mp ht) (posSum_nonneg X off n)

end NormalizeLemmas

/-! ## The tests of an event in closed form -/

section TestLemmas

variable {α : Type} [LinearOrderedField α]

theorem all_of_range (X : List α) (x : Nat) :
    ∀ (n a : Nat), x + a + n ≤ X.length →
      all_of X x (List.range' a n) =
        some (decide (∀ s, s < n → entry X (x + (a + s)) ≤ 0)) := by
  intro n
  induction n with
  | zero => intro a _; simp [all_of]
  | succ n ih =>
    intro a h
    rw [List.range'_succ]
    unfold all_of
    rw [rd_eq_entry X (x + a) (by omega)]
    by_cases h0 : entry X (x + a) ≤ 0
    · simp only [if_pos h0]
      rw [ih (a + 1) (by omega)]
      congr 1
      apply decide_eq_decide.mpr
      constructor
      · intro hall s hs
        cases s with
        | zero => simpa using h0
        | succ t =>
          have := hall t (by omega)
          have e : a + 1 + t = a + (t + 1) := by omega
          rw [e] at this
          exact this
      · intro hall s hs
        have := hall (s + 1) (by omega)
        have e : a + (s + 1) = a + 1 + s := by omega
        rw [e] at this
        exact this
    · simp only [if_neg h0]
      congr 1
      symm
      apply decide_eq_false
      intro hall
      exact h0 (by simpa using hall 0 (Nat.succ_pos n))

/-- The `all_of` test of an event holds exactly when no entry of the row is positive. -/
theorem all_of_eq (X : List α) (x n : Nat) (h : x + n ≤ X.length) :
    all_of X x (List.range' 0 n) = some (decide (∀ s, s < n → entry X (x + s) ≤ 0)) := by
  rw [all_of_range X x n 0 (by omega)]
  simp

/-- The blocking test returns, and passes exactly when `k == 1`, or the row has no
positive entry, or the Bernoulli trial with probability `k` succeeds. -/
theorem noBlocking_eq (P : Parameters α) (X : List α) (x : Nat) (d : Draws α)
    (h : x + P.n_strains ≤ X.length) :
    noBlocking P X x d =
      some (if P.k = 1 then (true, [])
        else if ∀ s, s < P.n_strains → entry X (x + s) ≤ 0 then (true, [])
        else (Bernoulli P.k d.block, [Call.Bernoulli P.k])) := by
  unfold noBlocking
  rw [all_of_eq X x P.n_strains h]
  by_cases hk : P.k = 1
  · simp [hk]
  · by_cases he : ∀ s, s < P.n_strains → entry X (x + s) ≤ 0
    · rw [decide_eq_true he, if_neg hk, if_neg hk, if_pos he]
    · rw [decide_eq_false he, if_neg hk, if_neg hk, if_neg he]

/-- The immunity test returns, and passes exactly when immunity is disabled, or
`x[s] >= 0`, or the Bernoulli trial with probability `1 + x[s]` succeeds. -/
theorem noImmunity_eq (P : Parameters α) (X : List α) (x s : Nat) (d : Draws α)
    (h : x + s < X.length) :
    noImmunity P X x s d =
      some (if P.immunity = false then (true, [])
        else if 0 ≤ entry X (x + s) then (true, [])
        else (Bernoulli (1 + entry X (x + s)) (d.immune s),
              [Call.Bernoulli (1 + entry X (x + s))])) := by
  unfold noImmunity
  rw [rd_eq_entry X (x + s) h]
  by_cases hi : P.immunity = false
  · simp [hi]
  · by_cases he : 0 ≤ entry X (x + s)
    · simp [hi, he]
    · simp [hi, he]

theorem colonise_eq (P : Parameters α) (X : List α) (x j : Nat)
    (h : x + P.n_strains ≤ X.length) (hj : j < P.n_strains) :
    colonise P X x j =
      some (normalized (X.set (x + j) (max (entry X (x + j)) 0 + P.iota)) x P.n_strains) := by
  unfold colonise
  rw [rd_eq_entry X (x + j) (by omega)]
  simp only
  rw [wr_eq_set X _ _ (by omega)]
  simp only
  rw [Normalize_eq P _ x (by rw [List.length_set]; exact h)]

end TestLemmas

/-! ## Transmission in closed form -/

section TransmissionLemmas

variable {α : Type} [LinearOrderedField α]

theorem noBlocking_fst (P : Parameters α) (X : List α) (x : Nat) (d : Draws α)
    (h : x + P.n_strains ≤ X.length) :
    ∃ c, noBlocking P X x d = some (decide (Unblocked P X x d), c) := by
  rw [noBlocking_eq P X x d h]
  by_cases hk : P.k = 1
  · refine ⟨[], ?_⟩
    rw [if_pos hk, decide_eq_true (show Unblocked P X x d from Or.inl hk)]
  · by_cases he : ∀ s, s < P.n_strains → entry X (x + s) ≤ 0
    · refine ⟨[], ?_⟩
      rw [if_neg hk, if_pos he, decide_eq_true (show Unblocked P X x d from Or.inr (Or.inl he))]
    · refine ⟨[Call.Bernoulli P.k], ?_⟩
      rw [if_neg hk, if_neg he]
      by_cases hb : Bernoulli P.k d.block = true
      · rw [decide_eq_true (show Unblocked P X x d from Or.inr (Or.inr hb)), hb]
      · have hn : ¬ Unblocked P X x d := by
          rintro (h1 | h2 | h3)
          · exact hk h1
          · exact he h2
          · exact hb h3
        rw [decide_eq_false hn, Bool.eq_false_iff.mpr hb]

theorem noImmunity_fst (P : Parameters α) (X : List α) (x s : Nat) (d : Draws α)
    (h : x + s < X.length) :
    ∃ c, noImmunity P X x s d = some (decide (Permitted P X x s d), c) := by
  rw [noImmunity_eq P X x s d h]
  by_cases hi : P.immunity = false
  · refine ⟨[], ?_⟩
    rw [if_pos hi, decide_eq_true (show Permitted P X x s d from Or.inl hi)]
  · by_cases he : 0 ≤ entry X (x + s)
    · refine ⟨[], ?_⟩
      rw [if_neg hi, if_pos he,
        decide_eq_true (show Permitted P X x s d from Or.inr (Or.inl he))]
    · refine ⟨[Call.Bernoulli (1 + entry X (x + s))], ?_⟩
      rw [if_neg hi, if_neg he]
      by_cases hb : Bernoulli (1 + entry X (x + s)) (d.immune s) = true
      · rw [decide_eq_true (show Permitted P X x s d from Or.inr (Or.inr hb)), hb]
      · have hn : ¬ Permitted P X x s d := by
          rintro (h1 | h2 | h3)
          · exact hi h1
          · exact he h2
          · exact hb h3
        rw [decide_eq_false hn, Bool.eq_false_iff.mpr hb]

/-- The only call the immunity test can make is the trial `Bernoulli(1 + x[s])`. -/
theorem noImmunity_calls (P : Parameters α) (X : List α) (x s : Nat) (d : Draws α)
    (h : x + s < X.length) (b : Bool) (c : List (Call α))
    (hc : noImmunity P X x s d = some (b, c)) :
    ∀ q, q ∈ c → q = Call.Bernoulli (1 + entry X (x + s)) := by
  rw [noImmunity_eq P X x s d h] at hc
  by_cases hi : P.immunity = false
  · rw [if_pos hi] at hc
    cases hc
    intro q hq
    cases hq
  · rw [if_neg hi] at hc
    by_cases he : 0 ≤ entry X (x + s)
    · rw [if_pos he] at hc
      cases hc
      intro q hq
      cases hq
    · rw [if_neg he] at hc
      cases hc
      intro q hq
      exact List.mem_singleton.mp hq

theorem caseTransmission_eq (P : Parameters α) (X : List α) (x j : Nat) (d : Draws α)
    (h : x + P.n_strains ≤ X.length) (hj : j < P.n_strains) :
    ∃ c, caseTransmission P X x j d =
      some (if Unblocked P X x d ∧ Permitted P X x j d then
          normalized (X.set (x + j) (max (entry X (x + j)) 0 + P.iota)) x P.n_strains
        else X, c) := by
  obtain ⟨c1, h1⟩ := noBlocking_fst P X x d h
  obtain ⟨c2, h2⟩ := noImmunity_fst P X x j d (by omega)
  unfold caseTransmission
  rw [h1]
  by_cases hu : Unblocked P X x d
  · rw [decide_eq_true hu]
    simp only
    rw [h2]
    by_cases hp : Permitted P X x j d
    · rw [decide_eq_true hp]
      simp only
      rw [colonise_eq P X x j h hj, if_pos ⟨hu, hp⟩]
      exact ⟨_, rfl⟩
    · rw [decide_eq_false hp]
      simp only
      rw [if_neg (fun hc => hp hc.2)]
      exact ⟨_, rfl⟩
  · rw [decide_eq_false hu]
    simp only
    rw [if_neg (fun hc => hu hc.1)]
    exact ⟨_, rfl⟩

end TransmissionLemmas

/-! ## Colonising a host that carries nothing -/

section EmptyHostLemmas

variable {α : Type} [LinearOrderedField α]

/-- In a row whose only positive entry is entry `j`, the positive entries sum to
that entry. -/
theorem posSum_single (X : List α) (off n j : Nat) (hj : j < n)
    (hpos : 0 < entry X (off + j))
    (hrest : ∀ s, s < n → s ≠ j → entry X (off + s) ≤ 0) :
    posSum X off n = entry X (off + j) := by
  unfold posSum
  rw [Finset.sum_eq_single j]
  · exact posPart_of_pos _ hpos
  · intro s hs hne
    exact posPart_of_not_pos _ (not_lt.mpr (hrest s (Finset.mem_range.mp hs) hne))
  · intro hnot
    exact absurd (Finset.mem_range.mpr hj) hnot

/-- Normalising a row whose only positive entry is entry `j` sets that entry to 1. -/
theorem normalized_single (X : List α) (off n j : Nat) (hj : j < n) (hn : off + n ≤ X.length)
    (hpos : 0 < entry X (off + j))
    (hrest : ∀ s, s < n → s ≠ j → entry X (off + s) ≤ 0) :
    normalized X off n = X.set (off + j) 1 := by
  apply store_ext
  · rw [length_normalized, List.length_set]
  · intro i hi
    rw [length_normalized] at hi
    rw [entry_set X (off + j) i 1 (by omega)]
    by_cases hin : off ≤ i ∧ i < off + n
    · obtain ⟨s, rfl⟩ : ∃ s, i = off + s := ⟨i - off, by omega⟩
      have hs : s < n := by omega
      rw [entry_normalized_in X off n s hs hn]
      by_cases hsj : s = j
      · subst hsj
        rw [if_pos hpos, if_pos rfl, posSum_single X off n s hs hpos hrest]
        exact div_self (ne_of_gt hpos)
      · rw [if_neg (not_lt.mpr (hrest s hs hsj)), if_neg (by omega)]
    · rw [entry_normalized_out X off n i (by omega), if_neg (by omega)]

end EmptyHostLemmas

/-! ## Pointwise loops over a row -/

section PointwiseLemmas

variable {α : Type} [LinearOrderedField α]

theorem set_entry_self (X : List α) (i : Nat) (h : i < X.length) : X.set i (entry X i) = X := by
  apply store_ext
  · rw [List.length_set]
  · intro k _
    rw [entry_set X i k _ h]
    split
    · rename_i hk; rw [hk]
    · rfl

/-- A loop over the strains whose iteration `s` assigns `f s x[s]` to `x[s]`
rewrites the row pointwise. -/
theorem loop_pointwise (body : Nat → List α → Option (List α)) (f : Nat → α → α)
    (X : List α) (x n : Nat) (h : x + n ≤ X.length)
    (hbody : ∀ s Y, s < n → x + s < Y.length →
      body s Y = some (Y.set (x + s) (f s (entry Y (x + s))))) :
    loop body (List.range' 0 n) X = some (onRow X x n f) := by
  obtain ⟨X', hX', hinv⟩ := loop_inv body 1 n 0 (fun k Y => Y = onRow X x k f) X
    (onRow_zero X x f).symm (by
      intro k hk Y hY
      have e : 0 + 1 * k = k := by omega
      rw [e]
      have hlen : x + k < Y.length := by rw [hY, length_onRow]; omega
      refine ⟨_, hbody k Y hk hlen, ?_⟩
      have hent : entry Y (x + k) = entry X (x + k) := by
        rw [hY]; exact entry_onRow_out X x k f (x + k) (by omega)
      rw [hent, hY, set_onRow X x k f (by omega)])
  rw [hX', hinv]

/-- The cascade loop of Clearance sets every positive entry of the row to 0. -/
theorem zeroLoop_eq (X : List α) (x n : Nat) (h : x + n ≤ X.length) :
    loop (zeroStep x) (List.range' 0 n) X =
      some (onRow X x n (fun _ v => if v > 0 then 0 else v)) := by
  apply loop_pointwise (zeroStep x) (fun _ v => if v > 0 then 0 else v) X x n h
  intro s Y _ hlen
  unfold zeroStep
  rw [rd_eq_entry Y (x + s) hlen]
  simp only
  by_cases hp : entry Y (x + s) > 0
  · rw [if_pos hp, if_pos hp, wr_eq_set Y _ _ hlen]
  · rw [if_neg hp, if_neg hp, set_entry_self Y _ hlen]

/-- The loop of Birth sets every entry of the row to 0. -/
theorem fillLoop_eq (X : List α) (x n : Nat) (h : x + n ≤ X.length) :
    loop (fun s Y => wr Y (x + s) 0) (List.range' 0 n) X =
      some (onRow X x n (fun _ _ => 0)) := by
  apply loop_pointwise (fun s Y => wr Y (x + s) 0) (fun _ _ => 0) X x n h
  intro s Y _ hlen
  exact wr_eq_set Y _ _ hlen

theorem carried_eq (X : List α) (x j : Nat) (h : x + (j * 2 + 1) < X.length) :
    carried X x j =
      some (decide (0 < entry X (x + j * 2) ∨ 0 < entry X (x + (j * 2 + 1)))) := by
  unfold carried
  rw [rd_eq_entry X (x + j * 2) (by omega)]
  simp only
  by_cases ha : 0 < entry X (x + j * 2)
  · rw [if_pos ha, decide_eq_true (Or.inl ha)]
  · rw [if_neg ha, rd_eq_entry X (x + (j * 2 + 1)) h]
    simp only
    by_cases hb : 0 < entry X (x + (j * 2 + 1))
    · rw [decide_eq_true hb, decide_eq_true (Or.inr hb)]
    · rw [decide_eq_false hb, decide_eq_false (fun hc => hc.elim ha hb)]

theorem caseClearance_eq (P : Parameters α) (X : List α) (x j : Nat) (d : Draws α)
    (h : x + P.n_strains ≤ X.length) (hj : j * 2 + 1 < P.n_strains) :
    caseClearance P X x j d =
      some (if 0 < entry X (x + j * 2) ∨ 0 < entry X (x + (j * 2 + 1)) then
          (normalized (if Bernoulli P.v d.cascade = true then
              onRow (cleared P X x j) x P.n_strains (fun _ v => if v > 0 then 0 else v)
            else cleared P X x j) x P.n_strains, [Call.Bernoulli P.v])
        else (X, [])) := by
  unfold caseClearance
  rw [carried_eq X x j (by omega)]
  by_cases hc : 0 < entry X (x + j * 2) ∨ 0 < entry X (x + (j * 2 + 1))
  · rw [decide_eq_true hc, if_pos hc]
    simp only
    rw [wr_eq_set X _ _ (by omega)]
    simp only
    rw [wr_eq_set _ _ _ (by rw [List.length_set]; omega)]
    simp only
    have hlen : x + P.n_strains ≤ (cleared P X x j).length := by
      unfold cleared; rw [List.length_set, List.length_set]; exact h
    by_cases hb : Bernoulli P.v d.cascade = true
    · rw [if_pos hb, if_pos hb]
      have := zeroLoop_eq (cleared P X x j) x P.n_strains hlen
      unfold cleared at this
      rw [this]
      simp only
      rw [Normalize_eq P _ x (by rw [length_onRow, List.length_set, List.length_set]; exact h)]
      rfl
    · rw [if_neg hb, if_neg hb]
      simp only
      have := Normalize_eq P (cleared P X x j) x hlen
      unfold cleared at this
      rw [this]
      rfl
  · rw [decide_eq_false hc, if_neg hc]

end PointwiseLemmas

/-! ## Clearance: the entries of the cleared row -/

section ClearanceLemmas

variable {α : Type} [LinearOrderedField α]

theorem length_cleared (P : Parameters α) (X : List α) (x j : Nat) :
    (cleared P X x j).length = X.length := by
  unfold cleared; rw [List.length_set, List.length_set]

theorem entry_cleared (P : Parameters α) (X : List α) (x j i : Nat)
    (h : x + (j * 2 + 1) < X.length) :
    entry (cleared P X x j) i =
      if i = x + j * 2 ∨ i = x + (j * 2 + 1) then -P.sigma else entry X i := by
  unfold cleared
  rw [entry_set _ _ _ _ (by rw [List.length_set]; omega), entry_set _ _ _ _ h]
  by_cases h1 : i = x + j * 2
  · rw [if_pos h1, if_pos (Or.inl h1)]
  · rw [if_neg h1]
    by_cases h2 : i = x + (j * 2 + 1)
    · rw [if_pos h2, if_pos (Or.inr h2)]
    · rw [if_neg h2, if_neg (fun hc => hc.elim h1 h2)]

/-- A row without positive entry is left as it is by normalisation. -/
theorem normalized_of_no_pos (X : List α) (off n : Nat)
    (h : ∀ s, s < n → ¬ 0 < entry X (off + s)) : normalized X off n = X := by
  unfold normalized
  rw [if_neg]
  intro hp
  obtain ⟨s, hs, hpos⟩ := (posSum_pos_iff X off n).mp hp
  exact h s hs hpos

end ClearanceLemmas

/-! ## Transfer in closed form -/

section TransferLemmas

variable {α : Type} [LinearOrderedField α]

theorem Permitted_congr (P : Parameters α) (X Y : List α) (x s : Nat) (d : Draws α)
    (h : entry Y (x + s) = entry X (x + s)) : Permitted P Y x s d ↔ Permitted P X x s d := by
  unfold Permitted
  rw [h]

/-- One iteration of the strain loop of Transfer, on a store whose entries `x[s]`
and `xx[s]` are still those of `X`. -/
theorem transferStep_eq (P : Parameters α) (X : List α) (x xx : Nat) (d : Draws α) (s : Nat)
    (st : Run α) (hth : s < P.theta.length) (hx : x + s < st.X.length)
    (hxx : xx + s < st.X.length)
    (h1 : entry st.X (x + s) = entry X (x + s)) (h2 : entry st.X (xx + s) = entry X (xx + s)) :
    ∃ c, transferStep P x xx d s st = some
      { X := st.X.set (x + s) (transferValue P X x xx d s (entry st.X (x + s))),
        normalize := st.normalize || decide (Transferred P X x s d),
        calls := st.calls ++ c } ∧
      ∀ q, q ∈ c → q = Call.Bernoulli (1 + entry X (x + s)) ∨
        q = Call.Bernoulli (entry P.theta s) := by
  obtain ⟨c, hc⟩ := noImmunity_fst P st.X x s d hx
  have hcalls := noImmunity_calls P st.X x s d hx _ c hc
  rw [h1] at hcalls
  have hperm := Permitted_congr P X st.X x s d h1
  have hboth : ∀ q, q ∈ c ++ [Call.Bernoulli (entry P.theta s)] →
      q = Call.Bernoulli (1 + entry X (x + s)) ∨ q = Call.Bernoulli (entry P.theta s) := by
    intro q hq
    rcases List.mem_append.mp hq with h | h
    · exact Or.inl (hcalls q h)
    · exact Or.inr (List.mem_singleton.mp h)
  unfold transferStep
  rw [hc]
  by_cases hp : Permitted P X x s d
  · rw [decide_eq_true (hperm.mpr hp)]
    simp only
    rw [rd_eq_entry P.theta s hth]
    simp only
    by_cases hb : Bernoulli (entry P.theta s) (d.success s) = true
    · have ht : Transferred P X x s d := ⟨hp, hb⟩
      rw [if_pos hb, rd_eq_entry st.X _ hx, rd_eq_entry st.X _ hxx]
      simp only
      rw [wr_eq_set st.X _ _ hx]
      simp only
      refine ⟨c ++ [Call.Bernoulli (entry P.theta s)], ?_, hboth⟩
      unfold transferValue
      rw [if_pos ht, decide_eq_true ht, h2, Bool.or_true, List.append_assoc]
    · have ht : ¬ Transferred P X x s d := fun hc => hb hc.2
      rw [if_neg hb]
      refine ⟨c ++ [Call.Bernoulli (entry P.theta s)], ?_, hboth⟩
      unfold transferValue
      rw [if_neg ht, decide_eq_false ht, Bool.or_false, set_entry_self st.X _ hx,
        List.append_assoc]
  · have ht : ¬ Transferred P X x s d := fun hc => hp hc.1
    rw [decide_eq_false (fun hq => hp (hperm.mp hq))]
    simp only
    refine ⟨c, ?_, fun q hq => Or.inl (hcalls q hq)⟩
    unfold transferValue
    rw [if_neg ht, decide_eq_false ht, Bool.or_false, set_entry_self st.X _ hx]

/-- The strain loop of Transfer, for a contact row that is the target row itself
or does not overlap it. -/
theorem transferLoop_eq (P : Parameters α) (X : List α) (x xx : Nat) (d : Draws α)
    (c0 : List (Call α)) (hth : P.theta.length = P.n_strains)
    (hx : x + P.n_strains ≤ X.length) (hxx : xx + P.n_strains ≤ X.length)
    (hrows : xx = x ∨ xx + P.n_strains ≤ x ∨ x + P.n_strains ≤ xx) :
    ∃ c, loop (transferStep P x xx d) (List.range' 0 P.n_strains)
        { X := X, normalize := false, calls := c0 } = some
      { X := onRow X x P.n_strains (transferValue P X x xx d),
        normalize := decide (∃ s, s < P.n_strains ∧ Transferred P X x s d),
        calls := c0 ++ c } ∧
      ∀ q, q ∈ c → ∃ s, s < P.n_strains ∧
        (q = Call.Bernoulli (1 + entry X (x + s)) ∨ q = Call.Bernoulli (entry P.theta s)) := by
  obtain ⟨st, hst, hX, hn, c, hc, hq⟩ := loop_inv (transferStep P x xx d) 1 P.n_strains 0
    (fun k st => st.X = onRow X x k (transferValue P X x xx d) ∧
      st.normalize = decide (∃ s, s < k ∧ Transferred P X x s d) ∧
      ∃ c, st.calls = c0 ++ c ∧
        ∀ q, q ∈ c → ∃ s, s < k ∧
          (q = Call.Bernoulli (1 + entry X (x + s)) ∨ q = Call.Bernoulli (entry P.theta s)))
    { X := X, normalize := false, calls := c0 }
    ⟨(onRow_zero X x _).symm, by simp, [], by simp, fun q hq => by cases hq⟩ (by
      rintro k hk st ⟨hX, hn, c, hc, hq⟩
      have e : 0 + 1 * k = k := by omega
      rw [e]
      have hlen : st.X.length = X.length := by rw [hX, length_onRow]
      have h1 : entry st.X (x + k) = entry X (x + k) := by
        rw [hX]; exact entry_onRow_out X x k _ (x + k) (by omega)
      have h2 : entry st.X (xx + k) = entry X (xx + k) := by
        rw [hX]; exact entry_onRow_out X x k _ (xx + k) (by omega)
      obtain ⟨c', hc', hq'⟩ :=
        transferStep_eq P X x xx d k st (by omega) (by omega) (by omega) h1 h2
      refine ⟨_, hc', ?_, ?_, c ++ c', ?_, ?_⟩
      · show st.X.set (x + k) _ = _
        rw [h1, hX, set_onRow X x k _ (by omega)]
      · show (st.normalize || decide (Transferred P X x k d)) = _
        rw [hn]
        by_cases ht : Transferred P X x k d
        · rw [decide_eq_true ht, Bool.or_true]
          exact (decide_eq_true ⟨k, by omega, ht⟩).symm
        · rw [decide_eq_false ht, Bool.or_false]
          apply decide_eq_decide.mpr
          constructor
          · rintro ⟨s, hs, h⟩; exact ⟨s, by omega, h⟩
          · rintro ⟨s, hs, h⟩
            have : s ≠ k := fun e => ht (e ▸ h)
            exact ⟨s, by omega, h⟩
      · show st.calls ++ c' = _
        rw [hc, List.append_assoc]
      · intro q hmem
        rcases List.mem_append.mp hmem with h | h
        · obtain ⟨s, hs, hs'⟩ := hq q h
          exact ⟨s, by omega, hs'⟩
        · exact ⟨k, by omega, hq' q h⟩)
  refine ⟨c, ?_, hq⟩
  rw [hst]
  congr 1
  cases st
  simp only at hX hn hc
  rw [hX, hn, hc]

/-- The strain loop of Transfer returns and keeps the size of the store, whatever
the two row offsets inside the store. -/
theorem transferLoop_safe (P : Parameters α) (X : List α) (x xx : Nat) (d : Draws α)
    (c0 : List (Call α)) (hth : P.theta.length = P.n_strains)
    (hx : x + P.n_strains ≤ X.length) (hxx : xx + P.n_strains ≤ X.length) :
    ∃ st, loop (transferStep P x xx d) (List.range' 0 P.n_strains)
        { X := X, normalize := false, calls := c0 } = some st ∧ st.X.length = X.length := by
  apply loop_inv (transferStep P x xx d) 1 P.n_strains 0
    (fun _ st => st.X.length = X.length) { X := X, normalize := false, calls := c0 } rfl
  intro k hk st hlen
  have e : 0 + 1 * k = k := by omega
  rw [e]
  obtain ⟨c, hc, _⟩ :=
    transferStep_eq P st.X x xx d k st (by omega) (by omega) (by omega) rfl rfl
  exact ⟨_, hc, by simp [hlen]⟩

theorem caseTransfer_eq (P : Parameters α) (X : List α) (x : Nat) (d : Draws α)
    (hth : P.theta.length = P.n_strains) (hx : x + P.n_strains ≤ X.length)
    (hxx : (P.n_strains * d.contact) % 2 ^ 32 + P.n_strains ≤ X.length)
    (hrows : (P.n_strains * d.contact) % 2 ^ 32 = x ∨
      (P.n_strains * d.contact) % 2 ^ 32 + P.n_strains ≤ x ∨
      x + P.n_strains ≤ (P.n_strains * d.contact) % 2 ^ 32) :
    ∃ c1 c2, noBlocking P X x d = some (decide (Unblocked P X x d), c1) ∧
      caseTransfer P X x d = some
        (if Unblocked P X x d then
          ((if ∃ s, s < P.n_strains ∧ Transferred P X x s d then
            normalized (onRow X x P.n_strains
              (transferValue P X x ((P.n_strains * d.contact) % 2 ^ 32) d)) x P.n_strains
          else X), c1 ++ [Call.Discrete P.n_hosts] ++ c2)
        else (X, c1)) ∧
      ∀ q, q ∈ c2 → ∃ s, s < P.n_strains ∧
        (q = Call.Bernoulli (1 + entry X (x + s)) ∨ q = Call.Bernoulli (entry P.theta s)) := by
  obtain ⟨c1, h1⟩ := noBlocking_fst P X x d hx
  by_cases hu : Unblocked P X x d
  · obtain ⟨c2, h2, hq⟩ := transferLoop_eq P X x ((P.n_strains * d.contact) % 2 ^ 32) d
      (c1 ++ [Call.Discrete P.n_hosts]) hth hx hxx hrows
    refine ⟨c1, c2, h1, ?_, hq⟩
    unfold caseTransfer
    rw [h1, decide_eq_true hu, if_pos hu]
    simp only
    rw [h2]
    simp only
    by_cases ht : ∃ s, s < P.n_strains ∧ Transferred P X x s d
    · rw [decide_eq_true ht, if_pos ht]
      simp only [if_true]
      rw [Normalize_eq P _ x (by rw [length_onRow]; exact hx)]
    · rw [decide_eq_false ht, if_neg ht]
      simp only [Bool.false_eq_true, if_false]
      rw [onRow_id]
      intro s hs
      unfold transferValue
      rw [if_neg (fun h => ht ⟨s, hs, h⟩)]
  · refine ⟨c1, [], h1, ?_, fun q hq => by cases hq⟩
    unfold caseTransfer
    rw [h1, decide_eq_false hu, if_neg hu]

end TransferLemmas

/-! ## The event tag -/

section TagLemmas

theorem testBit_eq_false_of_lt (x n i : Nat) (hx : x < 2 ^ n) (hi : n ≤ i) :
    x.testBit i = false :=
  Nat.testBit_lt_two_pow (lt_of_lt_of_le hx (Nat.pow_le_pow_right (by decide) hi))

/-- A tag `kind | j` with the kind in bits 16 to 19 and `j` below 65536 decodes to
its two parts. -/
theorem tag_decode (a j : Nat) (ha : a < 16) (hj : j < 65536) :
    (2 ^ 16 * a ||| j) &&& 0xFFFF = j ∧ (2 ^ 16 * a ||| j) &&& 0xF0000 = 2 ^ 16 * a := by
  have hj' : j < 2 ^ 16 := hj
  constructor
  · rw [← Nat.mul_add_lt_is_or hj' a]
    have : (0xFFFF : Nat) = 2 ^ 16 - 1 := by decide
    rw [this, Nat.and_pow_two_sub_one_eq_mod]
    omega
  · apply Nat.eq_of_testBit_eq
    intro i
    have hM : (0xF0000 : Nat) = 2 ^ 16 * (2 ^ 4 - 1) := by decide
    rw [hM, Nat.testBit_and, Nat.testBit_or, Nat.testBit_mul_pow_two, Nat.testBit_mul_pow_two,
      Nat.testBit_two_pow_sub_one]
    by_cases hi : 16 ≤ i
    · rw [testBit_eq_false_of_lt j 16 i hj' hi]
      by_cases hi2 : i - 16 < 4
      · simp [hi, hi2]
      · rw [testBit_eq_false_of_lt a 4 (i - 16) ha (by omega)]
        simp
    · simp [hi]

end TagLemmas

/-! ## Treatment and Birth in closed form -/

section TreatmentLemmas

variable {α : Type} [LinearOrderedField α]

/-- Extending a pointwise map by an entry that it keeps changes nothing. -/
theorem onRow_succ_fix (X : List α) (off k : Nat) (f : Nat → α → α)
    (h : f k (entry X (off + k)) = entry X (off + k)) :
    onRow X off (k + 1) f = onRow X off k f := by
  apply store_ext
  · rw [length_onRow, length_onRow]
  · intro i hi
    rw [length_onRow] at hi
    rw [entry_onRow X off (k + 1) f i hi, entry_onRow X off k f i hi]
    by_cases h1 : off ≤ i ∧ i < off + k
    · rw [if_pos h1, if_pos ⟨h1.1, by omega⟩]
    · rw [if_neg h1]
      by_cases h2 : i = off + k
      · subst h2
        rw [if_pos ⟨by omega, by omega⟩]
        have e : off + k - off = k := by omega
        rw [e, h]
      · rw [if_neg (by omega)]

theorem upTo_two (n : Nat) : upTo n 2 = List.range' 0 ((n + 1) / 2) 2 := rfl

theorem treatLoop_eq (X : List α) (x n : Nat) (h : x + n ≤ X.length) :
    loop (treatStep x) (upTo n 2) (X, false) =
      some (onRow X x n treated,
        decide (∃ s, s < n ∧ s % 2 = 0 ∧ 0 < entry X (x + s))) := by
  rw [upTo_two]
  obtain ⟨st, hst, hX, hflag⟩ := loop_inv (treatStep x) 2 ((n + 1) / 2) 0
    (fun k st => st.1 = onRow X x (min (2 * k) n) treated ∧
      st.2 = decide (∃ s, s < 2 * k ∧ s < n ∧ s % 2 = 0 ∧ 0 < entry X (x + s)))
    (X, false) ⟨by simp [onRow_zero], by simp⟩ (by
      rintro k hk ⟨Y, flag⟩ ⟨hY, hf⟩
      simp only at hY hf
      have e : 0 + 2 * k = 2 * k := by omega
      rw [e]
      have hkn : 2 * k < n := by omega
      have hmin : min (2 * k) n = 2 * k := by omega
      rw [hmin] at hY
      have hlen : x + 2 * k < Y.length := by rw [hY, length_onRow]; omega
      have hent : entry Y (x + 2 * k) = entry X (x + 2 * k) := by
        rw [hY]; exact entry_onRow_out X x (2 * k) _ _ (by omega)
      have hnext : onRow X x (min (2 * (k + 1)) n) treated = onRow X x (2 * k + 1) treated := by
        by_cases hn : n = 2 * k + 1
        · have : min (2 * (k + 1)) n = 2 * k + 1 := by omega
          rw [this]
        · have : min (2 * (k + 1)) n = 2 * k + 1 + 1 := by omega
          rw [this]
          apply onRow_succ_fix
          unfold treated
          rw [if_neg (by omega)]
      have hset : Y.set (x + 2 * k) (treated (2 * k) (entry X (x + 2 * k)))
          = onRow X x (min (2 * (k + 1)) n) treated := by
        rw [hnext, hY, set_onRow X x (2 * k) treated (by omega)]
      unfold treatStep
      simp only
      rw [rd_eq_entry Y _ hlen, hent]
      simp only
      by_cases hp : entry X (x + 2 * k) > 0
      · rw [if_pos hp, wr_eq_set Y _ _ hlen]
        simp only
        refine ⟨_, rfl, ?_, ?_⟩
        · simp only
          rw [← hset]
          unfold treated
          rw [if_pos ⟨by omega, hp⟩]
        · simp only
          exact (decide_eq_true ⟨2 * k, by omega, hkn, by omega, hp⟩).symm
      · rw [if_neg hp]
        refine ⟨_, rfl, ?_, ?_⟩
        · simp only
          rw [← hset]
          unfold treated
          rw [if_neg (fun hc => hp hc.2), ← hent, set_entry_self Y _ hlen]
        · simp only
          rw [hf]
          apply decide_eq_decide.mpr
          constructor
          · rintro ⟨s, h1, h2, h3, h4⟩
            exact ⟨s, by omega, h2, h3, h4⟩
          · rintro ⟨s, h1, h2, h3, h4⟩
            have hne : s ≠ 2 * k := fun e => hp (e ▸ h4)
            exact ⟨s, by omega, h2, h3, h4⟩)
  rw [hst]
  have hmin : min (2 * ((n + 1) / 2)) n = n := by omega
  rw [hmin] at hX
  obtain ⟨Y, flag⟩ := st
  simp only at hX hflag
  rw [hX, hflag]
  congr 2
  apply decide_eq_decide.mpr
  constructor
  · rintro ⟨s, _, h2, h3, h4⟩
    exact ⟨s, h2, h3, h4⟩
  · rintro ⟨s, h2, h3, h4⟩
    exact ⟨s, by omega, h2, h3, h4⟩

theorem caseTreatment_eq (P : Parameters α) (X : List α) (x : Nat)
    (h : x + P.n_strains ≤ X.length) :
    caseTreatment P X x =
      some (if ∃ s, s < P.n_strains ∧ s % 2 = 0 ∧ 0 < entry X (x + s) then
          normalized (onRow X x P.n_strains treated) x P.n_strains
        else X, []) := by
  unfold caseTreatment
  rw [treatLoop_eq X x P.n_strains h]
  simp only
  by_cases hc : ∃ s, s < P.n_strains ∧ s % 2 = 0 ∧ 0 < entry X (x + s)
  · rw [decide_eq_true hc, if_pos hc]
    simp only [if_true]
    rw [Normalize_eq P _ x (by rw [length_onRow]; exact h)]
  · rw [decide_eq_false hc, if_neg hc]
    simp only [Bool.false_eq_true, if_false]
    rw [onRow_id]
    intro s hs
    unfold treated
    rw [if_neg]
    rintro ⟨h1, h2⟩
    exact hc ⟨s, hs, h1, h2⟩

theorem caseBirth_eq (P : Parameters α) (X : List α) (x : Nat)
    (h : x + P.n_strains ≤ X.length) :
    caseBirth P X x = some (onRow X x P.n_strains (fun _ _ => 0), []) := by
  unfold caseBirth
  rw [fillLoop_eq X x P.n_strains h]

end TreatmentLemmas

/-! ## The growth pass of one host in closed form -/

section GrowthLemmas

variable {α : Type} [LinearOrderedField α]

theorem growLoop_eq (P : Parameters α) (ww : Nat → α) (X : List α) (i : Nat)
    (h : i + P.n_strains ≤ X.length) :
    loop (growStep P ww i) (List.range' 0 P.n_strains) (X, 0) =
      some (onRow X i P.n_strains (grown P ww), growTotal P ww X i P.n_strains) := by
  obtain ⟨st, hst, hX, ht⟩ := loop_inv (growStep P ww i) 1 P.n_strains 0
    (fun k st => st.1 = onRow X i k (grown P ww) ∧ st.2 = growTotal P ww X i k)
    (X, 0) ⟨(onRow_zero X i _).symm, by simp [growTotal]⟩ (by
      rintro k hk ⟨Y, t⟩ ⟨hY, ht⟩
      simp only at hY ht
      have e : 0 + 1 * k = k := by omega
      rw [e]
      have hlen : i + k < Y.length := by rw [hY, length_onRow]; omega
      have hent : entry Y (i + k) = entry X (i + k) := by
        rw [hY]; exact entry_onRow_out X i k _ _ (by omega)
      have hset : Y.set (i + k) (grown P ww k (entry X (i + k)))
          = onRow X i (k + 1) (grown P ww) := by
        rw [hY, set_onRow X i k _ (by omega)]
      unfold growStep
      simp only
      rw [rd_eq_entry Y _ hlen, hent]
      simp only
      by_cases hp : entry X (i + k) > 0
      · rw [if_pos hp, wr_eq_set Y _ _ hlen]
        simp only
        refine ⟨_, rfl, ?_, ?_⟩
        · simp only
          rw [← hset]
          unfold grown
          rw [if_pos hp]
        · simp only
          rw [ht]
          unfold growTotal
          rw [Finset.sum_range_succ, if_pos hp]
          unfold grown
          rw [if_pos hp]
      · rw [if_neg hp]
        refine ⟨_, rfl, ?_, ?_⟩
        · simp only
          rw [← hset]
          unfold grown
          rw [if_neg hp, ← hent, set_entry_self Y _ hlen]
        · simp only
          rw [ht]
          unfold growTotal
          rw [Finset.sum_range_succ, if_neg hp, add_zero])
  rw [hst]
  obtain ⟨Y, t⟩ := st
  simp only at hX ht
  rw [hX, ht]

theorem shareLoop_eq (total : α) (X l : List α) (i n : Nat)
    (h : i + n ≤ X.length) (hl : n ≤ l.length) :
    loop (shareStep total i) (List.range' 0 n) (X, l) =
      some (onRow X i n (fun _ v => shared total v),
        onRow l 0 n (fun s ls =>
          if entry X (i + s) > 0 then ls + entry X (i + s) / total else ls)) := by
  obtain ⟨st, hst, hX, hm⟩ := loop_inv (shareStep total i) 1 n 0
    (fun k st => st.1 = onRow X i k (fun _ v => shared total v) ∧
      st.2 = onRow l 0 k (fun s ls =>
        if entry X (i + s) > 0 then ls + entry X (i + s) / total else ls))
    (X, l) ⟨(onRow_zero X i _).symm, (onRow_zero l 0 _).symm⟩ (by
      rintro k hk ⟨Y, m⟩ ⟨hY, hm⟩
      simp only at hY hm
      have e : 0 + 1 * k = k := by omega
      rw [e]
      have hlen : i + k < Y.length := by rw [hY, length_onRow]; omega
      have hlenm : k < m.length := by rw [hm, length_onRow]; omega
      have hent : entry Y (i + k) = entry X (i + k) := by
        rw [hY]; exact entry_onRow_out X i k _ _ (by omega)
      have hentm : entry m k = entry l k := by
        rw [hm]
        have := entry_onRow_out l 0 k (fun s ls =>
          if entry X (i + s) > 0 then ls + entry X (i + s) / total else ls) k (by omega)
        exact this
      have hset : Y.set (i + k) (shared total (entry X (i + k)))
          = onRow X i (k + 1) (fun _ v => shared total v) := by
        rw [hY, set_onRow X i k _ (by omega)]
      have hsetm : m.set k (if entry X (i + k) > 0 then entry l k + entry X (i + k) / total
            else entry l k)
          = onRow l 0 (k + 1) (fun s ls =>
              if entry X (i + s) > 0 then ls + entry X (i + s) / total else ls) := by
        have := set_onRow l 0 k (fun s ls =>
          if entry X (i + s) > 0 then ls + entry X (i + s) / total else ls) (by omega)
        simp only [Nat.zero_add] at this
        rw [hm, this]
      unfold shareStep
      simp only
      rw [rd_eq_entry Y _ hlen, hent]
      simp only
      by_cases hp : entry X (i + k) > 0
      · rw [if_pos hp, wr_eq_set Y _ _ hlen, rd_eq_entry m k hlenm, hentm]
        simp only
        rw [wr_eq_set m _ _ hlenm]
        simp only
        refine ⟨_, rfl, ?_, ?_⟩
        · simp only
          rw [← hset]
          unfold shared
          rw [if_pos hp]
        · simp only
          rw [← hsetm, if_pos hp]
      · rw [if_neg hp]
        refine ⟨_, rfl, ?_, ?_⟩
        · simp only
          rw [← hset]
          unfold shared
          rw [if_neg hp, ← hent, set_entry_self Y _ hlen]
        · simp only
          rw [← hsetm, if_neg hp, ← hentm, set_entry_self m _ hlenm])
  rw [hst]
  obtain ⟨Y, m⟩ := st
  simp only at hX hm
  rw [hX, hm]

/-- The growth pass of the host whose row starts at `i`. -/
theorem growHost_eq (P : Parameters α) (ww : Nat → α) (i : Nat) (X l : List α)
    (h : i + P.n_strains ≤ X.length) (hl : P.n_strains ≤ l.length) :
    growHost P ww i (X, l) =
      some (if growTotal P ww X i P.n_strains > 0 then
          (onRow (onRow X i P.n_strains (grown P ww)) i P.n_strains
              (fun _ v => shared (growTotal P ww X i P.n_strains) v),
            onRow l 0 P.n_strains (fun s ls =>
              if entry (onRow X i P.n_strains (grown P ww)) (i + s) > 0 then
                ls + entry (onRow X i P.n_strains (grown P ww)) (i + s)
                  / growTotal P ww X i P.n_strains
              else ls))
        else (onRow X i P.n_strains (grown P ww), l)) := by
  unfold growHost
  simp only
  rw [growLoop_eq P ww X i h]
  simp only
  by_cases ht : growTotal P ww X i P.n_strains > 0
  · rw [if_pos ht, if_pos ht,
      shareLoop_eq _ _ l i P.n_strains (by rw [length_onRow]; exact h) hl]
  · rw [if_neg ht, if_neg ht]

end GrowthLemmas

/-! ## The growth pass over all hosts -/

section GrowthPassLemmas

variable {α : Type} [LinearOrderedField α]

theorem row_le (n h k : Nat) (hk : h < k) : n * h + n ≤ n * k := by
  have := Nat.mul_le_mul_left n (Nat.succ_le_of_lt hk)
  rw [Nat.mul_succ] at this
  exact this

theorem row_in_store (n H h len : Nat) (hsize : len = H * n) (hh : h < H) :
    n * h + n ≤ len := by
  rw [hsize, Nat.mul_comm H n]
  exact row_le n h H hh

theorem upTo_rows (n H : Nat) (hn : 0 < n) : upTo (n * H) n = List.range' 0 H n := by
  unfold upTo
  have : (n * H + n - 1) / n = H := by
    apply Nat.div_eq_of_lt_le
    · rw [Nat.mul_comm H n]; omega
    · rw [Nat.succ_mul, Nat.mul_comm H n]; omega
  rw [this]

theorem upTo_zero (stop : Nat) : upTo stop 0 = [] := by
  unfold upTo
  simp

/-- An entry that is negative after normalisation was not touched by it. -/
theorem entry_normalized_neg (X : List α) (off n i : Nat) (hn : off + n ≤ X.length)
    (hneg : entry (normalized X off n) i < 0) : entry (normalized X off n) i = entry X i := by
  by_cases hin : off ≤ i ∧ i < off + n
  · obtain ⟨s, rfl⟩ : ∃ s, i = off + s := ⟨i - off, by omega⟩
    have hs : s < n := by omega
    rw [entry_normalized_in X off n s hs hn] at hneg ⊢
    by_cases hp : 0 < entry X (off + s)
    · rw [if_pos hp] at hneg
      have hpos : 0 < posSum X off n := (posSum_pos_iff X off n).mpr ⟨s, hs, hp⟩
      exact absurd (div_pos hp hpos) (not_lt.mpr (le_of_lt hneg))
    · rw [if_neg hp]
  · exact entry_normalized_out X off n i (by omega)

/-- With growth rates that are not negative, `total` is the sum of the positive
entries left by the first inner loop. -/
theorem growTotal_eq_posSum (P : Parameters α) (ww : Nat → α) (X : List α) (i : Nat)
    (h : i + P.n_strains ≤ X.length) (hww : ∀ s, s < P.n_strains → 0 ≤ ww s) :
    growTotal P ww X i P.n_strains = posSum (onRow X i P.n_strains (grown P ww)) i P.n_strains := by
  unfold growTotal posSum
  apply Finset.sum_congr rfl
  intro s hs
  have hs' := Finset.mem_range.mp hs
  rw [entry_onRow_in X i P.n_strains _ s hs' h]
  by_cases hp : 0 < entry X (i + s)
  · rw [if_pos hp]
    have hg : 0 ≤ grown P ww s (entry X (i + s)) := by
      unfold grown
      rw [if_pos hp]
      split
      · exact le_refl 0
      · exact mul_nonneg (le_of_lt hp) (hww s hs')
    rcases eq_or_lt_of_le hg with h0 | h1
    · rw [← h0, posPart_of_not_pos _ (lt_irrefl 0)]
    · rw [posPart_of_pos _ h1]
  · rw [if_neg hp]
    have : grown P ww s (entry X (i + s)) = entry X (i + s) := by
      unfold grown; rw [if_neg hp]
    rw [this, posPart_of_not_pos _ hp]

/-- With growth rates that are not negative, the growth pass of a host is the
pointwise growth of its row followed by its normalisation. -/
theorem growHost_normalized (P : Parameters α) (ww : Nat → α) (i : Nat) (X l : List α)
    (h : i + P.n_strains ≤ X.length) (hl : l.length = P.n_strains)
    (hww : ∀ s, s < P.n_strains → 0 ≤ ww s) :
    ∃ l', growHost P ww i (X, l) =
        some (normalized (onRow X i P.n_strains (grown P ww)) i P.n_strains, l') ∧
      l'.length = P.n_strains := by
  rw [growHost_eq P ww i X l h (by omega)]
  unfold normalized
  rw [← growTotal_eq_posSum P ww X i h hww]
  by_cases ht : growTotal P ww X i P.n_strains > 0
  · rw [if_pos ht, if_pos ht]
    exact ⟨_, rfl, by rw [length_onRow]; exact hl⟩
  · rw [if_neg ht, if_neg ht]
    exact ⟨_, rfl, hl⟩

theorem entry_grown_neg (P : Parameters α) (ww : Nat → α) (X : List α) (i n k : Nat)
    (hww : ∀ s, s < n → 0 ≤ ww s)
    (hneg : entry (onRow X i n (grown P ww)) k < 0) :
    entry (onRow X i n (grown P ww)) k = entry X k := by
  by_cases hk : k < X.length
  · rw [entry_onRow X i n _ k hk] at hneg ⊢
    by_cases hin : i ≤ k ∧ k < i + n
    · rw [if_pos hin] at hneg ⊢
      unfold grown at hneg ⊢
      by_cases hp : entry X k > 0
      · rw [if_pos hp] at hneg
        exfalso
        have : 0 ≤ (if entry X k < P.min_carriage then 0 else entry X k * ww (k - i)) := by
          split
          · exact le_refl 0
          · exact mul_nonneg (le_of_lt hp) (hww (k - i) (by omega))
        exact absurd hneg (not_lt.mpr this)
      · rw [if_neg hp]
    · rw [if_neg hin]
  · rw [entry_of_le _ _ (by rw [length_onRow]; omega), entry_of_le _ _ (by omega)]

/-- The growth pass returns; it keeps the size of the store, leaves every host row
with positive entries summing to 0 or 1, and creates no negative entry. -/
theorem growthPass_spec (P : Parameters α) (ww : Nat → α) (X : List α)
    (hsize : X.length = P.n_hosts * P.n_strains)
    (hww : ∀ s, s < P.n_strains → 0 ≤ ww s) :
    ∃ X' l, growthPass P ww X = some (X', l) ∧ X'.length = X.length ∧ Normalised P X' ∧
      ∀ i, entry X' i < 0 → entry X' i = entry X i := by
  by_cases hn : P.n_strains = 0
  · refine ⟨X, [], ?_, rfl, ?_, fun _ _ => rfl⟩
    · unfold growthPass
      rw [hn, upTo_zero]
      simp [loop]
    · intro h _
      left
      rw [hn]
      simp [posSum]
  · have hnpos : 0 < P.n_strains := Nat.pos_of_ne_zero hn
    obtain ⟨st, hst, hlen, hll, hnorm, _, hnegs⟩ := loop_inv (growHost P ww) P.n_strains
      P.n_hosts 0
      (fun k st => st.1.length = X.length ∧ st.2.length = P.n_strains ∧
        (∀ h, h < k → posSum st.1 (P.n_strains * h) P.n_strains = 0 ∨
          posSum st.1 (P.n_strains * h) P.n_strains = 1) ∧
        (∀ i, P.n_strains * k ≤ i → entry st.1 i = entry X i) ∧
        (∀ i, entry st.1 i < 0 → entry st.1 i = entry X i))
      (X, List.replicate P.n_strains 0)
      ⟨rfl, by simp, fun h hh => absurd hh (Nat.not_lt_zero h), fun _ _ => rfl, fun _ _ => rfl⟩
      (by
        rintro k hk ⟨Y, l⟩ ⟨hlen, hll, hdone, hrest, hnegs⟩
        simp only at hlen hll hdone hrest hnegs
        have e : 0 + P.n_strains * k = P.n_strains * k := by omega
        rw [e]
        have hrow : P.n_strains * k + P.n_strains ≤ Y.length := by
          rw [hlen]; exact row_in_store P.n_strains P.n_hosts k X.length hsize hk
        obtain ⟨l', hl', hll'⟩ := growHost_normalized P ww (P.n_strains * k) Y l hrow hll hww
        have hrow' : P.n_strains * k + P.n_strains
            ≤ (onRow Y (P.n_strains * k) P.n_strains (grown P ww)).length := by
          rw [length_onRow]; exact hrow
        refine ⟨_, hl', ?_, hll', ?_, ?_, ?_⟩
        · simp only
          rw [length_normalized, length_onRow, hlen]
        · intro h hh
          simp only
          by_cases hhk : h = k
          · subst hhk
            rw [posSum_normalized _ _ _ hrow']
            split
            · right; rfl
            · left; rfl
          · have hlt : h < k := by omega
            have hle := row_le P.n_strains h k hlt
            have : posSum (normalized (onRow Y (P.n_strains * k) P.n_strains (grown P ww))
                (P.n_strains * k) P.n_strains) (P.n_strains * h) P.n_strains
                = posSum Y (P.n_strains * h) P.n_strains := by
              apply posSum_congr
              intro s hs
              rw [entry_normalized_out _ _ _ _ (by omega), entry_onRow_out _ _ _ _ _ (by omega)]
            rw [this]
            exact hdone h hlt
        · intro i hi
          simp only
          have hmul : P.n_strains * (k + 1) = P.n_strains * k + P.n_strains := Nat.mul_succ _ _
          rw [entry_normalized_out _ _ _ _ (by omega), entry_onRow_out _ _ _ _ _ (by omega)]
          exact hrest i (by omega)
        · intro i hi
          simp only at hi ⊢
          have h1 := entry_normalized_neg _ _ _ i hrow' hi
          rw [h1] at hi ⊢
          have h2 := entry_grown_neg P ww Y _ _ i hww hi
          rw [h2] at hi ⊢
          exact hnegs i hi)
    obtain ⟨Y, l⟩ := st
    simp only at hlen hll hnorm hnegs
    refine ⟨Y, l.map fun ll => max ll P.min_carriers / (P.n_hosts : α), ?_, hlen, hnorm, hnegs⟩
    unfold growthPass
    rw [upTo_rows P.n_strains P.n_hosts hnpos, hst]

end GrowthPassLemmas

/-! ## What an event keeps -/

section KeepLemmas

variable {α : Type} [LinearOrderedField α]

/-- A store that differs from a normalised one only in the row of host `h`, whose
positive entries sum to 0 or 1, is normalised. -/
theorem Normalised_of_row (P : Parameters α) (X X' : List α) (h : Nat)
    (hrow : posSum X' (P.n_strains * h) P.n_strains = 0 ∨
      posSum X' (P.n_strains * h) P.n_strains = 1)
    (hout : ∀ i, i < P.n_strains * h ∨ P.n_strains * h + P.n_strains ≤ i →
      entry X' i = entry X i)
    (hN : Normalised P X) : Normalised P X' := by
  intro g hg
  by_cases hgh : g = h
  · subst hgh; exact hrow
  · have : posSum X' (P.n_strains * g) P.n_strains = posSum X (P.n_strains * g) P.n_strains := by
      apply posSum_congr
      intro s hs
      apply hout
      rcases Nat.lt_or_gt_of_ne hgh with hlt | hgt
      · left
        have := row_le P.n_strains g h hlt
        omega
      · right
        have := row_le P.n_strains h g hgt
        omega
    rw [this]
    exact hN g hg

/-- Normalising the row of host `h` of a store `Y` that agrees with `X` outside
that row keeps both invariants. -/
theorem normalized_keeps (P : Parameters α) (X Y : List α) (h : Nat)
    (hrow : P.n_strains * h + P.n_strains ≤ Y.length)
    (hout : ∀ i, i < P.n_strains * h ∨ P.n_strains * h + P.n_strains ≤ i →
      entry Y i = entry X i) :
    (Normalised P X → Normalised P (normalized Y (P.n_strains * h) P.n_strains)) ∧
    (Bounded P Y → Bounded P (normalized Y (P.n_strains * h) P.n_strains)) := by
  constructor
  · apply Normalised_of_row P X _ h
    · rw [posSum_normalized Y _ _ hrow]
      split
      · right; rfl
      · left; rfl
    · intro i hi
      rw [entry_normalized_out Y _ _ i hi]
      exact hout i hi
  · intro hB i hi
    have e := entry_normalized_neg Y _ _ i hrow hi
    rw [e] at hi ⊢
    exact hB i hi

theorem Bounded_set (P : Parameters α) (X : List α) (i : Nat) (v : α) (hi : i < X.length)
    (hv : v < 0 → -P.sigma ≤ v) (hB : Bounded P X) : Bounded P (X.set i v) := by
  intro k hk
  rw [entry_set X i k v hi] at hk ⊢
  by_cases hki : k = i
  · rw [if_pos hki] at hk ⊢; exact hv hk
  · rw [if_neg hki] at hk ⊢; exact hB k hk

theorem Bounded_onRow (P : Parameters α) (X : List α) (off n : Nat) (f : Nat → α → α)
    (hf : ∀ s, s < n → f s (entry X (off + s)) < 0 → -P.sigma ≤ f s (entry X (off + s)))
    (hB : Bounded P X) : Bounded P (onRow X off n f) := by
  intro k hk
  by_cases hl : k < X.length
  · rw [entry_onRow X off n f k hl] at hk ⊢
    by_cases hin : off ≤ k ∧ k < off + n
    · rw [if_pos hin] at hk ⊢
      have e : off + (k - off) = k := by omega
      have := hf (k - off) (by omega)
      rw [e] at this
      exact this hk
    · rw [if_neg hin] at hk ⊢
      exact hB k hk
  · rw [entry_of_le _ _ (by rw [length_onRow]; omega)] at hk
    exact absurd hk (lt_irrefl 0)

theorem entry_set_out (X : List α) (off n j i : Nat) (v : α) (hj : j < n)
    (hlen : off + n ≤ X.length) (hi : i < off ∨ off + n ≤ i) :
    entry (X.set (off + j) v) i = entry X i := by
  rw [entry_set X _ _ _ (by omega), if_neg (by omega)]

/-- Transmission keeps both invariants (the bound when `iota >= 0`). -/
theorem caseTransmission_keeps (P : Parameters α) (X : List α) (h j : Nat) (d : Draws α)
    (hrow : P.n_strains * h + P.n_strains ≤ X.length) (hj : j < P.n_strains) :
    ∃ X' c, caseTransmission P X (P.n_strains * h) j d = some (X', c) ∧
      X'.length = X.length ∧ (Normalised P X → Normalised P X') ∧
      (0 ≤ P.iota → Bounded P X → Bounded P X') := by
  obtain ⟨c, heq⟩ := caseTransmission_eq P X (P.n_strains * h) j d hrow hj
  by_cases hcond : Unblocked P X (P.n_strains * h) d ∧ Permitted P X (P.n_strains * h) j d
  · rw [if_pos hcond] at heq
    have hk := normalized_keeps P X
      (X.set (P.n_strains * h + j) (max (entry X (P.n_strains * h + j)) 0 + P.iota)) h
      (by rw [List.length_set]; exact hrow)
      (fun i hi => entry_set_out X _ _ j i _ hj hrow hi)
    refine ⟨_, c, heq, by rw [length_normalized, List.length_set], hk.1, ?_⟩
    intro hiota hB
    apply hk.2
    apply Bounded_set P X _ _ (by omega) _ hB
    intro hneg
    exfalso
    have : 0 ≤ max (entry X (P.n_strains * h + j)) 0 + P.iota :=
      add_nonneg (le_max_right _ _) hiota
    exact absurd hneg (not_lt.mpr this)
  · rw [if_neg hcond] at heq
    exact ⟨X, c, heq, rfl, id, fun _ hB => hB⟩

/-- Clearance keeps both invariants. -/
theorem caseClearance_keeps (P : Parameters α) (X : List α) (h t : Nat) (d : Draws α)
    (hrow : P.n_strains * h + P.n_strains ≤ X.length) (ht : t * 2 + 1 < P.n_strains) :
    ∃ X' c, caseClearance P X (P.n_strains * h) t d = some (X', c) ∧
      X'.length = X.length ∧ (Normalised P X → Normalised P X') ∧
      (Bounded P X → Bounded P X') := by
  have hlc : P.n_strains * h + P.n_strains ≤ (cleared P X (P.n_strains * h) t).length := by
    rw [length_cleared]; exact hrow
  have hoc : ∀ i, i < P.n_strains * h ∨ P.n_strains * h + P.n_strains ≤ i →
      entry (cleared P X (P.n_strains * h) t) i = entry X i := by
    intro i hi
    rw [entry_cleared P X _ t i (by omega), if_neg (by omega)]
  have hBc : Bounded P X → Bounded P (cleared P X (P.n_strains * h) t) := by
    intro hB i hi
    rw [entry_cleared P X _ t i (by omega)] at hi ⊢
    split
    · exact le_refl _
    · rename_i hne
      rw [if_neg hne] at hi
      exact hB i hi
  have heq := caseClearance_eq P X (P.n_strains * h) t d hrow ht
  by_cases hc : 0 < entry X (P.n_strains * h + t * 2) ∨
      0 < entry X (P.n_strains * h + (t * 2 + 1))
  · rw [if_pos hc] at heq
    by_cases hb : Bernoulli P.v d.cascade = true
    · rw [if_pos hb] at heq
      have hk := normalized_keeps P X
        (onRow (cleared P X (P.n_strains * h) t) (P.n_strains * h) P.n_strains
          (fun _ v => if v > 0 then 0 else v)) h (by rw [length_onRow]; exact hlc)
        (fun i hi => by rw [entry_onRow_out _ _ _ _ i hi]; exact hoc i hi)
      refine ⟨_, _, heq, by rw [length_normalized, length_onRow, length_cleared], hk.1, ?_⟩
      intro hB
      apply hk.2
      apply Bounded_onRow P _ _ _ _ _ (hBc hB)
      intro s _ hneg
      split at hneg
      · exact absurd hneg (lt_irrefl 0)
      · rename_i hnp
        rw [if_neg hnp]
        exact hBc hB _ hneg
    · rw [if_neg hb] at heq
      have hk := normalized_keeps P X (cleared P X (P.n_strains * h) t) h hlc hoc
      exact ⟨_, _, heq, by rw [length_normalized, length_cleared], hk.1,
        fun hB => hk.2 (hBc hB)⟩
  · rw [if_neg hc] at heq
    exact ⟨X, [], heq, rfl, id, id⟩

/-- Treatment keeps both invariants. -/
theorem caseTreatment_keeps (P : Parameters α) (X : List α) (h : Nat)
    (hrow : P.n_strains * h + P.n_strains ≤ X.length) :
    ∃ X' c, caseTreatment P X (P.n_strains * h) = some (X', c) ∧
      X'.length = X.length ∧ (Normalised P X → Normalised P X') ∧
      (Bounded P X → Bounded P X') := by
  have heq := caseTreatment_eq P X (P.n_strains * h) hrow
  by_cases hc : ∃ s, s < P.n_strains ∧ s % 2 = 0 ∧ 0 < entry X (P.n_strains * h + s)
  · rw [if_pos hc] at heq
    have hk := normalized_keeps P X (onRow X (P.n_strains * h) P.n_strains treated) h
      (by rw [length_onRow]; exact hrow) (fun i hi => entry_onRow_out _ _ _ _ i hi)
    refine ⟨_, _, heq, by rw [length_normalized, length_onRow], hk.1, ?_⟩
    intro hB
    apply hk.2
    apply Bounded_onRow P _ _ _ _ _ hB
    intro s _ hneg
    unfold treated at hneg ⊢
    split at hneg
    · exact absurd hneg (lt_irrefl 0)
    · rename_i hnp
      rw [if_neg hnp]
      exact hB _ hneg
  · rw [if_neg hc] at heq
    exact ⟨X, _, heq, rfl, id, id⟩

/-- Birth keeps both invariants. -/
theorem caseBirth_keeps (P : Parameters α) (X : List α) (h : Nat)
    (hrow : P.n_strains * h + P.n_strains ≤ X.length) :
    ∃ X' c, caseBirth P X (P.n_strains * h) = some (X', c) ∧
      X'.length = X.length ∧ (Normalised P X → Normalised P X') ∧
      (Bounded P X → Bounded P X') := by
  refine ⟨_, _, caseBirth_eq P X (P.n_strains * h) hrow, length_onRow _ _ _ _, ?_, ?_⟩
  · apply Normalised_of_row P X _ h
    · left
      unfold posSum
      apply Finset.sum_eq_zero
      intro s hs
      rw [entry_onRow_in X _ _ _ s (Finset.mem_range.mp hs) hrow]
      exact posPart_of_not_pos _ (lt_irrefl 0)
    · intro i hi
      exact entry_onRow_out _ _ _ _ i hi
  · intro hB
    apply Bounded_onRow P _ _ _ _ _ hB
    intro s _ hneg
    exact absurd hneg (lt_irrefl 0)

/-- The offset of the contact row does not wrap when the size of the store fits
32 bits, and the contact row is the target row or does not overlap it. -/
theorem contact_row (n H h c len : Nat) (hsize : len = H * n) (hfit : H * n < 2 ^ 32)
    (hc : c < H) :
    (n * c) % 2 ^ 32 + n ≤ len ∧
      ((n * c) % 2 ^ 32 = n * h ∨ (n * c) % 2 ^ 32 + n ≤ n * h ∨ n * h + n ≤ (n * c) % 2 ^ 32) := by
  have h1 := row_in_store n H c len hsize hc
  have h2 : n * c < 2 ^ 32 := by omega
  rw [Nat.mod_eq_of_lt h2]
  refine ⟨h1, ?_⟩
  rcases Nat.lt_trichotomy c h with hlt | heq | hgt
  · right; left; exact row_le n c h hlt
  · left; rw [heq]
  · right; right; exact row_le n h c hgt

/-- Transfer keeps both invariants (the bound when `0 <= iota <= 1`). -/
theorem caseTransfer_keeps (P : Parameters α) (X : List α) (h : Nat) (d : Draws α)
    (hth : P.theta.length = P.n_strains)
    (hsize : X.length = P.n_hosts * P.n_strains) (hfit : P.n_hosts * P.n_strains < 2 ^ 32)
    (hh : h < P.n_hosts) (hc : d.contact < P.n_hosts) :
    ∃ X' c, caseTransfer P X (P.n_strains * h) d = some (X', c) ∧
      X'.length = X.length ∧ (Normalised P X → Normalised P X') ∧
      (0 ≤ P.iota → P.iota ≤ 1 → Bounded P X → Bounded P X') := by
  have hrow := row_in_store P.n_strains P.n_hosts h X.length hsize hh
  obtain ⟨hxx, hrows⟩ := contact_row P.n_strains P.n_hosts h d.contact X.length hsize hfit hc
  obtain ⟨c1, c2, _, heq, _⟩ := caseTransfer_eq P X (P.n_strains * h) d hth hrow hxx hrows
  by_cases hu : Unblocked P X (P.n_strains * h) d
  · rw [if_pos hu] at heq
    by_cases ht : ∃ s, s < P.n_strains ∧ Transferred P X (P.n_strains * h) s d
    · rw [if_pos ht] at heq
      have hk := normalized_keeps P X
        (onRow X (P.n_strains * h) P.n_strains
          (transferValue P X (P.n_strains * h) ((P.n_strains * d.contact) % 2 ^ 32) d)) h
        (by rw [length_onRow]; exact hrow) (fun i hi => entry_onRow_out _ _ _ _ i hi)
      refine ⟨_, _, heq, by rw [length_normalized, length_onRow], hk.1, ?_⟩
      intro h0 h1 hB
      apply hk.2
      apply Bounded_onRow P _ _ _ _ _ hB
      intro s _ hneg
      unfold transferValue at hneg ⊢
      by_cases htr : Transferred P X (P.n_strains * h) s d
      · rw [if_pos htr] at hneg ⊢
        have hm : 0 ≤ max (entry X (P.n_strains * h + s)) 0 := le_max_right _ _
        by_cases hy : entry X ((P.n_strains * d.contact) % 2 ^ 32 + s) < 0
        · have hb := hB _ hy
          have hi : entry X ((P.n_strains * d.contact) % 2 ^ 32 + s)
              ≤ P.iota * entry X ((P.n_strains * d.contact) % 2 ^ 32 + s) := by
            nlinarith
          linarith
        · exfalso
          have : 0 ≤ P.iota * entry X ((P.n_strains * d.contact) % 2 ^ 32 + s) :=
            mul_nonneg h0 (not_lt.mp hy)
          linarith
      · rw [if_neg htr] at hneg ⊢
        exact hB _ hneg
    · rw [if_neg ht] at heq
      exact ⟨X, _, heq, rfl, id, fun _ _ hB => hB⟩
  · rw [if_neg hu] at heq
    exact ⟨X, _, heq, rfl, id, fun _ _ hB => hB⟩

end KeepLemmas

/-! ## Sampled events and their execution -/

section SamplingLemmas

variable {α : Type}

/-- Every sampled event is a transmission of a strain, a clearance of a serotype,
a treatment, a birth or a transfer. -/
theorem mem_sampleEvents (P : Parameters α) (nTransmission nClearance : Nat → Nat)
    (nTreatment nBirth nTransfer e : Nat)
    (he : e ∈ sampleEvents P nTransmission nClearance nTreatment nBirth nTransfer) :
    (∃ s, s < P.n_strains ∧ e = Transmission ||| s) ∨
    (∃ t, t < P.n_strains / 2 ∧ e = Clearance ||| t) ∨
    e = Treatment ∨ e = Birth ∨ e = Transfer := by
  unfold sampleEvents at he
  simp only [List.mem_append, List.mem_flatten, List.mem_map, List.mem_range'_1,
    List.mem_replicate] at he
  rcases he with (((⟨l, ⟨s, hs, rfl⟩, hl⟩ | ⟨l, ⟨t, ht, rfl⟩, hl⟩) | h) | h) | h
  · left
    rw [List.mem_replicate] at hl
    exact ⟨s, by omega, hl.2⟩
  · right; left
    rw [List.mem_replicate] at hl
    exact ⟨t, by omega, hl.2⟩
  · right; right; left; exact h.2
  · right; right; right; left; exact h.2
  · right; right; right; right; exact h.2

theorem checkParameters_theta (P : Parameters α) (h : checkParameters P = Except.ok ()) :
    P.theta.length = P.n_strains := by
  unfold checkParameters Check at h
  by_contra hne
  by_cases h1 : P.w.length = P.n_strains
  · by_cases h2 : P.beta.length = P.n_strains
    · simp [h1, h2, hne, bind, Except.bind] at h
    · simp [h1, h2, bind, Except.bind] at h
  · simp [h1, bind, Except.bind] at h

theorem map_some_length (X : List α) (r : Option (List α × List (Call α))) (c0 : Call α)
    (h : ∃ X' c, r = some (X', c) ∧ X'.length = X.length) :
    ∃ X' calls, r.map (fun r => (r.1, c0 :: r.2)) = some (X', calls) ∧ X'.length = X.length := by
  obtain ⟨X', c, hr, hl⟩ := h
  exact ⟨X', c0 :: c, by rw [hr]; rfl, hl⟩

theorem map_some_keeps (X : List α) (r : Option (List α × List (Call α))) (c0 : Call α)
    (A B : List α → Prop)
    (h : ∃ X' c, r = some (X', c) ∧ X'.length = X.length ∧ A X' ∧ B X') :
    ∃ X' calls, r.map (fun r => (r.1, c0 :: r.2)) = some (X', calls) ∧
      X'.length = X.length ∧ A X' ∧ B X' := by
  obtain ⟨X', c, hr, hl, hA, hB⟩ := h
  exact ⟨X', c0 :: c, by rw [hr]; rfl, hl, hA, hB⟩

end SamplingLemmas

section ExecuteLemmas

variable {α : Type} [LinearOrderedField α]

theorem decode_Transmission (s : Nat) (hs : s < 65536) :
    (Transmission ||| s) &&& 0xFFFF = s ∧ (Transmission ||| s) &&& 0xF0000 = Transmission := by
  have := tag_decode 0 s (by decide) hs
  simpa [Transmission] using this

theorem decode_Clearance (t : Nat) (ht : t < 65536) :
    (Clearance ||| t) &&& 0xFFFF = t ∧ (Clearance ||| t) &&& 0xF0000 = Clearance := by
  have := tag_decode 1 t (by decide) ht
  simpa [Clearance] using this

/-- The row of the drawn host lies inside the store, also after the reduction of
its offset modulo `2 ^ 32`. -/
theorem host_row (n H h len : Nat) (hsize : len = H * n) (hh : h < H) :
    (n * h) % 2 ^ 32 + n ≤ len := by
  have h1 := row_in_store n H h len hsize hh
  have h2 : (n * h) % 2 ^ 32 ≤ n * h := Nat.mod_le _ _
  omega

theorem caseTransfer_safe (P : Parameters α) (X : List α) (x : Nat) (d : Draws α)
    (hth : P.theta.length = P.n_strains) (hx : x + P.n_strains ≤ X.length)
    (hxx : (P.n_strains * d.contact) % 2 ^ 32 + P.n_strains ≤ X.length) :
    ∃ X' c, caseTransfer P X x d = some (X', c) ∧ X'.length = X.length := by
  obtain ⟨c1, h1⟩ := noBlocking_fst P X x d hx
  unfold caseTransfer
  rw [h1]
  by_cases hu : Unblocked P X x d
  · rw [decide_eq_true hu]
    simp only
    obtain ⟨st, hst, hlen⟩ := transferLoop_safe P X x ((P.n_strains * d.contact) % 2 ^ 32) d
      (c1 ++ [Call.Discrete P.n_hosts]) hth hx hxx
    rw [hst]
    simp only
    by_cases hn : st.normalize = true
    · rw [if_pos hn, Normalize_eq P st.X x (by omega)]
      exact ⟨_, _, rfl, by rw [length_normalized, hlen]⟩
    · rw [if_neg hn]
      exact ⟨_, _, rfl, hlen⟩
  · rw [decide_eq_false hu]
    exact ⟨_, _, rfl, rfl⟩

/-- Each of the five cases returns, and keeps the size of the store, when the
target row (and for Transfer the contact row) lies inside the store. -/
theorem cases_safe (P : Parameters α) (X : List α) (x : Nat) (d : Draws α)
    (hx : x + P.n_strains ≤ X.length) :
    (∀ j, j < P.n_strains →
      ∃ X' c, caseTransmission P X x j d = some (X', c) ∧ X'.length = X.length) ∧
    (∀ t, t * 2 + 1 < P.n_strains →
      ∃ X' c, caseClearance P X x t d = some (X', c) ∧ X'.length = X.length) ∧
    (∃ X' c, caseTreatment P X x = some (X', c) ∧ X'.length = X.length) ∧
    (∃ X' c, caseBirth P X x = some (X', c) ∧ X'.length = X.length) := by
  refine ⟨?_, ?_, ?_, ?_⟩
  · intro j hj
    obtain ⟨c, hc⟩ := caseTransmission_eq P X x j d hx hj
    refine ⟨_, c, hc, ?_⟩
    split
    · rw [length_normalized, List.length_set]
    · rfl
  · intro t ht
    have heq := caseClearance_eq P X x t d hx ht
    by_cases hc : 0 < entry X (x + t * 2) ∨ 0 < entry X (x + (t * 2 + 1))
    · rw [if_pos hc] at heq
      refine ⟨_, _, heq, ?_⟩
      rw [length_normalized]
      split
      · rw [length_onRow, length_cleared]
      · rw [length_cleared]
    · rw [if_neg hc] at heq
      exact ⟨_, _, heq, rfl⟩
  · refine ⟨_, _, caseTreatment_eq P X x hx, ?_⟩
    split
    · rw [length_normalized, length_onRow]
    · rfl
  · exact ⟨_, _, caseBirth_eq P X x hx, length_onRow _ _ _ _⟩

end ExecuteLemmas

/-! ## Decoding and dispatch -/

section DispatchLemmas

variable {α : Type} [LinearOrderedField α]

theorem execute_Transmission (P : Parameters α) (X : List α) (s : Nat) (d : Draws α)
    (hs : s < 65536) :
    execute P X (Transmission ||| s) d =
      (caseTransmission P X ((P.n_strains * d.host) % 2 ^ 32) s d).map
        fun r => (r.1, Call.Discrete P.n_hosts :: r.2) := by
  obtain ⟨h1, h2⟩ := decode_Transmission s hs
  unfold execute
  simp only [h1, h2, if_true]

theorem execute_Clearance (P : Parameters α) (X : List α) (t : Nat) (d : Draws α)
    (ht : t < 65536) :
    execute P X (Clearance ||| t) d =
      (caseClearance P X ((P.n_strains * d.host) % 2 ^ 32) t d).map
        fun r => (r.1, Call.Discrete P.n_hosts :: r.2) := by
  obtain ⟨h1, h2⟩ := decode_Clearance t ht
  have hne : Clearance ≠ Transmission := by decide
  unfold execute
  simp only [h1, h2, if_neg hne, if_true]

theorem execute_Treatment (P : Parameters α) (X : List α) (d : Draws α) :
    execute P X Treatment d =
      (caseTreatment P X ((P.n_strains * d.host) % 2 ^ 32)).map
        fun r => (r.1, Call.Discrete P.n_hosts :: r.2) := by
  have h2 : Treatment &&& 0xF0000 = Treatment := by decide
  have hne1 : Treatment ≠ Transmission := by decide
  have hne2 : Treatment ≠ Clearance := by decide
  unfold execute
  simp only [h2, if_neg hne1, if_neg hne2, if_true]

theorem execute_Birth (P : Parameters α) (X : List α) (d : Draws α) :
    execute P X Birth d =
      (caseBirth P X ((P.n_strains * d.host) % 2 ^ 32)).map
        fun r => (r.1, Call.Discrete P.n_hosts :: r.2) := by
  have h2 : Birth &&& 0xF0000 = Birth := by decide
  have hne1 : Birth ≠ Transmission := by decide
  have hne2 : Birth ≠ Clearance := by decide
  have hne3 : Birth ≠ Treatment := by decide
  unfold execute
  simp only [h2, if_neg hne1, if_neg hne2, if_neg hne3, if_true]

theorem execute_Transfer (P : Parameters α) (X : List α) (d : Draws α) :
    execute P X Transfer d =
      (caseTransfer P X ((P.n_strains * d.host) % 2 ^ 32) d).map
        fun r => (r.1, Call.Discrete P.n_hosts :: r.2) := by
  have h2 : Transfer &&& 0xF0000 = Transfer := by decide
  have hne1 : Transfer ≠ Transmission := by decide
  have hne2 : Transfer ≠ Clearance := by decide
  have hne3 : Transfer ≠ Treatment := by decide
  have hne4 : Transfer ≠ Birth := by decide
  unfold execute
  simp only [h2, if_neg hne1, if_neg hne2, if_neg hne3, if_neg hne4, if_true]

/-- The inoculation loop returns when no more hosts are inoculated than there are. -/
theorem inoculate_safe (P : Parameters α) (n : Nat) (pick : Nat → Nat) (X : List α)
    (hsize : X.length = P.n_hosts * P.n_strains) (hn : n ≤ P.n_hosts)
    (hpick : ∀ i, i < n → pick i < P.n_strains) :
    ∃ X', inoculate P n pick X = some X' ∧ X'.length = X.length := by
  apply loop_inv (fun i X => wr X ((P.n_strains * i + pick i) % 2 ^ 32) 1) 1 n 0
    (fun _ Y => Y.length = X.length) X rfl
  intro k hk Y hY
  have e : 0 + 1 * k = k := by omega
  rw [e]
  have h1 := row_in_store P.n_strains P.n_hosts k X.length hsize (by omega)
  have h2 := hpick k hk
  have h3 : (P.n_strains * k + pick k) % 2 ^ 32 ≤ P.n_strains * k + pick k := Nat.mod_le _ _
  refine ⟨_, wr_eq_set Y _ _ (by omega), ?_⟩
  rw [List.length_set, hY]

end DispatchLemmas

/-! ## Events as executed, and the inoculation loop -/

section ExecuteKeepLemmas

variable {α : Type} [LinearOrderedField α]

/-- A sampled event, executed on a store whose size fits an `int`, keeps both
invariants (the bound when `0 <= iota <= 1`). -/
theorem execute_keeps (P : Parameters α) (X : List α) (e : Nat) (d : Draws α)
    (nTransmission nClearance : Nat → Nat) (nTreatment nBirth nTransfer : Nat)
    (htag : P.n_strains ≤ 65536) (hth : P.theta.length = P.n_strains)
    (hsize : X.length = P.n_hosts * P.n_strains) (hfit : P.n_hosts * P.n_strains < 2 ^ 31)
    (he : e ∈ sampleEvents P nTransmission nClearance nTreatment nBirth nTransfer)
    (hhost : d.host < P.n_hosts) (hcontact : d.contact < P.n_hosts) :
    ∃ X' calls, execute P X e d = some (X', calls) ∧ X'.length = X.length ∧
      (Normalised P X → Normalised P X') ∧
      (0 ≤ P.iota → P.iota ≤ 1 → Bounded P X → Bounded P X') := by
  have hrow := row_in_store P.n_strains P.n_hosts d.host X.length hsize hhost
  have hx : (P.n_strains * d.host) % 2 ^ 32 = P.n_strains * d.host := by
    apply Nat.mod_eq_of_lt
    omega
  rcases mem_sampleEvents P nTransmission nClearance nTreatment nBirth nTransfer e he
    with ⟨s, hs, rfl⟩ | ⟨t, ht, rfl⟩ | rfl | rfl | rfl
  · rw [execute_Transmission P X s d (by omega), hx]
    apply map_some_keeps
    obtain ⟨X', c, h1, h2, h3, h4⟩ := caseTransmission_keeps P X d.host s d hrow hs
    exact ⟨X', c, h1, h2, h3, fun h0 _ hB => h4 h0 hB⟩
  · rw [execute_Clearance P X t d (by omega), hx]
    apply map_some_keeps
    obtain ⟨X', c, h1, h2, h3, h4⟩ := caseClearance_keeps P X d.host t d hrow (by omega)
    exact ⟨X', c, h1, h2, h3, fun _ _ hB => h4 hB⟩
  · rw [execute_Treatment P X d, hx]
    apply map_some_keeps
    obtain ⟨X', c, h1, h2, h3, h4⟩ := caseTreatment_keeps P X d.host hrow
    exact ⟨X', c, h1, h2, h3, fun _ _ hB => h4 hB⟩
  · rw [execute_Birth P X d, hx]
    apply map_some_keeps
    obtain ⟨X', c, h1, h2, h3, h4⟩ := caseBirth_keeps P X d.host hrow
    exact ⟨X', c, h1, h2, h3, fun _ _ hB => h4 hB⟩
  · rw [execute_Transfer P X d, hx]
    apply map_some_keeps
    exact caseTransfer_keeps P X d.host d hth hsize (lt_trans hfit (by decide)) hhost hcontact

/-- A loop fails when one of its iterations fails on every state that the earlier
iterations can leave. -/
theorem loop_none {σ : Type} (body : Nat → σ → Option σ) (Inv : σ → Prop)
    (hkeep : ∀ s st st', Inv st → body s st = some st' → Inv st') :
    ∀ (n a k : Nat) (st : σ), k < n → Inv st → (∀ st', Inv st' → body (a + k) st' = none) →
      loop body (List.range' a n) st = none := by
  intro n
  induction n with
  | zero => intro a k st hk; exact absurd hk (Nat.not_lt_zero k)
  | succ m ih =>
    intro a k st hk hst hfail
    rw [List.range'_succ]
    unfold loop
    cases hb : body a st with
    | none => rfl
    | some st' =>
      simp only
      cases k with
      | zero =>
        have := hfail st hst
        rw [Nat.add_zero, hb] at this
        exact absurd this (by simp)
      | succ k' =>
        apply ih (a + 1) k' st' (by omega) (hkeep a st st' hst hb)
        intro st'' hst''
        have := hfail st'' hst''
        have e : a + (k' + 1) = a + 1 + k' := by omega
        rw [e] at this
        exact this

/-- The inoculation loop writes outside the store whenever `R.Poisson` returns
more than `n_hosts` (the index of iteration `n_hosts` not wrapping). -/
theorem inoculate_overrun (P : Parameters α) (n : Nat) (pick : Nat → Nat) (X : List α)
    (hsize : X.length = P.n_hosts * P.n_strains) (hn : P.n_hosts < n)
    (hwrap : P.n_strains * P.n_hosts + pick P.n_hosts < 2 ^ 32) :
    inoculate P n pick X = none := by
  unfold inoculate
  apply loop_none (fun i X => wr X ((P.n_strains * i + pick i) % 2 ^ 32) 1)
    (fun Y => Y.length = X.length) _ n 0 P.n_hosts X hn rfl
  · intro Y hY
    rw [Nat.zero_add, Nat.mod_eq_of_lt hwrap]
    unfold wr
    rw [if_neg]
    rw [hY, hsize, Nat.mul_comm]
    omega
  · intro s Y Y' hY hw
    simp only at hw
    by_cases hlt : (P.n_strains * s + pick s) % 2 ^ 32 < Y.length
    · rw [wr_eq_set Y _ _ hlt] at hw
      cases hw
      rw [List.length_set, hY]
    · rw [(wr_eq_none_iff Y _ 1).mpr (by omega)] at hw
      cases hw

end ExecuteKeepLemmas

/-! ## Treatment: the entries of the treated row -/

section TreatedLemmas

variable {α : Type} [LinearOrderedField α]

theorem entry_treated (X : List α) (x n s : Nat) (hs : s < n) (hx : x + n ≤ X.length) :
    entry (onRow X x n treated) (x + s) =
      if s % 2 = 0 ∧ 0 < entry X (x + s) then 0 else entry X (x + s) := by
  rw [entry_onRow_in X x n _ s hs hx]
  rfl

/-- The positive entries of a treated row are the positive entries of odd index. -/
theorem posSum_treated (X : List α) (x n : Nat) (hx : x + n ≤ X.length) :
    posSum (onRow X x n treated) x n =
      ∑ t in Finset.range n, if t % 2 = 1 ∧ 0 < entry X (x + t) then entry X (x + t) else 0 := by
  unfold posSum
  apply Finset.sum_congr rfl
  intro s hs
  rw [entry_treated X x n s (Finset.mem_range.mp hs) hx]
  by_cases hp : 0 < entry X (x + s)
  · by_cases he : s % 2 = 0
    · rw [if_pos ⟨he, hp⟩, if_neg (by omega), posPart_of_not_pos _ (lt_irrefl 0)]
    · rw [if_neg (fun h => he h.1), if_pos ⟨by omega, hp⟩, posPart_of_pos _ hp]
  · rw [if_neg (fun h => hp h.2), if_neg (fun h => hp h.2), posPart_of_not_pos _ hp]

theorem treated_pos_iff (X : List α) (x n : Nat) (hx : x + n ≤ X.length) :
    0 < posSum (onRow X x n treated) x n ↔ ∃ s, s < n ∧ s % 2 = 1 ∧ 0 < entry X (x + s) := by
  rw [posSum_pos_iff]
  constructor
  · rintro ⟨s, hs, hp⟩
    rw [entry_treated X x n s hs hx] at hp
    by_cases hc : s % 2 = 0 ∧ 0 < entry X (x + s)
    · rw [if_pos hc] at hp
      exact absurd hp (lt_irrefl 0)
    · rw [if_neg hc] at hp
      exact ⟨s, hs, by by_contra h; exact hc ⟨by omega, hp⟩, hp⟩
  · rintro ⟨s, hs, ho, hp⟩
    refine ⟨s, hs, ?_⟩
    rw [entry_treated X x n s hs hx, if_neg (by omega)]
    exact hp

end TreatedLemmas

/-! ## The checks at the start of a sweep -/

section CheckLemmas

variable {α : Type}

theorem Check_ok (param : List α) (size : Nat) (name : String) (h : param.length = size) :
    Check param size name = Except.ok () := by
  unfold Check
  rw [if_neg (not_not.mpr h)]

theorem Check_error (param : List α) (size : Nat) (name : String) (h : param.length ≠ size) :
    Check param size name = Except.error ("Incorrect size for parameter " ++ name) := by
  unfold Check
  rw [if_pos h]

/-- The four checks in the order of the source: the first vector of the wrong size
gives the error. -/
theorem checkParameters_eq (P : Parameters α) :
    checkParameters P =
      if P.w.length ≠ P.n_strains then Except.error "Incorrect size for parameter w"
      else if P.beta.length ≠ P.n_strains then Except.error "Incorrect size for parameter beta"
      else if P.theta.length ≠ P.n_strains then
        Except.error "Incorrect size for parameter theta"
      else if P.u.length ≠ P.n_strains / 2 then Except.error "Incorrect size for parameter u"
      else Except.ok () := by
  unfold checkParameters Check
  by_cases h1 : P.w.length = P.n_strains
  · by_cases h2 : P.beta.length = P.n_strains
    · by_cases h3 : P.theta.length = P.n_strains
      · by_cases h4 : P.u.length = P.n_strains / 2
        · simp [h1, h2, h3, h4, bind, Except.bind]
        · simp [h1, h2, h3, h4, bind, Except.bind]
      · simp [h1, h2, h3, bind, Except.bind]
    · simp [h1, h2, bind, Except.bind]
  · simp [h1, bind, Except.bind]

end CheckLemmas

/-! ## The growth pass in closed form -/

section GrowthClosedLemmas

variable {α : Type} [LinearOrderedField α]

theorem entry_map (l : List α) (f : α → α) (s : Nat) (hs : s < l.length) :
    entry (l.map f) s = f (entry l s) := by
  simp [entry, List.getD, List.getElem?_eq_getElem hs]

theorem growTotal_congr (P : Parameters α) (ww : Nat → α) (X Y : List α) (i k : Nat)
    (h : ∀ s, s < k → entry Y (i + s) = entry X (i + s)) :
    growTotal P ww Y i k = growTotal P ww X i k := by
  unfold growTotal
  apply Finset.sum_congr rfl
  intro s hs
  rw [h s (Finset.mem_range.mp hs)]

theorem passed_congr (P : Parameters α) (ww : Nat → α) (X Y : List α) (i s : Nat)
    (hs : s < P.n_strains)
    (h : ∀ s, s < P.n_strains → entry Y (i + s) = entry X (i + s)) :
    passed P ww Y i s = passed P ww X i s := by
  unfold passed
  rw [growTotal_congr P ww X Y i P.n_strains h, h s hs]

theorem tallied_congr (P : Parameters α) (ww : Nat → α) (X Y : List α) (i s : Nat)
    (hs : s < P.n_strains)
    (h : ∀ s, s < P.n_strains → entry Y (i + s) = entry X (i + s)) :
    tallied P ww Y i s = tallied P ww X i s := by
  unfold tallied
  rw [growTotal_congr P ww X Y i P.n_strains h, h s hs]

/-- The growth pass of the host whose row starts at `i`, entry by entry. -/
theorem growHost_entries (P : Parameters α) (ww : Nat → α) (i : Nat) (X l : List α)
    (h : i + P.n_strains ≤ X.length) (hl : P.n_strains ≤ l.length) :
    ∃ X' l', growHost P ww i (X, l) = some (X', l') ∧ X'.length = X.length ∧
      l'.length = l.length ∧
      (∀ s, s < P.n_strains → entry X' (i + s) = passed P ww X i s) ∧
      (∀ j, j < i ∨ i + P.n_strains ≤ j → entry X' j = entry X j) ∧
      (∀ s, s < P.n_strains → entry l' s = entry l s + tallied P ww X i s) := by
  rw [growHost_eq P ww i X l h hl]
  have hG : i + P.n_strains ≤ (onRow X i P.n_strains (grown P ww)).length := by
    rw [length_onRow]; exact h
  have hg : ∀ s, s < P.n_strains →
      entry (onRow X i P.n_strains (grown P ww)) (i + s) = grown P ww s (entry X (i + s)) :=
    fun s hs => entry_onRow_in X i P.n_strains _ s hs h
  by_cases ht : growTotal P ww X i P.n_strains > 0
  · rw [if_pos ht]
    refine ⟨_, _, rfl, by rw [length_onRow, length_onRow], length_onRow _ _ _ _, ?_, ?_, ?_⟩
    · intro s hs
      rw [entry_onRow_in _ i P.n_strains _ s hs hG, hg s hs]
      unfold passed
      rw [if_pos ht]
    · intro j hj
      rw [entry_onRow_out _ i P.n_strains _ j hj, entry_onRow_out _ i P.n_strains _ j hj]
    · intro s hs
      have e := entry_onRow_in l 0 P.n_strains (fun s ls =>
        if entry (onRow X i P.n_strains (grown P ww)) (i + s) > 0 then
          ls + entry (onRow X i P.n_strains (grown P ww)) (i + s)
            / growTotal P ww X i P.n_strains
        else ls) s hs (by omega)
      simp only [Nat.zero_add] at e
      rw [e, hg s hs]
      unfold tallied
      by_cases hp : 0 < grown P ww s (entry X (i + s))
      · rw [if_pos hp, if_pos ⟨ht, hp⟩]
      · rw [if_neg hp, if_neg (fun hc => hp hc.2), add_zero]
  · rw [if_neg ht]
    refine ⟨_, _, rfl, length_onRow _ _ _ _, rfl, ?_, ?_, ?_⟩
    · intro s hs
      rw [hg s hs]
      unfold passed
      rw [if_neg ht]
    · intro j hj
      exact entry_onRow_out _ i P.n_strains _ j hj
    · intro s _
      unfold tallied
      rw [if_neg (fun hc => ht hc.1), add_zero]

/-- The loop over the hosts of the growth pass, entry by entry: each row is
transformed on its own and `l[s]` collects what each row adds. -/
theorem growthLoop_eq (P : Parameters α) (ww : Nat → α) (X : List α)
    (hsize : X.length = P.n_hosts * P.n_strains) :
    ∃ X' l, loop (growHost P ww) (List.range' 0 P.n_hosts P.n_strains)
        (X, List.replicate P.n_strains 0) = some (X', l) ∧
      X'.length = X.length ∧ l.length = P.n_strains ∧
      (∀ h, h < P.n_hosts → ∀ s, s < P.n_strains →
        entry X' (P.n_strains * h + s) = passed P ww X (P.n_strains * h) s) ∧
      (∀ s, s < P.n_strains →
        entry l s = ∑ h in Finset.range P.n_hosts, tallied P ww X (P.n_strains * h) s) := by
  obtain ⟨st, hst, hlen, hll, hdone, _, hsum⟩ := loop_inv (growHost P ww) P.n_strains
    P.n_hosts 0
    (fun k st => st.1.length = X.length ∧ st.2.length = P.n_strains ∧
      (∀ h, h < k → ∀ s, s < P.n_strains →
        entry st.1 (P.n_strains * h + s) = passed P ww X (P.n_strains * h) s) ∧
      (∀ i, P.n_strains * k ≤ i → entry st.1 i = entry X i) ∧
      (∀ s, s < P.n_strains →
        entry st.2 s = ∑ h in Finset.range k, tallied P ww X (P.n_strains * h) s))
    (X, List.replicate P.n_strains 0)
    ⟨rfl, by simp, fun h hh => absurd hh (Nat.not_lt_zero h), fun _ _ => rfl, by
      intro s hs
      simp [entry, List.getD, hs]⟩
    (by
      rintro k hk ⟨Y, l⟩ ⟨hlen, hll, hdone, hrest, hsum⟩
      simp only at hlen hll hdone hrest hsum
      have e : 0 + P.n_strains * k = P.n_strains * k := by omega
      rw [e]
      have hrow : P.n_strains * k + P.n_strains ≤ Y.length := by
        rw [hlen]; exact row_in_store P.n_strains P.n_hosts k X.length hsize hk
      have hsame : ∀ s, s < P.n_strains →
          entry Y (P.n_strains * k + s) = entry X (P.n_strains * k + s) :=
        fun s _ => hrest _ (by omega)
      obtain ⟨X', l', hgo, h1, h2, h3, h4, h5⟩ :=
        growHost_entries P ww (P.n_strains * k) Y l hrow (by omega)
      refine ⟨_, hgo, ?_, ?_, ?_, ?_, ?_⟩
      · simp only
        rw [h1, hlen]
      · simp only
        rw [h2, hll]
      · intro h hh s hs
        simp only
        by_cases hhk : h = k
        · subst hhk
          rw [h3 s hs, passed_congr P ww X Y _ s hs hsame]
        · have hlt : h < k := by omega
          have hle := row_le P.n_strains h k hlt
          rw [h4 _ (by omega)]
          exact hdone h hlt s hs
      · intro i hi
        simp only
        have hmul : P.n_strains * (k + 1) = P.n_strains * k + P.n_strains := Nat.mul_succ _ _
        rw [h4 i (by omega)]
        exact hrest i (by omega)
      · intro s hs
        simp only
        rw [h5 s hs, hsum s hs, Finset.sum_range_succ,
          tallied_congr P ww X Y _ s hs hsame])
  obtain ⟨Y, l⟩ := st
  exact ⟨Y, l, hst, hlen, hll, hdone, hsum⟩

/-- The growth pass in closed form. -/
theorem growthPass_eq (P : Parameters α) (ww : Nat → α) (X : List α)
    (hsize : X.length = P.n_hosts * P.n_strains) :
    ∃ X' l, growthPass P ww X = some (X', l) ∧ X'.length = X.length ∧
      l.length = P.n_strains ∧
      (∀ h, h < P.n_hosts → ∀ s, s < P.n_strains →
        entry X' (P.n_strains * h + s) = passed P ww X (P.n_strains * h) s) ∧
      (∀ s, s < P.n_strains →
        entry l s =
          max (∑ h in Finset.range P.n_hosts, tallied P ww X (P.n_strains * h) s)
            P.min_carriers / (P.n_hosts : α)) := by
  by_cases hn : P.n_strains = 0
  · refine ⟨X, [], ?_, rfl, by rw [hn]; rfl, ?_, ?_⟩
    · unfold growthPass
      rw [hn, upTo_zero]
      simp [loop]
    · intro h _ s hs
      rw [hn] at hs
      exact absurd hs (Nat.not_lt_zero s)
    · intro s hs
      rw [hn] at hs
      exact absurd hs (Nat.not_lt_zero s)
  · obtain ⟨X', l, hgo, h1, h2, h3, h4⟩ := growthLoop_eq P ww X hsize
    refine ⟨X', l.map fun ll => max ll P.min_carriers / (P.n_hosts : α), ?_, h1, ?_, h3, ?_⟩
    · unfold growthPass
      rw [upTo_rows P.n_strains P.n_hosts (Nat.pos_of_ne_zero hn), hgo]
    · rw [List.length_map, h2]
    · intro s hs
      rw [entry_map l _ s (by omega), h4 s hs]

/-- What a row adds to `l[s]` is the positive part of what the pass leaves in
entry `s`, when the pass normalises the row. -/
theorem tallied_eq (P : Parameters α) (ww : Nat → α) (X : List α) (i s : Nat) :
    tallied P ww X i s =
      if 0 < growTotal P ww X i P.n_strains then posPart (passed P ww X i s) else 0 := by
  unfold tallied passed
  by_cases ht : 0 < growTotal P ww X i P.n_strains
  · rw [if_pos ht, if_pos ht]
    unfold shared
    by_cases hp : 0 < grown P ww s (entry X (i + s))
    · rw [if_pos ⟨ht, hp⟩, if_pos hp, posPart_of_pos _ (div_pos hp ht)]
    · rw [if_neg (fun hc => hp hc.2), if_neg hp, posPart_of_not_pos _ hp]
  · rw [if_neg (fun hc => ht hc.1), if_neg ht]

/-- With growth rates that are not negative, a row that the pass does not
normalise has no positive entry left. -/
theorem passed_not_pos (P : Parameters α) (ww : Nat → α) (X : List α) (i s : Nat)
    (h : i + P.n_strains ≤ X.length) (hs : s < P.n_strains)
    (hww : ∀ s, s < P.n_strains → 0 ≤ ww s)
    (ht : ¬ 0 < growTotal P ww X i P.n_strains) : ¬ 0 < passed P ww X i s := by
  unfold passed
  rw [if_neg ht]
  intro hp
  apply ht
  rw [growTotal_eq_posSum P ww X i h hww]
  apply (posSum_pos_iff _ i P.n_strains).mpr
  refine ⟨s, hs, ?_⟩
  rw [entry_onRow_in X i P.n_strains _ s hs h]
  exact hp

end GrowthClosedLemmas

/-! ## The reporter in closed form -/

section ReporterLemmas

variable {α : Type} [LinearOrderedField α]

theorem count_if_eq (X : List α) (i n : Nat) (h : i + n ≤ X.length) :
    count_if X i n = some ((Finset.range n).filter fun s => 0 < entry X (i + s)).card := by
  unfold count_if
  obtain ⟨m, hm, hinv⟩ := loop_inv (fun s m => match rd X (i + s) with
      | none => none
      | some v => some (if v > 0 then m + 1 else m)) 1 n 0
    (fun k m => m = ((Finset.range k).filter fun s => 0 < entry X (i + s)).card) 0
    (by simp) (by
      intro k hk m hm
      have e : 0 + 1 * k = k := by omega
      rw [e]
      beta_reduce
      rw [rd_eq_entry X (i + k) (by omega)]
      refine ⟨_, rfl, ?_⟩
      rw [Finset.range_succ, Finset.filter_insert, hm]
      by_cases hp : 0 < entry X (i + k)
      · simp only [gt_iff_lt, if_pos hp]
        rw [Finset.card_insert_of_not_mem (by simp)]
      · simp only [gt_iff_lt, if_neg hp])
  rw [hm, hinv]

theorem entry_replicate_zero (n b : Nat) : entry (List.replicate n (0 : Nat)) b = 0 := by
  unfold entry
  rw [List.getD_eq_getElem?_getD, List.getElem?_replicate]
  split <;> rfl

/-- No host has more positive counted entries than entries are counted. -/
theorem multiplicity_le (P : Parameters α) (X : List α) (h : Nat) :
    multiplicity P X h ≤ counted P := by
  unfold multiplicity
  calc _ ≤ (Finset.range (counted P)).card := Finset.card_filter_le _ _
    _ = counted P := Finset.card_range _

/-- The body of the loop over the hosts of the reporter, for host `h`. -/
theorem countHost_eq (P : Parameters α) (X : List α) (h : Nat) (c : Counts α)
    (hrow : P.n_strains * h + counted P ≤ X.length) (hlen : c.strain_count.length = 9) :
    countHost P X (P.n_strains * h) c =
      some { strain_count := c.strain_count.set (min 8 (multiplicity P X h))
               (entry c.strain_count (min 8 (multiplicity P X h)) + 1),
             mult := if 0 < multiplicity P X h then c.mult + (multiplicity P X h : α)
               else c.mult,
             carriers := if 0 < multiplicity P X h then c.carriers + 1 else c.carriers } := by
  unfold countHost
  rw [count_if_eq X _ _ hrow]
  show (match some (multiplicity P X h) with
    | none => none
    | some m =>
      let c1 : Counts α :=
        if m > 0 then { c with carriers := c.carriers + 1, mult := c.mult + (m : α) } else c
      match c1.strain_count[min 8 m]? with
      | none => none
      | some k => some { c1 with strain_count := c1.strain_count.set (min 8 m) (k + 1) }) = _
  simp only
  have hlt : min 8 (multiplicity P X h) < c.strain_count.length := by omega
  have hrd : c.strain_count[min 8 (multiplicity P X h)]?
      = some (entry c.strain_count (min 8 (multiplicity P X h))) :=
    rd_eq_entry c.strain_count _ hlt
  by_cases hm : 0 < multiplicity P X h
  · simp only [gt_iff_lt, if_pos hm, hrd]
  · simp only [gt_iff_lt, if_neg hm, hrd]

/-- The loop over the hosts of the reporter in closed form: the histogram, the sum
of the multiplicities and the number of carriers. -/
theorem countHosts_eq (P : Parameters α) (X : List α)
    (hsize : X.length = P.n_hosts * P.n_strains) (hn : 0 < P.n_strains)
    (hc : counted P ≤ P.n_strains) :
    ∃ c, countHosts P X = some c ∧ c.strain_count.length = 9 ∧
      (∀ b, b < 9 → entry c.strain_count b = hostsWith P X (fun m => min 8 m = b)) ∧
      c.mult = ((∑ h in Finset.range P.n_hosts, multiplicity P X h : Nat) : α) ∧
      c.carriers = ((hostsWith P X (fun m => 0 < m) : Nat) : α) := by
  unfold countHosts
  rw [upTo_rows P.n_strains P.n_hosts hn]
  obtain ⟨c, hgo, h1, h2, h3, h4⟩ := loop_inv (countHost P X) P.n_strains P.n_hosts 0
    (fun k c => c.strain_count.length = 9 ∧
      (∀ b, b < 9 → entry c.strain_count b =
        ((Finset.range k).filter fun h => min 8 (multiplicity P X h) = b).card) ∧
      c.mult = ((∑ h in Finset.range k, multiplicity P X h : Nat) : α) ∧
      c.carriers = ((((Finset.range k).filter fun h => 0 < multiplicity P X h).card : Nat) : α))
    { strain_count := List.replicate 9 0, mult := 0, carriers := 0 }
    ⟨by simp, by
      intro b _
      exact entry_replicate_zero 9 b, by simp, by simp⟩
    (by
      intro k hk c ⟨h1, h2, h3, h4⟩
      have e : 0 + P.n_strains * k = P.n_strains * k := by omega
      have hrow := row_in_store P.n_strains P.n_hosts k X.length hsize hk
      rw [e, countHost_eq P X k c (by omega) h1]
      refine ⟨_, rfl, ?_, ?_, ?_, ?_⟩
      · simp only
        rw [List.length_set, h1]
      · intro b hb
        simp only
        rw [entry_set _ _ _ _ (by omega), Finset.range_succ, Finset.filter_insert]
        by_cases hbk : b = min 8 (multiplicity P X k)
        · rw [if_pos hbk, if_pos hbk.symm, Finset.card_insert_of_not_mem (by simp),
            ← hbk, h2 b hb]
        · rw [if_neg hbk, if_neg (fun h => hbk h.symm), h2 b hb]
      · simp only
        rw [Finset.sum_range_succ, Nat.cast_add, ← h3]
        by_cases hm : 0 < multiplicity P X k
        · rw [if_pos hm]
        · rw [if_neg hm]
          have : multiplicity P X k = 0 := by omega
          rw [this, Nat.cast_zero, add_zero]
      · simp only
        rw [Finset.range_succ, Finset.filter_insert]
        by_cases hm : 0 < multiplicity P X k
        · rw [if_pos hm, if_pos hm, Finset.card_insert_of_not_mem (by simp), Nat.cast_add,
            Nat.cast_one, ← h4]
        · rw [if_neg hm, if_neg hm, ← h4])
  exact ⟨c, hgo, h1, h2, h3, h4⟩

end ReporterLemmas

/-! ## Carriers and multiplicities -/

section CarrierLemmas

variable {α : Type} [LinearOrderedField α]

theorem hostsWith_congr (P : Parameters α) (X : List α) (p q : Nat → Prop)
    [DecidablePred p] [DecidablePred q] (h : ∀ m, p m ↔ q m) :
    hostsWith P X p = hostsWith P X q := by
  unfold hostsWith
  congr 1
  apply Finset.filter_congr
  intro a _
  exact h _

theorem carriers_pos_iff (P : Parameters α) (X : List α) :
    0 < hostsWith P X (fun m => 0 < m) ↔ ∃ h, h < P.n_hosts ∧ 0 < multiplicity P X h := by
  unfold hostsWith
  rw [Finset.card_pos]
  constructor
  · rintro ⟨h, hh⟩
    rw [Finset.mem_filter, Finset.mem_range] at hh
    exact ⟨h, hh⟩
  · rintro ⟨h, hh⟩
    exact ⟨h, by rw [Finset.mem_filter, Finset.mem_range]; exact hh⟩

/-- There are no more carriers than the multiplicities add up to, and the
multiplicities add up to no more than the carriers times the strains counted. -/
theorem carriers_le_sum (P : Parameters α) (X : List α) :
    hostsWith P X (fun m => 0 < m) ≤ ∑ h in Finset.range P.n_hosts, multiplicity P X h ∧
    ∑ h in Finset.range P.n_hosts, multiplicity P X h
      ≤ counted P * hostsWith P X (fun m => 0 < m) := by
  unfold hostsWith
  rw [Finset.card_filter, Finset.mul_sum]
  constructor
  · apply Finset.sum_le_sum
    intro h _
    by_cases hm : 0 < multiplicity P X h
    · rw [if_pos hm]; exact hm
    · rw [if_neg hm]; exact Nat.zero_le _
  · apply Finset.sum_le_sum
    intro h _
    by_cases hm : 0 < multiplicity P X h
    · rw [if_pos hm, Nat.mul_one]; exact multiplicity_le P X h
    · rw [if_neg hm, Nat.mul_zero]; omega

/-- The report in closed form. -/
theorem report_eq (P : Parameters α) (X l : List α) (run g : Nat)
    (hsize : X.length = P.n_hosts * P.n_strains) (hn : 0 < P.n_strains)
    (hc : counted P ≤ P.n_strains) :
    ∃ line, report P run g X l = some line ∧ line.strain_count.length = 9 ∧
      (∀ b, b < 9 → entry line.strain_count b = hostsWith P X (fun m => min 8 m = b)) ∧
      line.mult = quotient ((∑ h in Finset.range P.n_hosts, multiplicity P X h : Nat) : α)
        ((hostsWith P X (fun m => 0 < m) : Nat) : α) ∧
      line.l = l := by
  obtain ⟨c, hgo, h1, h2, h3, h4⟩ := countHosts_eq P X hsize hn hc
  unfold report
  rw [hgo]
  exact ⟨_, rfl, h1, h2, by rw [← h3, ← h4], rfl⟩

/-- The multiplicity of a host is what `count_if` returns on its row. -/
theorem multiplicity_of_count_if (P : Parameters α) (X : List α) (h m : Nat)
    (hrow : P.n_strains * h + counted P ≤ X.length)
    (hm : count_if X (P.n_strains * h) (counted P) = some m) : multiplicity P X h = m := by
  rw [count_if_eq X _ _ hrow] at hm
  exact Option.some.inj hm

end CarrierLemmas

/-! ## The store in which no host carries anything -/

section NoEventLemmas

variable {α : Type}

/-- When every count is 0 no event is sampled. -/
theorem sampleEvents_zero (P : Parameters α) (nTransmission nClearance : Nat → Nat)
    (h1 : ∀ s, nTransmission s = 0) (h2 : ∀ t, nClearance t = 0) :
    sampleEvents P nTransmission nClearance 0 0 0 = [] := by
  unfold sampleEvents
  simp [h1, h2]

end NoEventLemmas

section ZeroStoreLemmas

variable {α : Type} [LinearOrderedField α]

theorem multiplicity_zero (P : Parameters α) (X : List α) (h : Nat)
    (hzero : ∀ i, entry X i = 0) : multiplicity P X h = 0 := by
  unfold multiplicity
  rw [Finset.card_eq_zero, Finset.filter_eq_empty_iff]
  intro s _
  rw [hzero]
  exact lt_irrefl 0

/-- The growth pass leaves an all-zero store as it is. -/
theorem growthPass_zero (P : Parameters α) (ww : Nat → α) (X : List α)
    (hsize : X.length = P.n_hosts * P.n_strains) (hzero : ∀ i, entry X i = 0) :
    ∃ l, growthPass P ww X = some (X, l) := by
  obtain ⟨X', l, hgo, hlen, _, hent, _⟩ := growthPass_eq P ww X hsize
  have hX : X' = X := by
    apply store_ext _ _ hlen
    intro i hi
    rw [hzero i]
    by_cases hn : P.n_strains = 0
    · rw [hlen, hsize, hn, Nat.mul_zero] at hi
      exact absurd hi (Nat.not_lt_zero _)
    · have hnpos := Nat.pos_of_ne_zero hn
      have hdiv : i / P.n_strains < P.n_hosts := by
        rw [Nat.div_lt_iff_lt_mul hnpos]
        rw [hlen, hsize] at hi
        exact hi
      have hthis := hent (i / P.n_strains) hdiv (i % P.n_strains) (Nat.mod_lt _ hnpos)
      rw [Nat.div_add_mod i P.n_strains] at hthis
      rw [hthis]
      have ht : growTotal P ww X (P.n_strains * (i / P.n_strains)) P.n_strains = 0 := by
        unfold growTotal
        apply Finset.sum_eq_zero
        intro s _
        rw [hzero, if_neg (lt_irrefl 0)]
      unfold passed
      rw [ht, if_neg (lt_irrefl 0), hzero]
      unfold grown
      rw [if_neg (lt_irrefl 0)]
  rw [hX] at hgo
  exact ⟨l, hgo⟩

/-- A time step in which every sampled count is 0 leaves an all-zero store as it
is. -/
theorem timeStep_zero (P : Parameters α) (ww : Nat → α) (T : Tick α) (X : List α)
    (hsize : X.length = P.n_hosts * P.n_strains) (hzero : ∀ i, entry X i = 0)
    (h1 : ∀ s, T.nTransmission s = 0) (h2 : ∀ t, T.nClearance t = 0)
    (h3 : T.nTreatment = 0) (h4 : T.nBirth = 0) (h5 : T.nTransfer = 0)
    (hshuffle : ∀ es, (T.shuffle es).Perm es) :
    ∃ l, timeStep P ww T X = some (X, l) := by
  obtain ⟨l, hl⟩ := growthPass_zero P ww X hsize hzero
  refine ⟨l, ?_⟩
  unfold timeStep
  rw [hl, h3, h4, h5, sampleEvents_zero P _ _ h1 h2, List.Perm.eq_nil (hshuffle [])]
  rfl

/-- On an all-zero store the loop over the hosts of the reporter counts every host
in entry 0 of the histogram and finds no carrier. -/
theorem countHosts_zero (P : Parameters α) (X : List α)
    (hsize : X.length = P.n_hosts * P.n_strains) (hzero : ∀ i, entry X i = 0)
    (hn : 0 < P.n_strains) (hc : counted P ≤ P.n_strains) :
    countHosts P X =
      some { strain_count := P.n_hosts :: List.replicate 8 0, mult := 0, carriers := 0 } := by
  unfold countHosts
  rw [upTo_rows P.n_strains P.n_hosts hn]
  obtain ⟨c, hgo, hinv⟩ := loop_inv (countHost P X) P.n_strains P.n_hosts 0
    (fun k c => c = { strain_count := k :: List.replicate 8 0, mult := 0, carriers := 0 })
    { strain_count := List.replicate 9 0, mult := 0, carriers := 0 } rfl
    (by
      intro k hk c hcs
      have e : 0 + P.n_strains * k = P.n_strains * k := by omega
      have hrow := row_in_store P.n_strains P.n_hosts k X.length hsize hk
      rw [e, countHost_eq P X k c (by omega) (by rw [hcs]; rfl), multiplicity_zero P X k hzero,
        hcs]
      exact ⟨_, rfl, rfl⟩)
  rw [hgo, hinv]

/-- The report on an all-zero store. -/
theorem report_zero (P : Parameters α) (X l : List α) (run g : Nat)
    (hsize : X.length = P.n_hosts * P.n_strains) (hzero : ∀ i, entry X i = 0)
    (hn : 0 < P.n_strains) (hc : counted P ≤ P.n_strains) :
    ∃ line, report P run g X l = some line ∧
      line.strain_count = P.n_hosts :: List.replicate 8 0 ∧ line.mult = none := by
  unfold report
  rw [countHosts_zero P X hsize hzero hn hc]
  exact ⟨_, rfl, rfl, by simp [quotient]⟩

/-- The loop over the time steps on an all-zero store when every sampled count is
0: the store stays as it is and every line reported has all hosts in entry 0 of
the histogram. -/
theorem timeLoop_zero (P : Parameters α) (ww : Nat → α) (run : Nat) (X : List α)
    (hsize : X.length = P.n_hosts * P.n_strains) (hzero : ∀ i, entry X i = 0)
    (hrep : 0 < P.report) (hn : 0 < P.n_strains) (hc : counted P ≤ P.n_strains) :
    ∀ (ticks : List (Tick α)) (g : Nat) (out : List (Line α)),
      (∀ T, T ∈ ticks → (∀ s, T.nTransmission s = 0) ∧ (∀ t, T.nClearance t = 0) ∧
        T.nTreatment = 0 ∧ T.nBirth = 0 ∧ T.nTransfer = 0 ∧
        ∀ es, (T.shuffle es).Perm es) →
      ∃ out', timeLoop P ww run ticks g (X, out) = some (X, out ++ out') ∧
        out'.length = ((List.range' g ticks.length).filter fun k => k % P.report = 0).length ∧
        ∀ line, line ∈ out' →
          line.strain_count = P.n_hosts :: List.replicate 8 0 ∧ line.mult = none := by
  intro ticks
  induction ticks with
  | nil =>
    intro g out _
    exact ⟨[], by simp [timeLoop], by simp, by simp⟩
  | cons T rest ih =>
    intro g out hT
    obtain ⟨h1, h2, h3, h4, h5, h6⟩ := hT T (List.mem_cons_self T rest)
    obtain ⟨l, hl⟩ := timeStep_zero P ww T X hsize hzero h1 h2 h3 h4 h5 h6
    have hrest : ∀ T', T' ∈ rest → (∀ s, T'.nTransmission s = 0) ∧
        (∀ t, T'.nClearance t = 0) ∧ T'.nTreatment = 0 ∧ T'.nBirth = 0 ∧ T'.nTransfer = 0 ∧
        ∀ es, (T'.shuffle es).Perm es := fun T' hT' => hT T' (List.mem_cons_of_mem T hT')
    have hne : ¬ P.report = 0 := by omega
    rw [List.length_cons, List.range'_succ]
    by_cases hg : g % P.report = 0
    · obtain ⟨line0, hr, hs0, hm0⟩ := report_zero P X l run g hsize hzero hn hc
      obtain ⟨out', hgo, hlen, hlines⟩ := ih (g + 1) (out ++ [line0]) hrest
      refine ⟨line0 :: out', ?_, ?_, ?_⟩
      · simp only [timeLoop, hl, if_neg hne, if_pos hg, hr]
        rw [hgo, List.append_assoc]
        rfl
      · simp [hg, hlen]
      · intro line hline
        rcases List.mem_cons.mp hline with rfl | hmem
        · exact ⟨hs0, hm0⟩
        · exact hlines line hmem
    · obtain ⟨out', hgo, hlen, hlines⟩ := ih (g + 1) out hrest
      refine ⟨out', ?_, ?_, hlines⟩
      · simp only [timeLoop, hl, if_neg hne, if_neg hg]
        exact hgo
      · simp [hg, hlen]

end ZeroStoreLemmas

/-! ## The store as allocated -/

section AllocateLemmas

variable {α : Type} [LinearOrderedField α]

/-- An all-zero store of `n_hosts * n_strains` entries is the store as allocated. -/
theorem eq_allocate (P : Parameters α) (X : List α)
    (hsize : X.length = P.n_hosts * P.n_strains) (hzero : ∀ i, entry X i = 0) :
    allocate P = X := by
  unfold allocate
  apply store_ext
  · rw [List.length_replicate, hsize]
  · intro i _
    rw [hzero]
    unfold entry
    rw [List.getD_eq_getElem?_getD, List.getElem?_replicate]
    split <;> rfl

end AllocateLemmas

/-! ## A store in which no entry is positive -/

section ExtinctLemmas

variable {α : Type} [LinearOrderedField α]

/-- The growth pass leaves a store without positive entry as it is. -/
theorem growthPass_extinct (P : Parameters α) (ww : Nat → α) (X : List α)
    (hsize : X.length = P.n_hosts * P.n_strains) (hext : ∀ i, entry X i ≤ 0) :
    ∃ l, growthPass P ww X = some (X, l) := by
  obtain ⟨X', l, hgo, hlen, _, hent, _⟩ := growthPass_eq P ww X hsize
  have hX : X' = X := by
    apply store_ext _ _ hlen
    intro i hi
    by_cases hn : P.n_strains = 0
    · rw [hlen, hsize, hn, Nat.mul_zero] at hi
      exact absurd hi (Nat.not_lt_zero _)
    · have hnpos := Nat.pos_of_ne_zero hn
      have hdiv : i / P.n_strains < P.n_hosts := by
        rw [Nat.div_lt_iff_lt_mul hnpos]
        rw [hlen, hsize] at hi
        exact hi
      have hthis := hent (i / P.n_strains) hdiv (i % P.n_strains) (Nat.mod_lt _ hnpos)
      rw [Nat.div_add_mod i P.n_strains] at hthis
      rw [hthis]
      have ht : growTotal P ww X (P.n_strains * (i / P.n_strains)) P.n_strains = 0 := by
        unfold growTotal
        apply Finset.sum_eq_zero
        intro s _
        rw [if_neg (not_lt.mpr (hext _))]
      unfold passed
      rw [ht, if_neg (lt_irrefl 0), Nat.div_add_mod i P.n_strains]
      unfold grown
      rw [if_neg (not_lt.mpr (hext i))]
  rw [hX] at hgo
  exact ⟨l, hgo⟩

/-- Transfer to a host of a store without positive entry leaves no positive
entry when `iota` is not negative. -/
theorem caseTransfer_extinct (P : Parameters α) (X : List α) (h : Nat) (d : Draws α)
    (hth : P.theta.length = P.n_strains)
    (hsize : X.length = P.n_hosts * P.n_strains) (hfit : P.n_hosts * P.n_strains < 2 ^ 32)
    (hh : h < P.n_hosts) (hc : d.contact < P.n_hosts) (hiota : 0 ≤ P.iota)
    (hext : ∀ i, entry X i ≤ 0) :
    ∃ X' c, caseTransfer P X (P.n_strains * h) d = some (X', c) ∧ X'.length = X.length ∧
      ∀ i, entry X' i ≤ 0 := by
  have hrow := row_in_store P.n_strains P.n_hosts h X.length hsize hh
  obtain ⟨hxx, hrows⟩ := contact_row P.n_strains P.n_hosts h d.contact X.length hsize hfit hc
  obtain ⟨c1, c2, _, heq, _⟩ := caseTransfer_eq P X (P.n_strains * h) d hth hrow hxx hrows
  have hu : Unblocked P X (P.n_strains * h) d := Or.inr (Or.inl fun s _ => hext _)
  rw [if_pos hu] at heq
  by_cases ht : ∃ s, s < P.n_strains ∧ Transferred P X (P.n_strains * h) s d
  · rw [if_pos ht] at heq
    have hY : ∀ i, entry (onRow X (P.n_strains * h) P.n_strains
        (transferValue P X (P.n_strains * h) ((P.n_strains * d.contact) % 2 ^ 32) d)) i ≤ 0 := by
      intro i
      by_cases hi : i < X.length
      · rw [entry_onRow X _ _ _ i hi]
        by_cases hin : P.n_strains * h ≤ i ∧ i < P.n_strains * h + P.n_strains
        · rw [if_pos hin]
          unfold transferValue
          by_cases htr : Transferred P X (P.n_strains * h) (i - P.n_strains * h) d
          · rw [if_pos htr, max_eq_right (hext i), zero_add]
            exact mul_nonpos_of_nonneg_of_nonpos hiota (hext _)
          · rw [if_neg htr]
            exact hext i
        · rw [if_neg hin]
          exact hext i
      · rw [entry_of_le _ _ (by rw [length_onRow]; omega)]
    rw [normalized_of_no_pos _ _ _ (fun s _ => not_lt.mpr (hY _))] at heq
    exact ⟨_, _, heq, length_onRow _ _ _ _, hY⟩
  · rw [if_neg ht] at heq
    exact ⟨_, _, heq, rfl, hext⟩

/-- Transmission of a strain to a host of a store without positive entry, with
immunity disabled and `iota > 0`, makes the entry of that strain positive. -/
theorem caseTransmission_extinct (P : Parameters α) (X : List α) (x j : Nat) (d : Draws α)
    (hx : x + P.n_strains ≤ X.length) (hj : j < P.n_strains)
    (himm : P.immunity = false) (hiota : 0 < P.iota) (hext : ∀ i, entry X i ≤ 0) :
    ∃ c, caseTransmission P X x j d = some (X.set (x + j) 1, c) := by
  obtain ⟨c, hc⟩ := caseTransmission_eq P X x j d hx hj
  have hu : Unblocked P X x d := Or.inr (Or.inl fun s _ => hext _)
  have hp : Permitted P X x j d := Or.inl himm
  rw [if_pos ⟨hu, hp⟩] at hc
  have hlen : x + P.n_strains ≤ (X.set (x + j) (max (entry X (x + j)) 0 + P.iota)).length := by
    rw [List.length_set]; exact hx
  have hsingle := normalized_single (X.set (x + j) (max (entry X (x + j)) 0 + P.iota)) x
    P.n_strains j hj hlen
    (by
      rw [entry_set X _ _ _ (by omega), if_pos rfl, max_eq_right (hext _), zero_add]
      exact hiota)
    (by
      intro s _ hne
      rw [entry_set X _ _ _ (by omega), if_neg (by omega)]
      exact hext _)
  rw [hsingle, List.set_set] at hc
  exact ⟨c, hc⟩

end ExtinctLemmas

/-! ## The largest share of a carrier -/

section ShareLemmas

variable {α : Type} [LinearOrderedField α]

/-- When the positive entries of a row sum to 1, some entry is at least
`1 / n_strains`. -/
theorem exists_large_entry (X : List α) (off n : Nat) (hsum : posSum X off n = 1) :
    0 < n ∧ ∃ s, s < n ∧ 1 / (n : α) ≤ entry X (off + s) := by
  have hn : n ≠ 0 := by
    intro h0
    rw [h0] at hsum
    simp [posSum] at hsum
  have hnpos : (0 : α) < (n : α) := Nat.cast_pos.mpr (Nat.pos_of_ne_zero hn)
  refine ⟨Nat.pos_of_ne_zero hn, ?_⟩
  by_contra hne
  push_neg at hne
  have hlt : posSum X off n < ∑ _s in Finset.range n, 1 / (n : α) := by
    unfold posSum
    apply Finset.sum_lt_sum_of_nonempty (Finset.nonempty_range_iff.mpr hn)
    intro s hs
    have h1 := hne s (Finset.mem_range.mp hs)
    unfold posPart
    split
    · exact h1
    · exact div_pos one_pos hnpos
  rw [Finset.sum_const, Finset.card_range, nsmul_eq_mul, mul_one_div_cancel (ne_of_gt hnpos),
    hsum] at hlt
  exact lt_irrefl 1 hlt

end ShareLemmas

/-! ## Conversion of vectors from and to text -/

section ConvertLemmas

variable {β : Type}

theorem tokens_comma (r : List Char) : tokens (',' :: r) = [] :: tokens r := by
  simp [tokens]

theorem tokens_other (c : Char) (r : List Char) (hc : c ≠ ',') :
    tokens (c :: r) =
      match tokens r with
      | [] => [[c]]
      | t :: ts => (c :: t) :: ts := by
  simp [tokens, hc]

theorem dropWhile_comma (r : List Char) :
    (',' :: r).dropWhile (fun c => c != ',') = ',' :: r := by
  simp [List.dropWhile_cons]

theorem takeWhile_comma (r : List Char) : (',' :: r).takeWhile (fun c => c != ',') = [] := by
  simp [List.takeWhile_cons]

theorem dropWhile_other (c : Char) (r : List Char) (hc : c ≠ ',') :
    (c :: r).dropWhile (fun c => c != ',') = r.dropWhile (fun c => c != ',') := by
  simp [List.dropWhile_cons, hc]

theorem takeWhile_other (c : Char) (r : List Char) (hc : c ≠ ',') :
    (c :: r).takeWhile (fun c => c != ',') = c :: r.takeWhile (fun c => c != ',') := by
  simp [List.takeWhile_cons, hc]

theorem tokens_last (rest : List Char) (h : rest.dropWhile (fun c => c != ',') = []) :
    tokens rest = [rest.takeWhile (fun c => c != ',')] := by
  induction rest with
  | nil => rfl
  | cons c r ih =>
    by_cases hc : c = ','
    · subst hc
      rw [dropWhile_comma] at h
      cases h
    · rw [dropWhile_other c r hc] at h
      rw [takeWhile_other c r hc, tokens_other c r hc, ih h]

theorem tokens_cons (rest rest' : List Char) (x : Char)
    (h : rest.dropWhile (fun c => c != ',') = x :: rest') :
    tokens rest = rest.takeWhile (fun c => c != ',') :: tokens rest' := by
  induction rest with
  | nil => simp at h
  | cons c r ih =>
    by_cases hc : c = ','
    · subst hc
      rw [dropWhile_comma] at h
      have hr : r = rest' := (List.cons.inj h).2
      subst hr
      rw [takeWhile_comma, tokens_comma]
    · rw [dropWhile_other c r hc] at h
      rw [takeWhile_other c r hc, tokens_other c r hc, ih h]

theorem length_after_comma (rest rest' : List Char) (x : Char)
    (h : rest.dropWhile (fun c => c != ',') = x :: rest') : rest'.length < rest.length := by
  have h1 := (List.dropWhile_suffix (fun c => c != ',') (l := rest)).length_le
  rw [h] at h1
  simp only [List.length_cons] at h1
  omega

/-- The loop of the parser returns, with one trimmed and converted element for
each comma-separated token. -/
theorem ConvertFromStringLoop_eq (subconv : List Char → β) :
    ∀ (fuel : Nat) (rest : List Char) (acc : List β), rest.length < fuel →
      ConvertFromStringLoop subconv fuel rest acc =
        some (acc ++ (tokens rest).map fun t => subconv (Trim t)) := by
  intro fuel
  induction fuel with
  | zero => intro rest acc h; exact absurd h (Nat.not_lt_zero _)
  | succ n ih =>
    intro rest acc h
    unfold ConvertFromStringLoop
    cases hd : rest.dropWhile (fun c => c != ',') with
    | nil =>
      simp only
      rw [tokens_last rest hd]
      rfl
    | cons x rest' =>
      simp only
      have hlen := length_after_comma rest rest' x hd
      rw [ih rest' _ (by omega), tokens_cons rest rest' x hd]
      simp

theorem ConvertFromStringVector_eq (subconv : List Char → β) (s : List Char) :
    ConvertFromStringVector subconv s = some ((tokens s).map fun t => subconv (Trim t)) := by
  unfold ConvertFromStringVector
  rw [ConvertFromStringLoop_eq subconv _ s [] (Nat.lt_succ_self _)]
  rfl

theorem tokens_no_comma (a : List Char) (h : ',' ∉ a) : tokens a = [a] := by
  induction a with
  | nil => rfl
  | cons c r ih =>
    have hc : c ≠ ',' := fun e => h (by rw [e]; exact List.mem_cons_self _ _)
    have hr : ',' ∉ r := fun e => h (List.mem_cons_of_mem _ e)
    rw [tokens_other c r hc, ih hr]

theorem tokens_append_comma (a b : List Char) (h : ',' ∉ a) :
    tokens (a ++ ',' :: b) = a :: tokens b := by
  induction a with
  | nil => exact tokens_comma b
  | cons c r ih =>
    have hc : c ≠ ',' := fun e => h (by rw [e]; exact List.mem_cons_self _ _)
    have hr : ',' ∉ r := fun e => h (List.mem_cons_of_mem _ e)
    show tokens (c :: (r ++ ',' :: b)) = (c :: r) :: tokens b
    rw [tokens_other c _ hc, ih hr]

/-- The tokens of the text written for a vector that is not empty are the texts of
its elements, when none of these holds a comma. -/
theorem tokens_written (subconv : β → List Char) (v : List β) (hv : v ≠ [])
    (h : ∀ x, x ∈ v → ',' ∉ subconv x) :
    tokens (ConvertToStringVector subconv v) = v.map subconv := by
  induction v with
  | nil => exact absurd rfl hv
  | cons x rest ih =>
    cases rest with
    | nil =>
      show tokens (subconv x) = [subconv x]
      exact tokens_no_comma _ (h x (List.mem_cons_self _ _))
    | cons y rest' =>
      show tokens (subconv x ++ ',' :: ConvertToStringVector subconv (y :: rest')) = _
      rw [tokens_append_comma _ _ (h x (List.mem_cons_self _ _)),
        ih (by simp) (fun z hz => h z (List.mem_cons_of_mem _ hz))]
      rfl

theorem length_tokens (s : List Char) : (tokens s).length = s.count ',' + 1 := by
  induction s with
  | nil => rfl
  | cons c r ih =>
    by_cases hc : c = ','
    · subst hc
      rw [tokens_comma, List.length_cons, ih, List.count_cons_self]
    · rw [tokens_other c r hc]
      have hne : (tokens r) ≠ [] := by
        intro e
        rw [e] at ih
        simp at ih
      cases ht : tokens r with
      | nil => exact absurd ht hne
      | cons t ts =>
        rw [ht] at ih
        simp only [List.length_cons] at ih ⊢
        rw [ih, List.count_cons_of_ne (Ne.symm hc)]

end ConvertLemmas

/-! ## `Trim` and the tokens of a text -/

section TrimLemmas

theorem dropWhile_head (p : Char → Bool) (s : List Char)
    (h : ∀ c, s.head? = some c → p c = false) : s.dropWhile p = s := by
  cases s with
  | nil => rfl
  | cons c r => simp [List.dropWhile_cons, h c rfl]

/-- A text without a leading and without a trailing blank is left as it is by `Trim`. -/
theorem Trim_eq_self (s : List Char) (h1 : ∀ c, s.head? = some c → blank c = false)
    (h2 : ∀ c, s.getLast? = some c → blank c = false) : Trim s = s := by
  unfold Trim
  rw [dropWhile_head blank s h1]
  cases s with
  | nil => rfl
  | cons c r =>
    show ((c :: r).reverse.dropWhile blank).reverse = c :: r
    rw [dropWhile_head blank _ (by rw [List.head?_reverse]; exact h2), List.reverse_reverse]

/-- The tokens, joined with commas, are the text. -/
theorem tokens_join (s : List Char) : List.intercalate [','] (tokens s) = s := by
  induction s with
  | nil => rfl
  | cons c r ih =>
    by_cases hc : c = ','
    · subst hc
      have hne : tokens r ≠ [] := by
        intro e
        have := length_tokens r
        rw [e] at this
        simp at this
      rw [tokens_comma]
      cases ht : tokens r with
      | nil => exact absurd ht hne
      | cons t ts =>
        rw [ht] at ih
        rw [← ih]
        simp [List.intercalate, List.intersperse]
    · rw [tokens_other c r hc]
      cases ht : tokens r with
      | nil =>
        have := length_tokens r
        rw [ht] at this
        simp at this
      | cons t ts =>
        rw [ht] at ih
        rw [← ih]
        cases ts <;> simp [List.intercalate, List.intersperse]

/-- No token holds a comma. -/
theorem tokens_free (s : List Char) : ∀ t ∈ tokens s, ',' ∉ t := by
  induction s with
  | nil =>
    intro t ht
    simp [tokens] at ht
    subst ht
    simp
  | cons c r ih =>
    by_cases hc : c = ','
    · subst hc
      rw [tokens_comma]
      intro t ht
      rcases List.mem_cons.1 ht with e | e
      · subst e
        simp
      · exact ih t e
    · rw [tokens_other c r hc]
      cases ht : tokens r with
      | nil =>
        intro t h
        simp at h
        subst h
        simpa using Ne.symm hc
      | cons t ts =>
        rw [ht] at ih
        intro t' h
        rcases List.mem_cons.1 h with e | e
        · subst e
          intro hm
          rcases List.mem_cons.1 hm with e' | e'
          · exact hc e'.symm
          · exact ih t (List.mem_cons_self _ _) e'
        · exact ih t' (List.mem_cons_of_mem _ e)

end TrimLemmas

/-! ## `NextSweep` and the loop over the sweeps -/

section SweepLemmas

variable {τ : Type}

theorem NextSweep_last (c : Config τ) (h : c._sweep + 1 = NSweeps c) :
    NextSweep c = some { c with _good := false, _sweep := NSweeps c - 1 } := by
  unfold NextSweep
  rw [if_pos h]

/-- A call of `NextSweep` that is not made from the last sweep: the sweep advances
by one, the maps and the flag are kept, and the parameters are assigned from the
map of the new sweep and then from the command line. -/
theorem NextSweep_inner (c c' : Config τ) (h : c._sweep + 1 ≠ NSweeps c)
    (hn : NextSweep c = some c') :
    c'._sweep = c._sweep + 1 ∧ c'._good = c._good ∧ c'._nvm_sweeps = c._nvm_sweeps ∧
    c'._nvm_override = c._nvm_override ∧
    ∃ nvm ps, c._nvm_sweeps[c._sweep + 1]? = some nvm ∧
      AssignFromMap nvm c.parameters = some ps ∧
      AssignFromMap c._nvm_override ps = some c'.parameters := by
  unfold NextSweep at hn
  rw [if_neg h] at hn
  cases h1 : c._nvm_sweeps[c._sweep + 1]? with
  | none => rw [h1] at hn; cases hn
  | some nvm =>
    rw [h1] at hn
    dsimp only at hn
    cases h2 : AssignFromMap nvm c.parameters with
    | none => rw [h2] at hn; cases hn
    | some ps =>
      rw [h2] at hn
      dsimp only at hn
      cases h3 : AssignFromMap c._nvm_override ps with
      | none => rw [h3] at hn; cases hn
      | some ps' =>
        rw [h3] at hn
        cases hn
        exact ⟨rfl, rfl, rfl, rfl, nvm, ps, rfl, h2, h3⟩

/-- The calls of `NextSweep` made one after the other from a state on a sweep below
`NSweeps()`, when the calls that lead to the last sweep return: after `j` calls
the sweep is `j` sweeps further, or the last one, the flag `_good` is kept as
long as the calls are not more than the sweeps left, and is false afterwards. -/
theorem advance_spec (N : Nat) :
    ∀ (j : Nat) (c : Config τ), NSweeps c = N → c._sweep < N →
      (advance c (N - 1 - c._sweep)).isSome = true →
      ∃ cj, advance c j = some cj ∧ cj._sweep = min (c._sweep + j) (N - 1) ∧
        cj._good = (c._good && decide (c._sweep + j < N)) ∧ NSweeps cj = N ∧
        cj._nvm_sweeps = c._nvm_sweeps ∧ cj._nvm_override = c._nvm_override := by
  intro j
  induction j with
  | zero =>
    intro c hN hlt _
    refine ⟨c, rfl, ?_, ?_, hN, rfl, rfl⟩
    · rw [Nat.add_zero, Nat.min_eq_left (by omega)]
    · simp [hlt]
  | succ j ih =>
    intro c hN hlt hok
    by_cases h : c._sweep + 1 = NSweeps c
    · have hc1 := NextSweep_last c h
      obtain ⟨cj, h1, h2, h3, h4, h5, h6⟩ :=
        ih { c with _good := false, _sweep := NSweeps c - 1 } hN
          (by show NSweeps c - 1 < N; omega)
          (by
            have : N - 1 - (NSweeps c - 1) = 0 := by omega
            show (advance _ (N - 1 - (NSweeps c - 1))).isSome = true
            rw [this]
            rfl)
      refine ⟨cj, ?_, ?_, ?_, h4, h5, h6⟩
      · show (match NextSweep c with
          | none => none
          | some c' => advance c' j) = some cj
        rw [hc1]
        exact h1
      · rw [h2]
        show min (NSweeps c - 1 + j) (N - 1) = min (c._sweep + (j + 1)) (N - 1)
        rw [Nat.min_eq_right (by omega), Nat.min_eq_right (by omega)]
      · rw [h3]
        have : ¬ c._sweep + (j + 1) < N := by omega
        simp [this]
    · obtain ⟨m, hm⟩ : ∃ m, N - 1 - c._sweep = m + 1 := ⟨N - 1 - c._sweep - 1, by omega⟩
      rw [hm] at hok
      cases hc1 : NextSweep c with
      | none =>
        have : advance c (m + 1) = none := by
          show (match NextSweep c with
            | none => none
            | some c' => advance c' m) = none
          rw [hc1]
        rw [this] at hok
        cases hok
      | some c1 =>
        have hadv : advance c (m + 1) = advance c1 m := by
          show (match NextSweep c with
            | none => none
            | some c' => advance c' m) = advance c1 m
          rw [hc1]
        obtain ⟨e1, e2, e3, e4, _⟩ := NextSweep_inner c c1 h hc1
        have hN1 : NSweeps c1 = N := by
          unfold NSweeps at hN ⊢
          rw [e3]
          exact hN
        obtain ⟨cj, h1, h2, h3, h4, h5, h6⟩ := ih c1 hN1 (by omega)
          (by
            have : N - 1 - c1._sweep = m := by omega
            rw [this, ← hadv]
            exact hok)
        refine ⟨cj, ?_, ?_, ?_, h4, h5.trans e3, h6.trans e4⟩
        · show (match NextSweep c with
            | none => none
            | some c' => advance c' j) = some cj
          rw [hc1]
          exact h1
        · rw [h2, e1]
          congr 1
          omega
        · rw [h3, e2, e1]
          congr 2
          exact propext (by omega)

/-- The loop over the sweeps from a state with `Good()` on a sweep from which `k`
sweeps are left, when the calls that lead to the last sweep return: with at
least `k + 2` tests of `Good()` allowed, the body runs with the sweeps from the
current one to the last, and the loop ends on the last sweep with `Good()`
false. -/
theorem sweepLoop_spec :
    ∀ (k : Nat) (c : Config τ), c._good = true → c._sweep + k + 1 = NSweeps c →
      (advance c k).isSome = true →
      ∃ cEnd, (∀ fuel, k + 2 ≤ fuel →
          sweepLoop fuel c = some (List.range' c._sweep (k + 1), cEnd)) ∧
        cEnd._good = false ∧ cEnd._sweep = NSweeps c - 1 ∧ NSweeps cEnd = NSweeps c := by
  intro k
  induction k with
  | zero =>
    intro c hg hk _
    refine ⟨{ c with _good := false, _sweep := NSweeps c - 1 }, ?_, rfl, rfl, rfl⟩
    intro fuel hf
    obtain ⟨f, rfl⟩ : ∃ f, fuel = f + 2 := ⟨fuel - 2, by omega⟩
    show (if Good c then
        match NextSweep c with
        | none => none
        | some c' => (sweepLoop (f + 1) c').map fun r => (Sweep c :: r.1, r.2)
      else some ([], c)) = _
    rw [show Good c = true from hg, if_pos rfl, NextSweep_last c (by omega)]
    rfl
  | succ k ih =>
    intro c hg hk hok
    have h : c._sweep + 1 ≠ NSweeps c := by omega
    cases hc1 : NextSweep c with
    | none =>
      have : advance c (k + 1) = none := by
        show (match NextSweep c with
          | none => none
          | some c' => advance c' k) = none
        rw [hc1]
      rw [this] at hok
      cases hok
    | some c1 =>
      have hadv : advance c (k + 1) = advance c1 k := by
        show (match NextSweep c with
          | none => none
          | some c' => advance c' k) = advance c1 k
        rw [hc1]
      obtain ⟨e1, e2, e3, _, _⟩ := NextSweep_inner c c1 h hc1
      have hN1 : NSweeps c1 = NSweeps c := by
        unfold NSweeps
        rw [e3]
      obtain ⟨cEnd, h1, h2, h3, h4⟩ := ih c1 (e2.trans hg) (by omega) (by rw [← hadv]; exact hok)
      refine ⟨cEnd, ?_, h2, by rw [h3, hN1], by rw [h4, hN1]⟩
      intro fuel hf
      obtain ⟨f, rfl⟩ : ∃ f, fuel = f + 1 := ⟨fuel - 1, by omega⟩
      show (if Good c then
          match NextSweep c with
          | none => none
          | some c' => (sweepLoop f c').map fun r => (Sweep c :: r.1, r.2)
        else some ([], c)) = _
      rw [show Good c = true from hg, if_pos rfl, hc1]
      show (sweepLoop f c1).map (fun r => (Sweep c :: r.1, r.2)) = _
      rw [h1 f (by omega), e1]
      rfl

end SweepLemmas

/-! ## The state that `Read` leaves -/

section ReadLemmas

variable {τ : Type}

theorem limitSweeps_state (c c1 : Config τ) (a b : Nat) (h : limitSweeps c a b = some c1) :
    c1._sweep = c._sweep ∧ c1._good = c._good ∧ c1.parameters = c.parameters ∧
    c1._nvm_override = c._nvm_override := by
  unfold limitSweeps at h
  split at h
  · cases h
  · cases h
    exact ⟨rfl, rfl, rfl, rfl⟩

/-- The method `Read` leaves the sweep and the flag `_good` as the constructor set
them, and the sweep is one of the sweeps. -/
theorem Read_fresh (c0 c : Config τ) (range : Option (Nat × Nat)) (override : NameValueMap)
    (h : Read c0 range override = some c) :
    c._sweep = c0._sweep ∧ c._good = c0._good ∧ c._sweep < NSweeps c ∧
    c._nvm_override = override := by
  unfold Read at h
  cases h1 : (match range with
    | none => some c0
    | some r => limitSweeps c0 r.1 r.2) with
  | none => rw [h1] at h; cases h
  | some c1 =>
    rw [h1] at h
    dsimp only at h
    have hc1 : c1._sweep = c0._sweep ∧ c1._good = c0._good := by
      cases range with
      | none => cases h1; exact ⟨rfl, rfl⟩
      | some r =>
        have := limitSweeps_state c0 c1 r.1 r.2 h1
        exact ⟨this.1, this.2.1⟩
    cases h2 : c1._nvm_sweeps[c1._sweep]? with
    | none => rw [h2] at h; cases h
    | some nvm =>
      rw [h2] at h
      dsimp only at h
      cases h3 : AssignFromMap nvm c1.parameters with
      | none => rw [h3] at h; cases h
      | some ps =>
        rw [h3] at h
        dsimp only at h
        cases h4 : AssignFromMap override ps with
        | none => rw [h4] at h; cases h
        | some ps' =>
          rw [h4] at h
          cases h
          refine ⟨hc1.1, hc1.2, ?_, rfl⟩
          show c1._sweep < c1._nvm_sweeps.length
          by_contra hlt
          rw [List.getElem?_eq_none (by omega)] at h2
          cases h2

end ReadLemmas

/-! ## Assigning a parameter from a map -/

section AssignLemmas

variable {τ : Type}

theorem dropWhile_plain (key : List Char) (h : '.' ∉ key) :
    key.dropWhile (fun c => c != '.') = [] := by
  induction key with
  | nil => rfl
  | cons c r ih =>
    have hc : c ≠ '.' := fun e => h (by rw [e]; exact List.mem_cons_self _ _)
    have hr : '.' ∉ r := fun e => h (List.mem_cons_of_mem _ e)
    simp [List.dropWhile_cons, hc, ih hr]

/-- The conversion of a text to the type of a parameter returns a value, which
depends on the parameter only through its conversion and through its being a
vector or not. -/
theorem ConvertFromString_total (p : Parameter τ) (s : List Char) :
    ∃ v, ConvertFromString p s = some v ∧
      ∀ w, ConvertFromString { p with value := v } w = ConvertFromString p w := by
  unfold ConvertFromString
  cases hv : p.value with
  | scalar x => exact ⟨_, rfl, fun _ => rfl⟩
  | vector xs =>
    refine ⟨Value.vector ((tokens s).map fun t => p.conv (Trim t)), ?_, fun _ => rfl⟩
    show (ConvertFromStringVector p.conv s).map Value.vector = _
    rw [ConvertFromStringVector_eq]
    rfl

/-- Assigning from a map leaves the declaration of the parameter and changes at
most its value, which stays a vector or not a vector. -/
theorem SetParameterFromMap_shape (p : Parameter τ) :
    ∀ (nvm : NameValueMap) (q : Parameter τ) (b : Bool),
      SetParameterFromMap p nvm = some (q, b) →
      ∃ v, q = { p with value := v } ∧ ∀ w, ConvertFromString q w = ConvertFromString p w := by
  intro nvm
  induction nvm with
  | nil =>
    intro q b h
    cases h
    exact ⟨p.value, rfl, fun _ => rfl⟩
  | cons e rest ih =>
    intro q b h
    unfold SetParameterFromMap at h
    split at h
    · split at h
      · obtain ⟨v, hv, hk⟩ := ConvertFromString_total p e.2
        rw [hv] at h
        cases h
        exact ⟨v, rfl, hk⟩
      · exact ih q b h
    · split at h
      · split at h
        · cases h
        · unfold SetParameterFromMap2 at h
          split at h
          · cases h
          · split at h
            · cases h
              exact ⟨p.value, rfl, fun _ => rfl⟩
            · split at h
              · cases h
                rename_i xs hxs _ _ _ _
                refine ⟨_, rfl, fun w => ?_⟩
                unfold ConvertFromString
                rw [hxs]
              · cases h
      · exact ih q b h

/-- Assigning from a map whose keys hold no dot: the value found under the name of
the parameter is converted and assigned. -/
theorem SetParameterFromMap_plain (p : Parameter τ) :
    ∀ (nvm : NameValueMap), (∀ e ∈ nvm, '.' ∉ e.1) →
      SetParameterFromMap p nvm =
        match mapFind nvm p.Name with
        | none => some (p, false)
        | some text => (ConvertFromString p text).map fun v => ({ p with value := v }, true) := by
  intro nvm
  induction nvm with
  | nil => intro _; rfl
  | cons e rest ih =>
    intro h
    have he := dropWhile_plain e.1 (h e (List.mem_cons_self _ _))
    have hr := ih (fun x hx => h x (List.mem_cons_of_mem _ hx))
    unfold SetParameterFromMap mapFind
    rw [he]
    dsimp only
    by_cases hk : e.1 = p.Name
    · rw [if_pos hk, if_pos hk]
    · rw [if_neg hk, if_neg hk]
      exact hr

theorem SetParameterFromMap_cons_plain (p : Parameter τ) (e : List Char × List Char)
    (rest : NameValueMap) (hd : e.1.dropWhile (fun c => c != '.') = []) :
    SetParameterFromMap p (e :: rest) =
      if e.1 = p.Name then
        (ConvertFromString p e.2).map fun v => ({ p with value := v }, true)
      else SetParameterFromMap p rest := by
  rw [SetParameterFromMap, hd]

theorem SetParameterFromMap_cons_dotted (p : Parameter τ) (e : List Char × List Char)
    (rest : NameValueMap) (x : Char) (index : List Char)
    (hd : e.1.dropWhile (fun c => c != '.') = x :: index) :
    SetParameterFromMap p (e :: rest) =
      if e.1.takeWhile (fun c => c != '.') = p.Name then
        match stoi index with
        | none => none
        | some i =>
          SetParameterFromMap2 p [(e.1.takeWhile (fun c => c != '.'), e.2)] i
      else SetParameterFromMap p rest := by
  rw [SetParameterFromMap, hd]

/-- Setting an element a second time from the same entry changes nothing. -/
theorem SetParameterFromMap2_again (p q : Parameter τ) (b : Bool) (nvm : NameValueMap)
    (i : Int) (h : SetParameterFromMap2 p nvm i = some (q, b)) :
    SetParameterFromMap2 q nvm i = some (q, b) := by
  unfold SetParameterFromMap2 at h
  cases hxs : p.value with
  | scalar x =>
    rw [hxs] at h
    cases h
  | vector xs =>
    rw [hxs] at h
    dsimp only at h
    cases hf : mapFind nvm p.Name with
    | none =>
      rw [hf] at h
      cases h
      unfold SetParameterFromMap2
      rw [hxs]
      dsimp only
      rw [hf]
    | some text =>
      rw [hf] at h
      dsimp only at h
      by_cases hr : 0 ≤ i ∧ i < xs.length
      · rw [if_pos hr] at h
        cases h
        unfold SetParameterFromMap2
        dsimp only
        rw [hf]
        dsimp only
        rw [if_pos (by simpa only [List.length_set] using hr), List.set_set]
      · rw [if_neg hr] at h
        cases h

/-- Assigning a second time from the same map changes nothing. -/
theorem SetParameterFromMap_again (p : Parameter τ) :
    ∀ (nvm : NameValueMap) (q : Parameter τ) (b : Bool),
      SetParameterFromMap p nvm = some (q, b) → SetParameterFromMap q nvm = some (q, b) := by
  intro nvm
  induction nvm with
  | nil =>
    intro q b h
    cases h
    rfl
  | cons e rest ih =>
    intro q b h
    obtain ⟨v0, hq0, _⟩ := SetParameterFromMap_shape p (e :: rest) q b h
    have hname : q.Name = p.Name := by rw [hq0]
    cases hd : e.1.dropWhile (fun c => c != '.') with
    | nil =>
      rw [SetParameterFromMap_cons_plain p e rest hd] at h
      rw [SetParameterFromMap_cons_plain q e rest hd]
      by_cases hk : e.1 = p.Name
      · rw [if_pos hk] at h
        rw [if_pos (hk.trans hname.symm)]
        obtain ⟨v, hv, hkind⟩ := ConvertFromString_total p e.2
        rw [hv] at h
        cases h
        rw [hkind, hv]
        rfl
      · rw [if_neg hk] at h
        rw [if_neg (by rw [hname]; exact hk)]
        exact ih q b h
    | cons x index =>
      rw [SetParameterFromMap_cons_dotted p e rest x index hd] at h
      rw [SetParameterFromMap_cons_dotted q e rest x index hd]
      by_cases hk : e.1.takeWhile (fun c => c != '.') = p.Name
      · rw [if_pos hk] at h
        rw [if_pos (hk.trans hname.symm)]
        cases hi : stoi index with
        | none =>
          rw [hi] at h
          cases h
        | some i =>
          rw [hi] at h
          exact SetParameterFromMap2_again p q b _ i h
      · rw [if_neg hk] at h
        rw [if_neg (by rw [hname]; exact hk)]
        exact ih q b h

end AssignLemmas

/-! ## Finding and inserting in a map -/

section MapLemmas

theorem mapFind_cons (e : List Char × List Char) (nvm : NameValueMap) (k : List Char) :
    mapFind (e :: nvm) k = if e.1 = k then some e.2 else mapFind nvm k := rfl

theorem mapFind_place (e : List Char × List Char) :
    ∀ (nvm : NameValueMap) (k : List Char), mapFind nvm e.1 = none →
      mapFind (place e nvm) k = if e.1 = k then some e.2 else mapFind nvm k := by
  intro nvm
  induction nvm with
  | nil => intro k _; rfl
  | cons x rest ih =>
    intro k h
    rw [mapFind_cons] at h
    by_cases hx : x.1 = e.1
    · rw [if_pos hx] at h
      cases h
    · rw [if_neg hx] at h
      unfold place
      by_cases hl : less e.1 x.1 = true
      · rw [if_pos hl]
        rfl
      · rw [if_neg hl, mapFind_cons, ih k h, mapFind_cons]
        by_cases h1 : x.1 = k
        · have h2 : ¬ e.1 = k := fun h2 => hx (h1.trans h2.symm)
          rw [if_pos h1, if_neg h2, if_pos h1]
        · rw [if_neg h1, if_neg h1]

theorem mem_place (e : List Char × List Char) :
    ∀ (nvm : NameValueMap) (x : List Char × List Char), x ∈ place e nvm → x = e ∨ x ∈ nvm := by
  intro nvm
  induction nvm with
  | nil =>
    intro x hx
    exact Or.inl (List.mem_singleton.1 hx)
  | cons y rest ih =>
    intro x hx
    unfold place at hx
    split at hx
    · rcases List.mem_cons.1 hx with h | h
      · exact Or.inl h
      · exact Or.inr h
    · rcases List.mem_cons.1 hx with h | h
      · exact Or.inr (by rw [h]; exact List.mem_cons_self _ _)
      · rcases ih x h with h | h
        · exact Or.inl h
        · exact Or.inr (List.mem_cons_of_mem _ h)

/-- The call `insert` finds what the map held and, under a key the map did not
hold, the value inserted. -/
theorem mapFind_mapInsert (nvm : NameValueMap) (e : List Char × List Char) (k : List Char) :
    mapFind (mapInsert nvm e) k =
      match mapFind nvm k with
      | some t => some t
      | none => if e.1 = k then some e.2 else none := by
  unfold mapInsert
  cases h : mapFind nvm e.1 with
  | some t =>
    dsimp only
    cases hk : mapFind nvm k with
    | some t' => rfl
    | none =>
      dsimp only
      by_cases h1 : e.1 = k
      · rw [h1, hk] at h
        cases h
      · rw [if_neg h1]
  | none =>
    dsimp only
    rw [mapFind_place e nvm k h]
    by_cases h1 : e.1 = k
    · rw [if_pos h1, ← h1, h]
      dsimp only
      rw [if_pos rfl]
    · rw [if_neg h1]
      cases hk : mapFind nvm k with
      | some t' => rfl
      | none =>
        dsimp only
        rw [if_neg h1]

theorem mem_mapInsert (nvm : NameValueMap) (e x : List Char × List Char)
    (h : x ∈ mapInsert nvm e) : x = e ∨ x ∈ nvm := by
  unfold mapInsert at h
  split at h
  · exact Or.inr h
  · exact mem_place e nvm x h

/-- The call `insert` of a range finds what the map held and, under the keys the map
did not hold, what the range holds. -/
theorem mapFind_mapInsertRange :
    ∀ (src nvm : NameValueMap) (k : List Char),
      mapFind (mapInsertRange nvm src) k =
        match mapFind nvm k with
        | some t => some t
        | none => mapFind src k := by
  intro src
  induction src with
  | nil =>
    intro nvm k
    show mapFind nvm k = _
    cases mapFind nvm k <;> rfl
  | cons e rest ih =>
    intro nvm k
    show mapFind (mapInsertRange (mapInsert nvm e) rest) k = _
    rw [ih, mapFind_mapInsert, mapFind_cons]
    cases mapFind nvm k with
    | some t => rfl
    | none =>
      dsimp only
      by_cases h1 : e.1 = k
      · rw [if_pos h1, if_pos h1]
      · rw [if_neg h1, if_neg h1]

theorem mem_mapInsertRange :
    ∀ (src nvm : NameValueMap) (x : List Char × List Char),
      x ∈ mapInsertRange nvm src → x ∈ nvm ∨ x ∈ src := by
  intro src
  induction src with
  | nil =>
    intro nvm x h
    exact Or.inl h
  | cons e rest ih =>
    intro nvm x h
    rcases ih (mapInsert nvm e) x h with h1 | h1
    · rcases mem_mapInsert nvm e x h1 with h2 | h2
      · exact Or.inr (by rw [h2]; exact List.mem_cons_self _ _)
      · exact Or.inl h2
    · exact Or.inr (List.mem_cons_of_mem _ h1)

end MapLemmas

/-! ## Two maps assigned one after the other -/

section CombineLemmas

variable {τ : Type}

theorem AssignFromMap_cons_some (nvm : NameValueMap) (p : Parameter τ)
    (rest qs : List (Parameter τ)) (h : AssignFromMap nvm (p :: rest) = some qs) :
    ∃ q b qs', SetParameterFromMap p nvm = some (q, b) ∧ AssignFromMap nvm rest = some qs' ∧
      qs = q :: qs' := by
  rw [AssignFromMap] at h
  cases h1 : SetParameterFromMap p nvm with
  | none => rw [h1] at h; cases h
  | some r =>
    rw [h1] at h
    dsimp only at h
    cases h2 : AssignFromMap nvm rest with
    | none => rw [h2] at h; cases h
    | some qs' =>
      rw [h2] at h
      cases h
      exact ⟨r.1, r.2, qs', rfl, rfl, rfl⟩

theorem AssignFromMap_cons_of (nvm : NameValueMap) (p q : Parameter τ) (b : Bool)
    (rest qs' : List (Parameter τ)) (h1 : SetParameterFromMap p nvm = some (q, b))
    (h2 : AssignFromMap nvm rest = some qs') :
    AssignFromMap nvm (p :: rest) = some (q :: qs') := by
  rw [AssignFromMap, h1]
  dsimp only
  rw [h2]

/-- Two maps without dotted keys assigned one after the other, each followed by the
command line, give a parameter the value that one map which holds the entries of
the second and, under the other keys, those of the first gives it, followed by
the command line. -/
theorem combined_parameter (A B C override : NameValueMap)
    (hA : ∀ e ∈ A, '.' ∉ e.1) (hB : ∀ e ∈ B, '.' ∉ e.1) (hC : ∀ e ∈ C, '.' ∉ e.1)
    (hfind : ∀ k, mapFind C k =
      match mapFind A k with
      | some t => some t
      | none => mapFind B k)
    (p p1 p2 p3 p4 : Parameter τ) (b1 b2 b3 b4 : Bool)
    (h1 : SetParameterFromMap p B = some (p1, b1))
    (h2 : SetParameterFromMap p1 override = some (p2, b2))
    (h3 : SetParameterFromMap p2 A = some (p3, b3))
    (h4 : SetParameterFromMap p3 override = some (p4, b4)) :
    ∃ q bq b', SetParameterFromMap p C = some (q, bq) ∧
      SetParameterFromMap q override = some (p4, b') := by
  obtain ⟨v1, e1, k1⟩ := SetParameterFromMap_shape p B p1 b1 h1
  obtain ⟨v2, e2, k2⟩ := SetParameterFromMap_shape p1 override p2 b2 h2
  have hname : p2.Name = p.Name := by rw [e2, e1]
  rw [SetParameterFromMap_plain p2 A hA, hname] at h3
  cases hf : mapFind A p.Name with
  | none =>
    rw [hf] at h3
    cases h3
    have h5 := SetParameterFromMap_again p1 override p2 b2 h2
    rw [h5] at h4
    cases h4
    refine ⟨p1, b1, b2, ?_, h2⟩
    rw [SetParameterFromMap_plain p C hC, hfind, hf]
    dsimp only
    rw [← SetParameterFromMap_plain p B hB]
    exact h1
  | some text =>
    rw [hf] at h3
    dsimp only at h3
    obtain ⟨v, hv, _⟩ := ConvertFromString_total p text
    rw [k2, k1, hv] at h3
    cases h3
    refine ⟨{ p with value := v }, true, b4, ?_, ?_⟩
    · rw [SetParameterFromMap_plain p C hC, hfind, hf]
      dsimp only
      rw [hv]
      rfl
    · rw [e2, e1] at h4
      exact h4

/-- The list form of `combined_parameter`, for `AssignFromMap`. -/
theorem combined_assign (A B C override : NameValueMap)
    (hA : ∀ e ∈ A, '.' ∉ e.1) (hB : ∀ e ∈ B, '.' ∉ e.1) (hC : ∀ e ∈ C, '.' ∉ e.1)
    (hfind : ∀ k, mapFind C k =
      match mapFind A k with
      | some t => some t
      | none => mapFind B k) :
    ∀ (ps p1 p2 p3 V : List (Parameter τ)),
      AssignFromMap B ps = some p1 → AssignFromMap override p1 = some p2 →
      AssignFromMap A p2 = some p3 → AssignFromMap override p3 = some V →
      ∃ q, AssignFromMap C ps = some q ∧ AssignFromMap override q = some V := by
  intro ps
  induction ps with
  | nil =>
    intro p1 p2 p3 V h1 h2 h3 h4
    cases h1
    cases h2
    cases h3
    cases h4
    exact ⟨[], rfl, rfl⟩
  | cons p rest ih =>
    intro p1 p2 p3 V h1 h2 h3 h4
    obtain ⟨a1, b1, t1, g1, r1, rfl⟩ := AssignFromMap_cons_some B p rest p1 h1
    obtain ⟨a2, b2, t2, g2, r2, rfl⟩ := AssignFromMap_cons_some override a1 t1 p2 h2
    obtain ⟨a3, b3, t3, g3, r3, rfl⟩ := AssignFromMap_cons_some A a2 t2 p3 h3
    obtain ⟨a4, b4, t4, g4, r4, rfl⟩ := AssignFromMap_cons_some override a3 t3 V h4
    obtain ⟨q, bq, b', c1, c2⟩ :=
      combined_parameter A B C override hA hB hC hfind p a1 a2 a3 a4 b1 b2 b3 b4 g1 g2 g3 g4
    obtain ⟨qs, d1, d2⟩ := ih t1 t2 t3 t4 r1 r2 r3 r4
    exact ⟨q :: qs, AssignFromMap_cons_of C p q bq rest qs c1 d1,
      AssignFromMap_cons_of override q a4 b' qs t4 c2 d2⟩

end CombineLemmas

/-! ## The combined map and the limited list of sweeps -/

section RangeLemmas

variable {τ : Type}

theorem combine_one (sweeps : List NameValueMap) : combine sweeps 1 = sweeps.getD 0 [] := rfl

theorem mapFind_foldl_congr (g : Nat → NameValueMap) (A : NameValueMap) :
    ∀ (l : List Nat) (X Y : NameValueMap),
      (∀ k, mapFind X k =
        match mapFind A k with
        | some t => some t
        | none => mapFind Y k) →
      ∀ k, mapFind (l.foldl (fun nvm i => mapInsertRange nvm (g i)) X) k =
        match mapFind A k with
        | some t => some t
        | none => mapFind (l.foldl (fun nvm i => mapInsertRange nvm (g i)) Y) k := by
  intro l
  induction l with
  | nil => intro X Y h k; exact h k
  | cons i rest ih =>
    intro X Y h k
    rw [List.foldl_cons, List.foldl_cons]
    apply ih
    intro k'
    rw [mapFind_mapInsertRange, mapFind_mapInsertRange, h k']
    cases mapFind A k' <;> rfl

/-- The map combined for the start `n + 2` holds the entries of sweep `n + 1` and,
under the other keys, those of the map combined for the start `n + 1`. -/
theorem mapFind_combine_succ (sweeps : List NameValueMap) (n : Nat) (k : List Char) :
    mapFind (combine sweeps (n + 2)) k =
      match mapFind (sweeps.getD (n + 1) []) k with
      | some t => some t
      | none => mapFind (combine sweeps (n + 1)) k := by
  unfold combine
  rw [show n + 2 - 1 = n + 1 from rfl, show n + 1 - 1 = n from rfl, List.range_succ,
    List.reverse_append, List.reverse_singleton, List.singleton_append, List.foldl_cons]
  apply mapFind_foldl_congr
  intro k'
  rw [mapFind_mapInsertRange]

theorem mem_foldl_insert (g : Nat → NameValueMap) :
    ∀ (l : List Nat) (X : NameValueMap) (x : List Char × List Char),
      x ∈ l.foldl (fun nvm i => mapInsertRange nvm (g i)) X → x ∈ X ∨ ∃ i, x ∈ g i := by
  intro l
  induction l with
  | nil => intro X x h; exact Or.inl h
  | cons i rest ih =>
    intro X x h
    rw [List.foldl_cons] at h
    rcases ih _ x h with h1 | h1
    · rcases mem_mapInsertRange _ _ x h1 with h2 | h2
      · exact Or.inl h2
      · exact Or.inr ⟨i, h2⟩
    · exact Or.inr h1

theorem mem_getD (sweeps : List NameValueMap) (i : Nat) (x : List Char × List Char)
    (h : x ∈ sweeps.getD i []) : ∃ nvm ∈ sweeps, x ∈ nvm := by
  rw [List.getD_eq_getElem?_getD] at h
  cases hi : sweeps[i]? with
  | none =>
    rw [hi] at h
    cases h
  | some nvm =>
    rw [hi] at h
    exact ⟨nvm, List.getElem?_mem hi, h⟩

/-- The combined map has no dotted key when no sweep has one. -/
theorem plain_combine (sweeps : List NameValueMap)
    (h : ∀ nvm ∈ sweeps, ∀ e ∈ nvm, '.' ∉ e.1) (n : Nat) :
    ∀ e ∈ combine sweeps n, '.' ∉ e.1 := by
  intro e he
  unfold combine at he
  rcases mem_foldl_insert (fun i => sweeps.getD i []) _ _ e he with h1 | ⟨i, h1⟩
  · obtain ⟨nvm, h2, h3⟩ := mem_getD sweeps _ e h1
    exact h nvm h2 e h3
  · obtain ⟨nvm, h2, h3⟩ := mem_getD sweeps _ e h1
    exact h nvm h2 e h3

theorem advance_succ (c : Config τ) (n : Nat) :
    advance c (n + 1) =
      match NextSweep c with
      | none => none
      | some c' => advance c' n := rfl

theorem advance_add :
    ∀ (a b : Nat) (c : Config τ), advance c (a + b) = (advance c a).bind fun c' => advance c' b := by
  intro a
  induction a with
  | zero =>
    intro b c
    rw [Nat.zero_add]
    rfl
  | succ a ih =>
    intro b c
    rw [show a + 1 + b = (a + b) + 1 by omega, advance_succ, advance_succ]
    cases NextSweep c with
    | none => rfl
    | some c' => exact ih b c'

theorem NextSweep_of (c : Config τ) (nvm : NameValueMap) (ps ps' : List (Parameter τ))
    (h : c._sweep + 1 ≠ NSweeps c) (h1 : c._nvm_sweeps[c._sweep + 1]? = some nvm)
    (h2 : AssignFromMap nvm c.parameters = some ps)
    (h3 : AssignFromMap c._nvm_override ps = some ps') :
    NextSweep c = some { c with _sweep := c._sweep + 1, parameters := ps' } := by
  unfold NextSweep
  rw [if_neg h, h1]
  dsimp only
  rw [h2]
  dsimp only
  rw [h3]

theorem Read_none_spec (c0 u0 : Config τ) (override : NameValueMap)
    (h : Read c0 none override = some u0) :
    ∃ nvm ps, c0._nvm_sweeps[c0._sweep]? = some nvm ∧
      AssignFromMap nvm c0.parameters = some ps ∧
      AssignFromMap override ps = some u0.parameters ∧
      u0._nvm_sweeps = c0._nvm_sweeps ∧ u0._sweep = c0._sweep ∧
      u0._nvm_override = override ∧ u0._good = c0._good := by
  unfold Read at h
  dsimp only at h
  cases h2 : c0._nvm_sweeps[c0._sweep]? with
  | none => rw [h2] at h; cases h
  | some nvm =>
    rw [h2] at h
    dsimp only at h
    cases h3 : AssignFromMap nvm c0.parameters with
    | none => rw [h3] at h; cases h
    | some ps =>
      rw [h3] at h
      dsimp only at h
      cases h4 : AssignFromMap override ps with
      | none => rw [h4] at h; cases h
      | some ps' =>
        rw [h4] at h
        cases h
        exact ⟨nvm, ps, rfl, h3, h4, rfl, rfl, rfl, rfl⟩

/-- The maps of the sweeps that the limiting to a range leaves: as many as the
range has sweeps, the combined map first, and then the maps of the sweeps that
follow the first one of the range. -/
theorem limited_sweeps (sweeps : List NameValueMap) (comb : NameValueMap) (N M : Nat)
    (hN : 1 ≤ N) (hNM : N ≤ M) (hM : M ≤ sweeps.length) :
    (((sweeps.set (N - 1) comb).take M).drop (N - 1)).length = M - N + 1 ∧
    (((sweeps.set (N - 1) comb).take M).drop (N - 1))[0]? = some comb ∧
    ∀ i, 0 < i → i < M - N + 1 →
      (((sweeps.set (N - 1) comb).take M).drop (N - 1))[i]? = sweeps[i + (N - 1)]? := by
  refine ⟨?_, ?_, ?_⟩
  · rw [List.length_drop, List.length_take, List.length_set, Nat.min_eq_left hM]
    omega
  · rw [List.getElem?_drop, List.getElem?_take_of_lt (by omega), Nat.add_zero,
      List.getElem?_set_self (by omega)]
  · intro i h1 h2
    rw [List.getElem?_drop, List.getElem?_take_of_lt (by omega),
      List.getElem?_set_ne (by omega), Nat.add_comm]

theorem Read_range_of (c0 : Config τ) (N M : Nat) (override : NameValueMap)
    (ps V : List (Parameter τ)) (h0 : c0._sweep = 0)
    (hN : 1 ≤ N) (hNM : N ≤ M) (hM : M ≤ NSweeps c0)
    (h1 : AssignFromMap (combine c0._nvm_sweeps N) c0.parameters = some ps)
    (h2 : AssignFromMap override ps = some V) :
    Read c0 (some (N, M)) override =
      some { c0 with
        _nvm_sweeps :=
          ((c0._nvm_sweeps.set (N - 1) (combine c0._nvm_sweeps N)).take M).drop (N - 1),
        parameters := V, _nvm_override := override } := by
  have hl := limited_sweeps c0._nvm_sweeps (combine c0._nvm_sweeps N) N M hN hNM hM
  unfold Read limitSweeps
  dsimp only
  rw [if_neg (by omega)]
  dsimp only
  rw [h0, hl.2.1]
  dsimp only
  rw [h1]
  dsimp only
  rw [h2]

end RangeLemmas

/-! ## The limited run and the run that is not limited -/

section RunLemmas

variable {τ : Type}

/-- The values of the run that is not limited, on sweep `n`: those that the map
combined for the start `n + 1`, followed by the command line, assigns to the
values from which `Read` started. -/
theorem unrestricted_values (c0 u0 : Config τ) (override : NameValueMap)
    (h0 : c0._sweep = 0) (hplain : ∀ nvm ∈ c0._nvm_sweeps, ∀ e ∈ nvm, '.' ∉ e.1)
    (hread : Read c0 none override = some u0) :
    ∀ (n : Nat), n < NSweeps c0 → ∀ un, advance u0 n = some un →
      ∃ ps, AssignFromMap (combine c0._nvm_sweeps (n + 1)) c0.parameters = some ps ∧
        AssignFromMap override ps = some un.parameters ∧ un._sweep = n ∧
        un._nvm_sweeps = c0._nvm_sweeps ∧ un._nvm_override = override ∧
        un._good = c0._good := by
  obtain ⟨nvm, ps, r1, r2, r3, r4, r5, r6, r7⟩ := Read_none_spec c0 u0 override hread
  intro n
  induction n with
  | zero =>
    intro _ un hun
    cases hun
    refine ⟨ps, ?_, r3, r5.trans h0, r4, r6, r7⟩
    rw [combine_one, List.getD_eq_getElem?_getD, ← h0, r1]
    exact r2
  | succ n ih =>
    intro hn un hun
    have hadd := advance_add n 1 u0
    rw [hun] at hadd
    obtain ⟨um, hum, hstep⟩ := Option.bind_eq_some.1 hadd.symm
    have hnext : NextSweep um = some un := by
      have : advance um 1 = NextSweep um := by
        rw [advance_succ]
        cases NextSweep um <;> rfl
      rw [← this]
      exact hstep
    obtain ⟨qs, g1, g2, g3, g4, g5, g6⟩ := ih (by omega) um hum
    have hN : NSweeps um = NSweeps c0 := by
      unfold NSweeps
      rw [g4]
    obtain ⟨e1, e2, e3, e4, A, ps2, a1, a2, a3⟩ :=
      NextSweep_inner um un (by rw [g3, hN]; omega) hnext
    rw [g3, g4] at a1
    rw [g5] at a3
    have hA : A = c0._nvm_sweeps.getD (n + 1) [] := by
      rw [List.getD_eq_getElem?_getD, a1]
      rfl
    obtain ⟨q, c1, c2⟩ :=
      combined_assign A (combine c0._nvm_sweeps (n + 1)) (combine c0._nvm_sweeps (n + 2))
        override (fun e he => hplain A (List.getElem?_mem a1) e he)
        (plain_combine c0._nvm_sweeps hplain (n + 1))
        (plain_combine c0._nvm_sweeps hplain (n + 2))
        (by intro k; rw [mapFind_combine_succ, hA])
        c0.parameters qs um.parameters ps2 un.parameters g1 g2 a2 a3
    exact ⟨q, c1, c2, by rw [e1, g3], e3.trans g4, e4.trans g5, e2.trans g6⟩

/-- A run whose maps, from its next sweep on, are those of another run `d` sweeps
further, and which has the values and the command line of that run, follows it:
as long as it has sweeps left, each call of `NextSweep` that returns in the other
run returns in it with the same values. -/
theorem restricted_follows (d : Nat) :
    ∀ (j : Nat) (r u : Config τ), r.parameters = u.parameters →
      r._nvm_override = u._nvm_override → r._good = u._good →
      (∀ i, r._sweep < i → i < NSweeps r → r._nvm_sweeps[i]? = u._nvm_sweeps[i + d]?) →
      u._sweep = r._sweep + d → r._sweep + j < NSweeps r → NSweeps r + d ≤ NSweeps u →
      ∀ uj, advance u j = some uj →
        ∃ rj, advance r j = some rj ∧ rj.parameters = uj.parameters ∧
          rj._sweep = r._sweep + j ∧ uj._sweep = u._sweep + j ∧ rj._good = uj._good ∧
          NSweeps rj = NSweeps r := by
  intro j
  induction j with
  | zero =>
    intro r u hp _ hg _ _ _ _ uj huj
    cases huj
    exact ⟨r, rfl, hp, rfl, rfl, hg, rfl⟩
  | succ j ih =>
    intro r u hp ho hg hs hd hj hN uj huj
    rw [advance_succ] at huj
    cases hu1 : NextSweep u with
    | none => rw [hu1] at huj; cases huj
    | some u1 =>
      rw [hu1] at huj
      dsimp only at huj
      obtain ⟨e1, e2, e3, e4, nvm, ps, a1, a2, a3⟩ :=
        NextSweep_inner u u1 (by omega) hu1
      have hr1 := NextSweep_of r nvm ps u1.parameters (by omega)
        (by
          rw [hs (r._sweep + 1) (by omega) (by omega),
            show r._sweep + 1 + d = u._sweep + 1 by omega]
          exact a1)
        (by rw [hp]; exact a2) (by rw [ho]; exact a3)
      obtain ⟨rj, b1, b2, b3, b4, b5, b6⟩ :=
        ih { r with _sweep := r._sweep + 1, parameters := u1.parameters } u1 rfl
          (ho.trans e4.symm) (hg.trans e2.symm)
          (by
            intro i h1 h2
            show r._nvm_sweeps[i]? = _
            rw [e3]
            exact hs i (by
              have : r._sweep + 1 < i := h1
              omega) h2)
          (by
            show u1._sweep = r._sweep + 1 + d
            omega)
          (by
            show r._sweep + 1 + j < NSweeps r
            omega)
          (by
            have : NSweeps u1 = NSweeps u := by
              unfold NSweeps
              rw [e3]
            rw [this]
            exact hN)
          uj huj
      refine ⟨rj, ?_, b2, ?_, ?_, b5, b6⟩
      · rw [advance_succ, hr1]
        exact b1
      · rw [b3]
        show r._sweep + 1 + j = r._sweep + (j + 1)
        omega
      · rw [b4, e1]
        omega

end RunLemmas

/-! ## Maps without subscripted keys -/

section TotalLemmas

variable {τ : Type}

/-- Assigning from a map without dotted keys throws nothing. -/
theorem AssignFromMap_plain_total (nvm : NameValueMap) (h : ∀ e ∈ nvm, '.' ∉ e.1) :
    ∀ ps : List (Parameter τ), ∃ qs, AssignFromMap nvm ps = some qs := by
  intro ps
  induction ps with
  | nil => exact ⟨[], rfl⟩
  | cons p rest ih =>
    obtain ⟨qs, hqs⟩ := ih
    have hp : ∃ q b, SetParameterFromMap p nvm = some (q, b) := by
      rw [SetParameterFromMap_plain p nvm h]
      cases mapFind nvm p.Name with
      | none => exact ⟨p, false, rfl⟩
      | some text =>
        obtain ⟨v, hv, _⟩ := ConvertFromString_total p text
        exact ⟨{ p with value := v }, true, by dsimp only; rw [hv]; rfl⟩
    obtain ⟨q, b, hq⟩ := hp
    exact ⟨q :: qs, AssignFromMap_cons_of nvm p q b rest qs hq hqs⟩

/-- With no dotted key in the maps of the sweeps and of the command line, every call
of `NextSweep` from a sweep below `NSweeps()` returns. -/
theorem advance_plain_total :
    ∀ (j : Nat) (c : Config τ), c._sweep < NSweeps c →
      (∀ nvm ∈ c._nvm_sweeps, ∀ e ∈ nvm, '.' ∉ e.1) → (∀ e ∈ c._nvm_override, '.' ∉ e.1) →
      (advance c j).isSome = true := by
  intro j
  induction j with
  | zero => intro c _ _ _; rfl
  | succ j ih =>
    intro c hlt hs ho
    rw [advance_succ]
    by_cases h : c._sweep + 1 = NSweeps c
    · rw [NextSweep_last c h]
      exact ih _ (by show NSweeps c - 1 < NSweeps c; omega) hs ho
    · have hi : c._sweep + 1 < c._nvm_sweeps.length := by
        unfold NSweeps at h hlt
        omega
      have h1 := List.getElem?_eq_getElem hi
      obtain ⟨ps, h2⟩ := AssignFromMap_plain_total _
        (hs _ (List.getElem?_mem h1)) c.parameters
      obtain ⟨ps', h3⟩ := AssignFromMap_plain_total c._nvm_override ho ps
      rw [NextSweep_of c _ ps ps' h h1 h2 h3]
      exact ih _ (by show c._sweep + 1 < NSweeps c; unfold NSweeps; exact hi) hs ho

end TotalLemmas

/-! ## Claims -/

section Claims

variable {α : Type} [LinearOrderedField α]

/-- C1. Normalisation invariant (`Normalised`: the positive entries of every host
row sum to 0 or 1), for a store of `n_hosts * n_strains` entries.  (a) With
positive per-step growth rates the growth pass returns a normalised store, for
any prior store.  (b) On a normalised store each of the five events, for every
target host, every contact host and every outcome of the random source, returns
a normalised store: first case by case on the row of host `h`, then for the
event loop body `execute` on any sampled event.  For Transfer the parameter
`theta` has passed its size check and the `int` product sizing the store is below
`2 ^ 31`; for `execute` the strain index fits the tag (`n_strains <= 65536`). -/
theorem normalisation_invariant (P : Parameters α) (ww : Nat → α) (X : List α)
    (hsize : X.length = P.n_hosts * P.n_strains) :
    ((∀ s, s < P.n_strains → 0 < ww s) →
      ∃ X' l, growthPass P ww X = some (X', l) ∧ Normalised P X') ∧
    (Normalised P X → ∀ (h : Nat) (d : Draws α), h < P.n_hosts →
      (∀ j, j < P.n_strains →
        ∃ X' c, caseTransmission P X (P.n_strains * h) j d = some (X', c) ∧ Normalised P X') ∧
      (∀ t, t * 2 + 1 < P.n_strains →
        ∃ X' c, caseClearance P X (P.n_strains * h) t d = some (X', c) ∧ Normalised P X') ∧
      (∃ X' c, caseTreatment P X (P.n_strains * h) = some (X', c) ∧ Normalised P X') ∧
      (∃ X' c, caseBirth P X (P.n_strains * h) = some (X', c) ∧ Normalised P X') ∧
      (P.theta.length = P.n_strains → P.n_hosts * P.n_strains < 2 ^ 31 →
        d.contact < P.n_hosts →
        ∃ X' c, caseTransfer P X (P.n_strains * h) d = some (X', c) ∧ Normalised P X')) ∧
    (Normalised P X → ∀ (e : Nat) (d : Draws α) (nTransmission nClearance : Nat → Nat)
        (nTreatment nBirth nTransfer : Nat),
      P.n_strains ≤ 65536 → P.theta.length = P.n_strains → P.n_hosts * P.n_strains < 2 ^ 31 →
      e ∈ sampleEvents P nTransmission nClearance nTreatment nBirth nTransfer →
      d.host < P.n_hosts → d.contact < P.n_hosts →
      ∃ X' calls, execute P X e d = some (X', calls) ∧ Normalised P X') := by
  refine ⟨?_, ?_, ?_⟩
  · intro hww
    obtain ⟨X', l, h1, _, h3, _⟩ := growthPass_spec P ww X hsize (fun s hs => le_of_lt (hww s hs))
    exact ⟨X', l, h1, h3⟩
  · intro hN h d hh
    have hrow := row_in_store P.n_strains P.n_hosts h X.length hsize hh
    refine ⟨?_, ?_, ?_, ?_, ?_⟩
    · intro j hj
      obtain ⟨X', c, h1, _, h3, _⟩ := caseTransmission_keeps P X h j d hrow hj
      exact ⟨X', c, h1, h3 hN⟩
    · intro t ht
      obtain ⟨X', c, h1, _, h3, _⟩ := caseClearance_keeps P X h t d hrow ht
      exact ⟨X', c, h1, h3 hN⟩
    · obtain ⟨X', c, h1, _, h3, _⟩ := caseTreatment_keeps P X h hrow
      exact ⟨X', c, h1, h3 hN⟩
    · obtain ⟨X', c, h1, _, h3, _⟩ := caseBirth_keeps P X h hrow
      exact ⟨X', c, h1, h3 hN⟩
    · intro hth hfit hc
      obtain ⟨X', c, h1, _, h3, _⟩ := caseTransfer_keeps P X h d hth hsize
        (lt_trans hfit (by decide)) hh hc
      exact ⟨X', c, h1, h3 hN⟩
  · intro hN e d nTransmission nClearance nTreatment nBirth nTransfer htag hth hfit he hhost hc
    obtain ⟨X', calls, h1, _, h3, _⟩ := execute_keeps P X e d nTransmission nClearance
      nTreatment nBirth nTransfer htag hth hsize hfit he hhost hc
    exact ⟨X', calls, h1, h3 hN⟩

/-- Witness for C1: the growth pass on the store `[2, 6]` of a single host, which
is not normalised, with growth rates 1. -/
theorem normalisation_invariant_witness :
    (([2, 6] : List ℚ).length
      = ({ defaults with n_hosts := 1 } : Parameters ℚ).n_hosts
        * ({ defaults with n_hosts := 1 } : Parameters ℚ).n_strains) ∧
    ∃ X' l, growthPass { defaults with n_hosts := 1 } (fun _ => (1 : ℚ)) [2, 6] = some (X', l) ∧
      Normalised { defaults with n_hosts := 1 } X' :=
  ⟨rfl, (normalisation_invariant { defaults with n_hosts := 1 } (fun _ => (1 : ℚ)) [2, 6] rfl).1
    (fun _ _ => one_pos)⟩

/-- Counterexample for C2, with `sigma = 1` and every negative entry of the prior
store in `[-1, 0)`.  Transfer with `iota = 2` copies twice the immune memory `-1`
of the contact host into the target row, leaving the entry `-2`; Transmission
with `iota = -2` leaves the entry `-2`; the growth pass with the growth rate `-5`
(as for `w = -5`, `t_step = 1`) turns the carried entry `1` into `-5`. -/
theorem memory_bound_counterexample :
    (Bounded { defaults with n_hosts := 2, iota := 2 } ([0, 0, -1, 0] : List ℚ) ∧
      caseTransfer { defaults with n_hosts := 2, iota := 2 } ([0, 0, -1, 0] : List ℚ) 0
          (allSucceed 0 1)
        = some ([-2, 0, -1, 0], [Call.Discrete 2, Call.Bernoulli 1, Call.Bernoulli 1]) ∧
      ¬ Bounded { defaults with n_hosts := 2, iota := 2 } ([-2, 0, -1, 0] : List ℚ)) ∧
    (Bounded { defaults with n_hosts := 1, iota := -2 } ([0, 0] : List ℚ) ∧
      caseTransmission { defaults with n_hosts := 1, iota := -2 } ([0, 0] : List ℚ) 0 0
          (allSucceed 0 0)
        = some ([-2, 0], []) ∧
      ¬ Bounded { defaults with n_hosts := 1, iota := -2 } ([-2, 0] : List ℚ)) ∧
    (Bounded { defaults with n_hosts := 1 } ([1, 0] : List ℚ) ∧
      (growthPass { defaults with n_hosts := 1 } (fun _ => (-5 : ℚ)) [1, 0]).map (fun r => r.1)
        = some [-5, 0] ∧
      ¬ Bounded { defaults with n_hosts := 1 } ([-5, 0] : List ℚ)) := by
  refine ⟨⟨?_, ?_, ?_⟩, ⟨?_, ?_, ?_⟩, ⟨?_, ?_, ?_⟩⟩
  · intro i hi
    match i with
    | 0 => norm_num [entry] at hi
    | 1 => norm_num [entry] at hi
    | 2 => norm_num [entry, defaults]
    | 3 => norm_num [entry] at hi
    | k + 4 => norm_num [entry] at hi
  · norm_num [caseTransfer, noBlocking, defaults, loop, transferStep, noImmunity, rd, wr,
      Bernoulli, Normalize, accumulate, divideStep, posPart, List.range']
  · intro hB
    have := hB 0 (by norm_num [entry])
    norm_num [entry, defaults] at this
  · intro i hi
    match i with
    | 0 => norm_num [entry] at hi
    | 1 => norm_num [entry] at hi
    | k + 2 => norm_num [entry] at hi
  · norm_num [caseTransmission, noBlocking, noImmunity, colonise, defaults, loop, rd, wr,
      Normalize, accumulate, divideStep, posPart, List.range']
  · intro hB
    have := hB 0 (by norm_num [entry])
    norm_num [entry, defaults] at this
  · intro i hi
    match i with
    | 0 => norm_num [entry] at hi
    | 1 => norm_num [entry] at hi
    | k + 2 => norm_num [entry] at hi
  · norm_num [growthPass, growHost, growStep, shareStep, upTo, defaults, loop, rd, wr,
      List.range']
  · intro hB
    have := hB 0 (by norm_num [entry])
    norm_num [entry, defaults] at this

/-- C2 as amended (`0 <= iota <= 1`, growth rates not negative).  On a store of
`n_hosts * n_strains` entries whose negative entries all lie in `[-sigma, 0)`
(`Bounded`), the growth pass and each of the five events, for every target host,
every contact host and every outcome of the random source, return a store whose
negative entries all lie in `[-sigma, 0)`: case by case on the row of host `h`,
and for the event loop body `execute` on any sampled event. -/
theorem memory_bound_invariant (P : Parameters α) (ww : Nat → α) (X : List α)
    (hsize : X.length = P.n_hosts * P.n_strains) (hiota0 : 0 ≤ P.iota) (hiota1 : P.iota ≤ 1)
    (hB : Bounded P X) :
    ((∀ s, s < P.n_strains → 0 ≤ ww s) →
      ∃ X' l, growthPass P ww X = some (X', l) ∧ Bounded P X') ∧
    (∀ (h : Nat) (d : Draws α), h < P.n_hosts →
      (∀ j, j < P.n_strains →
        ∃ X' c, caseTransmission P X (P.n_strains * h) j d = some (X', c) ∧ Bounded P X') ∧
      (∀ t, t * 2 + 1 < P.n_strains →
        ∃ X' c, caseClearance P X (P.n_strains * h) t d = some (X', c) ∧ Bounded P X') ∧
      (∃ X' c, caseTreatment P X (P.n_strains * h) = some (X', c) ∧ Bounded P X') ∧
      (∃ X' c, caseBirth P X (P.n_strains * h) = some (X', c) ∧ Bounded P X') ∧
      (P.theta.length = P.n_strains → P.n_hosts * P.n_strains < 2 ^ 31 →
        d.contact < P.n_hosts →
        ∃ X' c, caseTransfer P X (P.n_strains * h) d = some (X', c) ∧ Bounded P X')) ∧
    (∀ (e : Nat) (d : Draws α) (nTransmission nClearance : Nat → Nat)
        (nTreatment nBirth nTransfer : Nat),
      P.n_strains ≤ 65536 → P.theta.length = P.n_strains → P.n_hosts * P.n_strains < 2 ^ 31 →
      e ∈ sampleEvents P nTransmission nClearance nTreatment nBirth nTransfer →
      d.host < P.n_hosts → d.contact < P.n_hosts →
      ∃ X' calls, execute P X e d = some (X', calls) ∧ Bounded P X') := by
  refine ⟨?_, ?_, ?_⟩
  · intro hww
    obtain ⟨X', l, h1, _, _, h4⟩ := growthPass_spec P ww X hsize hww
    refine ⟨X', l, h1, ?_⟩
    intro i hi
    have e := h4 i hi
    rw [e] at hi ⊢
    exact hB i hi
  · intro h d hh
    have hrow := row_in_store P.n_strains P.n_hosts h X.length hsize hh
    refine ⟨?_, ?_, ?_, ?_, ?_⟩
    · intro j hj
      obtain ⟨X', c, h1, _, _, h4⟩ := caseTransmission_keeps P X h j d hrow hj
      exact ⟨X', c, h1, h4 hiota0 hB⟩
    · intro t ht
      obtain ⟨X', c, h1, _, _, h4⟩ := caseClearance_keeps P X h t d hrow ht
      exact ⟨X', c, h1, h4 hB⟩
    · obtain ⟨X', c, h1, _, _, h4⟩ := caseTreatment_keeps P X h hrow
      exact ⟨X', c, h1, h4 hB⟩
    · obtain ⟨X', c, h1, _, _, h4⟩ := caseBirth_keeps P X h hrow
      exact ⟨X', c, h1, h4 hB⟩
    · intro hth hfit hc
      obtain ⟨X', c, h1, _, _, h4⟩ := caseTransfer_keeps P X h d hth hsize
        (lt_trans hfit (by decide)) hh hc
      exact ⟨X', c, h1, h4 hiota0 hiota1 hB⟩
  · intro e d nTransmission nClearance nTreatment nBirth nTransfer htag hth hfit he hhost hc
    obtain ⟨X', calls, h1, _, _, h4⟩ := execute_keeps P X e d nTransmission nClearance
      nTreatment nBirth nTransfer htag hth hsize hfit he hhost hc
    exact ⟨X', calls, h1, h4 hiota0 hiota1 hB⟩

/-- Witness for C2 as amended: the default parameters (`iota = 1/1000`) with two
hosts; host 0 draws host 1, which holds immune memory, as the contact of a
Transfer. -/
theorem memory_bound_invariant_witness :
    (([0, 0, -1, 0] : List ℚ).length
      = ({ defaults with n_hosts := 2 } : Parameters ℚ).n_hosts
        * ({ defaults with n_hosts := 2 } : Parameters ℚ).n_strains) ∧
    ((0 : ℚ) ≤ ({ defaults with n_hosts := 2 } : Parameters ℚ).iota) ∧
    (({ defaults with n_hosts := 2 } : Parameters ℚ).iota ≤ 1) ∧
    Bounded { defaults with n_hosts := 2 } ([0, 0, -1, 0] : List ℚ) ∧
    ∃ X' c, caseTransfer { defaults with n_hosts := 2 } ([0, 0, -1, 0] : List ℚ)
        (({ defaults with n_hosts := 2 } : Parameters ℚ).n_strains * 0)
        (allSucceed 0 1) = some (X', c) ∧
      Bounded { defaults with n_hosts := 2 } X' := by
  have h0 : (0 : ℚ) ≤ ({ defaults with n_hosts := 2 } : Parameters ℚ).iota := by
    norm_num [defaults]
  have h1 : ({ defaults with n_hosts := 2 } : Parameters ℚ).iota ≤ 1 := by
    norm_num [defaults]
  have hB : Bounded { defaults with n_hosts := 2 } ([0, 0, -1, 0] : List ℚ) := by
    intro i hi
    match i with
    | 0 => norm_num [entry] at hi
    | 1 => norm_num [entry] at hi
    | 2 => norm_num [entry, defaults]
    | 3 => norm_num [entry] at hi
    | k + 4 => norm_num [entry] at hi
  exact ⟨rfl, h0, h1, hB,
    ((memory_bound_invariant { defaults with n_hosts := 2 } (fun _ => (1 : ℚ)) [0, 0, -1, 0]
      rfl h0 h1 hB).2.1 0 (allSucceed 0 1) (by decide)).2.2.2.2
      rfl (by decide) (by decide)⟩

/-- C3, the failing input.  A single host with two strains, all other parameters
at their defaults, passes the size checks.  When `R.Poisson(P.n_hosts * P.init)`
returns 2, the second iteration of the inoculation loop writes `X[2]`, outside
the store of two entries: the loop does not stay within `[0, n_hosts * n_strains)`. -/
theorem inoculate_out_of_range :
    checkParameters ({ defaults with n_hosts := 1 } : Parameters ℚ) = Except.ok () ∧
    0 < ({ defaults with n_hosts := 1 } : Parameters ℚ).n_hosts ∧
    2 ≤ ({ defaults with n_hosts := 1 } : Parameters ℚ).n_strains ∧
    (allocate ({ defaults with n_hosts := 1 } : Parameters ℚ)).length = 2 ∧
    (({ defaults with n_hosts := 1 } : Parameters ℚ).n_strains * 1 + 0) % 2 ^ 32 = 2 ∧
    wr (allocate ({ defaults with n_hosts := 1 } : Parameters ℚ))
      ((({ defaults with n_hosts := 1 } : Parameters ℚ).n_strains * 0 + 0) % 2 ^ 32) 1
        = some [1, 0] ∧
    wr ([1, 0] : List ℚ)
      ((({ defaults with n_hosts := 1 } : Parameters ℚ).n_strains * 1 + 0) % 2 ^ 32) 1 = none ∧
    inoculate { defaults with n_hosts := 1 } 2 (fun _ => 0)
      (allocate ({ defaults with n_hosts := 1 } : Parameters ℚ)) = none := by
  refine ⟨rfl, by decide, by decide, rfl, by decide, ?_, ?_, ?_⟩
  · simp [wr, allocate, defaults, List.replicate]
  · simp [wr, defaults]
  · simp [inoculate, loop, wr, allocate, defaults, List.range', List.replicate]

/-- C4. Index safety of event execution.  For parameters that passed the size
checks, with `n_strains <= 65536`, a store of `n_hosts * n_strains` entries, an
event of a shuffled sequence of sampled events and host draws below `n_hosts`:
every entry of the target row and of the contact row has its index below
`n_hosts * n_strains`; the strain `j` of a Transmission is below `n_strains` and
so is the entry `2t + 1` of a Clearance; and the execution of the event returns,
that is, no read or write of Transmission, Clearance, Treatment, Birth or
Transfer falls outside the store (an access outside it makes `execute` return
`none`), the store keeping its size. -/
theorem execute_in_bounds (P : Parameters α) (X : List α) (events : List Nat) (e : Nat)
    (d : Draws α) (nTransmission nClearance : Nat → Nat) (nTreatment nBirth nTransfer : Nat)
    (htag : P.n_strains ≤ 65536) (hcheck : checkParameters P = Except.ok ())
    (hsize : X.length = P.n_hosts * P.n_strains)
    (hev : List.Perm events (sampleEvents P nTransmission nClearance nTreatment nBirth nTransfer))
    (he : e ∈ events) (hhost : d.host < P.n_hosts) (hcontact : d.contact < P.n_hosts) :
    (∀ s, s < P.n_strains →
      (P.n_strains * d.host) % 2 ^ 32 + s < P.n_hosts * P.n_strains ∧
      (P.n_strains * d.contact) % 2 ^ 32 + s < P.n_hosts * P.n_strains) ∧
    (e &&& 0xF0000 = Transmission → e &&& 0xFFFF < P.n_strains) ∧
    (e &&& 0xF0000 = Clearance → (e &&& 0xFFFF) * 2 + 1 < P.n_strains) ∧
    ∃ X' calls, execute P X e d = some (X', calls) ∧ X'.length = X.length := by
  have hx := host_row P.n_strains P.n_hosts d.host X.length hsize hhost
  have hxx := host_row P.n_strains P.n_hosts d.contact X.length hsize hcontact
  obtain ⟨hTm, hCl, hTr, hBi⟩ := cases_safe P X ((P.n_strains * d.host) % 2 ^ 32) d hx
  refine ⟨fun s hs => ⟨by omega, by omega⟩, ?_⟩
  rcases mem_sampleEvents P nTransmission nClearance nTreatment nBirth nTransfer e
    (hev.mem_iff.mp he) with ⟨s, hs, rfl⟩ | ⟨t, ht, rfl⟩ | rfl | rfl | rfl
  · obtain ⟨h1, h2⟩ := decode_Transmission s (by omega)
    refine ⟨fun _ => by rw [h1]; exact hs, fun hk => ?_, ?_⟩
    · rw [h2] at hk
      exact absurd hk (by decide)
    · rw [execute_Transmission P X s d (by omega)]
      exact map_some_length X _ _ (hTm s hs)
  · obtain ⟨h1, h2⟩ := decode_Clearance t (by omega)
    refine ⟨fun hk => ?_, fun _ => by rw [h1]; omega, ?_⟩
    · rw [h2] at hk
      exact absurd hk (by decide)
    · rw [execute_Clearance P X t d (by omega)]
      exact map_some_length X _ _ (hCl t (by omega))
  · refine ⟨fun hk => absurd hk (by decide), fun hk => absurd hk (by decide), ?_⟩
    rw [execute_Treatment P X d]
    exact map_some_length X _ _ hTr
  · refine ⟨fun hk => absurd hk (by decide), fun hk => absurd hk (by decide), ?_⟩
    rw [execute_Birth P X d]
    exact map_some_length X _ _ hBi
  · refine ⟨fun hk => absurd hk (by decide), fun hk => absurd hk (by decide), ?_⟩
    rw [execute_Transfer P X d]
    exact map_some_length X _ _
      (caseTransfer_safe P X _ d (checkParameters_theta P hcheck) hx hxx)

/-- Witness for C4: two hosts with the default parameters; the event sequence
holds one event of each kind and the clearance event is executed on host 1. -/
theorem execute_in_bounds_witness :
    (({ defaults with n_hosts := 2 } : Parameters ℚ).n_strains ≤ 65536) ∧
    (checkParameters ({ defaults with n_hosts := 2 } : Parameters ℚ) = Except.ok ()) ∧
    (([1, 0, 0, 1] : List ℚ).length = 2 * 2) ∧
    (([Transfer, Birth, Treatment, Clearance ||| 0, Transmission ||| 1, Transmission ||| 0]
      : List Nat).Perm
        (sampleEvents ({ defaults with n_hosts := 2 } : Parameters ℚ)
          (fun _ => 1) (fun _ => 1) 1 1 1)) ∧
    ((Clearance ||| 0) ∈ ([Transfer, Birth, Treatment, Clearance ||| 0, Transmission ||| 1,
      Transmission ||| 0] : List Nat)) ∧
    ((1 : Nat) < 2) ∧ ((0 : Nat) < 2) ∧
    ∃ X' calls, execute { defaults with n_hosts := 2 } ([1, 0, 0, 1] : List ℚ) (Clearance ||| 0)
        (allSucceed 1 0) = some (X', calls) ∧
      X'.length = ([1, 0, 0, 1] : List ℚ).length := by
  have hperm : ([Transfer, Birth, Treatment, Clearance ||| 0, Transmission ||| 1,
      Transmission ||| 0] : List Nat).Perm
        (sampleEvents ({ defaults with n_hosts := 2 } : Parameters ℚ)
          (fun _ => 1) (fun _ => 1) 1 1 1) := by
    have : sampleEvents ({ defaults with n_hosts := 2 } : Parameters ℚ)
        (fun _ => 1) (fun _ => 1) 1 1 1
        = [Transmission ||| 0, Transmission ||| 1, Clearance ||| 0, Treatment, Birth, Transfer] :=
      by decide
    rw [this]
    decide
  have hmem : (Clearance ||| 0) ∈ ([Transfer, Birth, Treatment, Clearance ||| 0,
      Transmission ||| 1, Transmission ||| 0] : List Nat) := by decide
  exact ⟨by decide, rfl, rfl, hperm, hmem, by decide, by decide,
    (execute_in_bounds { defaults with n_hosts := 2 } ([1, 0, 0, 1] : List ℚ) _ (Clearance ||| 0)
      (allSucceed 1 0) (fun _ => 1) (fun _ => 1) 1 1 1
      (by decide) rfl rfl hperm hmem (by decide) (by decide)).2.2.2⟩

/-- C5. Normalize postcondition: for a row of `n_strains` entries lying inside the
store, `Normalize` returns; it changes nothing outside the row and no non-positive
entry of the row; each positive entry becomes its old value divided by the old sum
of the positive entries; afterwards the positive entries of the row sum to 1 if
the row had a positive entry and to 0 otherwise. -/
theorem Normalize_postcondition (P : Parameters α) (X : List α) (x : Nat)
    (hx : x + P.n_strains ≤ X.length) :
    ∃ X', Normalize P X x = some X' ∧ X'.length = X.length ∧
      (∀ i, i < x ∨ x + P.n_strains ≤ i → entry X' i = entry X i) ∧
      (∀ s, s < P.n_strains → ¬ 0 < entry X (x + s) → entry X' (x + s) = entry X (x + s)) ∧
      (∀ s, s < P.n_strains → 0 < entry X (x + s) →
        entry X' (x + s) = entry X (x + s) / posSum X x P.n_strains) ∧
      ((∃ s, s < P.n_strains ∧ 0 < entry X (x + s)) → posSum X' x P.n_strains = 1) ∧
      ((¬ ∃ s, s < P.n_strains ∧ 0 < entry X (x + s)) → posSum X' x P.n_strains = 0) := by
  refine ⟨normalized X x P.n_strains, Normalize_eq P X x hx, length_normalized X x _,
    fun i hi => entry_normalized_out X x _ i hi, ?_, ?_, ?_, ?_⟩
  · intro s hs hneg
    rw [entry_normalized_in X x _ s hs hx, if_neg hneg]
  · intro s hs hpos
    rw [entry_normalized_in X x _ s hs hx, if_pos hpos]
  · intro h
    rw [posSum_normalized X x _ hx, if_pos ((posSum_pos_iff X x _).mpr h)]
  · intro h
    rw [posSum_normalized X x _ hx, if_neg (fun hp => h ((posSum_pos_iff X x _).mp hp))]

/-- Witness for C5: the row `[3, -1, 1]` at offset 1 of a store of five entries. -/
theorem Normalize_postcondition_witness :
    (1 + 3 ≤ ([7, 3, -1, 1, 5] : List ℚ).length) ∧
    ∃ X', Normalize { defaults with n_strains := 3 } ([7, 3, -1, 1, 5] : List ℚ) 1 = some X' ∧
      X'.length = 5 ∧ entry X' 1 = 3 / 4 ∧ entry X' 2 = -1 ∧ entry X' 3 = 1 / 4 ∧
      posSum X' 1 3 = 1 := by
  refine ⟨by decide, ?_⟩
  obtain ⟨X', h1, h2, _, h4, h5, h6, _⟩ :=
    Normalize_postcondition { defaults with n_strains := 3 } ([7, 3, -1, 1, 5] : List ℚ) 1
      (by decide)
  refine ⟨X', h1, h2, ?_, ?_, ?_, ?_⟩
  · rw [h5 0 (by decide) (by norm_num [entry])]
    norm_num [posSum, entry, posPart, Finset.sum_range_succ]
  · rw [h4 1 (by decide) (by norm_num [entry])]
    norm_num [entry]
  · rw [h5 2 (by decide) (by norm_num [entry])]
    norm_num [posSum, entry, posPart, Finset.sum_range_succ]
  · exact h6 ⟨0, by decide, by norm_num [entry]⟩

/-- C6. Transmission(j) rule: for a row lying inside the store and a strain `j` of
it, the case returns; the row is rewritten exactly when colonisation is not
blocked and immunity permits strain `j`, and the store is then `Normalize` applied
to the store with `x[j]` replaced by `max(x[j], 0) + iota`; otherwise the store
is left exactly as it was. -/
theorem Transmission_rule (P : Parameters α) (X : List α) (x j : Nat) (d : Draws α)
    (hx : x + P.n_strains ≤ X.length) (hj : j < P.n_strains) :
    ∃ X' calls, caseTransmission P X x j d = some (X', calls) ∧
      (Unblocked P X x d ∧ Permitted P X x j d →
        Normalize P (X.set (x + j) (max (entry X (x + j)) 0 + P.iota)) x = some X') ∧
      (¬ (Unblocked P X x d ∧ Permitted P X x j d) → X' = X) ∧
      (X' ≠ X → Unblocked P X x d ∧ Permitted P X x j d) := by
  obtain ⟨c, hc⟩ := caseTransmission_eq P X x j d hx hj
  refine ⟨_, c, hc, ?_, ?_, ?_⟩
  · intro hcond
    rw [if_pos hcond, Normalize_eq P _ x (by rw [List.length_set]; exact hx)]
  · intro hcond
    rw [if_neg hcond]
  · intro hne
    by_contra hcond
    rw [if_neg hcond] at hne
    exact hne rfl

/-- Witness for C6: Transmission(1) on the second row of a store of two hosts,
with blocking efficiency `k = 1/2` and a variate that lets the trial succeed. -/
theorem Transmission_rule_witness :
    (2 + 2 ≤ ([1, 0, 1, 0] : List ℚ).length) ∧ (1 < 2) ∧
    ∃ X' calls,
      caseTransmission { defaults with k := 1 / 2 } ([1, 0, 1, 0] : List ℚ) 2 1
          { allSucceed 1 0 with block := 1 / 4 } = some (X', calls) ∧
      Normalize { defaults with k := 1 / 2 } ([1, 0, 1, 1 / 1000] : List ℚ) 2 = some X' := by
  refine ⟨by decide, by decide, ?_⟩
  obtain ⟨X', calls, h1, h2, _, _⟩ :=
    Transmission_rule { defaults with k := 1 / 2 } ([1, 0, 1, 0] : List ℚ) 2 1
      { allSucceed 1 0 with block := 1 / 4 } (by decide) (by decide)
  refine ⟨X', calls, h1, ?_⟩
  have h3 := h2 ⟨Or.inr (Or.inr (by norm_num [Bernoulli, defaults])), Or.inl rfl⟩
  norm_num [entry, defaults] at h3
  exact h3

/-- Counterexample for C7: a single host with two strains, all other parameters
at their defaults (`k = 1`, immunity disabled, `iota = 1/1000`).  One
Transmission(0) event on the freshly zeroed store leaves the row `[1, 0]`, which
is not `[iota, 0]`. -/
theorem Transmission_scenario_counterexample :
    execute { defaults with n_hosts := 1 } (allocate { defaults with n_hosts := 1 })
        (Transmission ||| 0) (allSucceed 0 0)
      = some ([1, 0], [Call.Discrete 1]) ∧
    ([1, 0] : List ℚ) ≠ [(defaults).iota, 0] := by
  constructor
  · norm_num [execute, defaults, allocate, Transmission, caseTransmission, noBlocking,
      noImmunity, colonise, Normalize, accumulate, loop, divideStep, rd, wr, posPart,
      List.range', List.replicate]
  · norm_num [defaults]

/-- C7 as amended.  On a freshly zeroed single host with two strains, with `k = 1`,
immunity disabled and `iota > 0`, one Transmission(0) event leaves the row
`[1, 0]`: inside the event `x[0]` is set to `iota`, giving `[iota, 0]`, and the
row is normalised at once to `[1, 0]`; a further `Normalize` leaves `[1, 0]`. -/
theorem Transmission_scenario (P : Parameters α) (d : Draws α)
    (hs : P.n_strains = 2) (hh : P.n_hosts = 1) (hk : P.k = 1) (himm : P.immunity = false)
    (hiota : 0 < P.iota) (hd : d.host < P.n_hosts) :
    execute P (allocate P) (Transmission ||| 0) d = some ([1, 0], [Call.Discrete 1]) ∧
      wr (allocate P) 0 (max (entry (allocate P) 0) 0 + P.iota) = some [P.iota, 0] ∧
      Normalize P [P.iota, 0] 0 = some [1, 0] ∧
      Normalize P [1, 0] 0 = some [1, 0] := by
  have hd0 : d.host = 0 := by omega
  have hne : P.iota ≠ 0 := ne_of_gt hiota
  have h1 : (0 : α) < 1 := one_pos
  refine ⟨?_, ?_, ?_, ?_⟩
  · simp [execute, allocate, Transmission, caseTransmission, noBlocking, noImmunity, colonise,
      Normalize, accumulate, loop, divideStep, rd, wr, posPart, List.range', hs, hh, hk, himm,
      hd0, hiota, hne, List.replicate]
  · simp [allocate, wr, entry, hs, hh, List.replicate]
  · simp [Normalize, accumulate, loop, divideStep, rd, wr, posPart, List.range', hs, hiota, hne]
  · simp [Normalize, accumulate, loop, divideStep, rd, wr, posPart, List.range', hs]

/-- Witness for C7 as amended: the default parameters with a single host. -/
theorem Transmission_scenario_witness :
    (({ defaults with n_hosts := 1 } : Parameters ℚ).n_strains = 2) ∧
    (({ defaults with n_hosts := 1 } : Parameters ℚ).n_hosts = 1) ∧
    (({ defaults with n_hosts := 1 } : Parameters ℚ).k = 1) ∧
    (({ defaults with n_hosts := 1 } : Parameters ℚ).immunity = false) ∧
    (0 < ({ defaults with n_hosts := 1 } : Parameters ℚ).iota) ∧
    ((0 : Nat) < ({ defaults with n_hosts := 1 } : Parameters ℚ).n_hosts) ∧
    execute { defaults with n_hosts := 1 } (allocate { defaults with n_hosts := 1 })
        (Transmission ||| 0) (allSucceed 0 0)
      = some ([1, 0], [Call.Discrete 1]) :=
  ⟨rfl, rfl, rfl, rfl, by norm_num [defaults], by decide,
    (Transmission_scenario { defaults with n_hosts := 1 } (allSucceed 0 0)
      rfl rfl rfl rfl (by norm_num [defaults]) (by decide)).1⟩

/-- C8. With `k = 1`, immunity disabled and `iota > 0`, Transmission(j) on a row
whose entries are all `<= 0` colonises whatever the random source holds: no
Bernoulli trial is made, `x[j]` becomes 1 (the inoculum `iota` normalised) and
every other entry of the store is unchanged. -/
theorem Transmission_on_empty_host (P : Parameters α) (X : List α) (x j : Nat) (d : Draws α)
    (hk : P.k = 1) (himm : P.immunity = false) (hiota : 0 < P.iota)
    (hx : x + P.n_strains ≤ X.length) (hj : j < P.n_strains)
    (hempty : ∀ s, s < P.n_strains → entry X (x + s) ≤ 0) :
    caseTransmission P X x j d = some (X.set (x + j) 1, []) ∧
      wr X (x + j) (max (entry X (x + j)) 0 + P.iota) = some (X.set (x + j) P.iota) ∧
      Normalize P (X.set (x + j) P.iota) x = some (X.set (x + j) 1) := by
  have hm : max (entry X (x + j)) 0 + P.iota = P.iota := by
    rw [max_eq_right (hempty j hj), zero_add]
  have hlen : x + P.n_strains ≤ (X.set (x + j) P.iota).length := by
    rw [List.length_set]; exact hx
  have hnorm : normalized (X.set (x + j) P.iota) x P.n_strains = X.set (x + j) 1 := by
    rw [normalized_single _ x P.n_strains j hj hlen]
    · rw [List.set_set]
    · rw [entry_set X _ _ _ (by omega), if_pos rfl]; exact hiota
    · intro s hs hsj
      rw [entry_set X _ _ _ (by omega), if_neg (by omega)]
      exact hempty s hs
  refine ⟨?_, ?_, ?_⟩
  · unfold caseTransmission
    rw [noBlocking_eq P X x d hx, if_pos hk]
    simp only
    rw [noImmunity_eq P X x j d (by omega), if_pos himm]
    simp only
    rw [colonise_eq P X x j hx hj, hm, hnorm]
    rfl
  · rw [hm, wr_eq_set X _ _ (by omega)]
  · rw [Normalize_eq P _ x hlen, hnorm]

/-- Witness for C8: Transmission(1) on a host holding immune memory only. -/
theorem Transmission_on_empty_host_witness :
    ((defaults).k = 1) ∧ ((defaults).immunity = false) ∧ (0 < (defaults).iota) ∧
    (0 + (defaults).n_strains ≤ ([-1, 0] : List ℚ).length) ∧ (1 < (defaults).n_strains) ∧
    (∀ s, s < (defaults).n_strains → entry ([-1, 0] : List ℚ) (0 + s) ≤ 0) ∧
    caseTransmission defaults ([-1, 0] : List ℚ) 0 1 (allSucceed 0 0)
      = some ([-1, 1], []) := by
  have hk : (defaults).k = 1 := rfl
  have himm : (defaults).immunity = false := rfl
  have hiota : 0 < (defaults).iota := by norm_num [defaults]
  have hempty : ∀ s, s < (defaults).n_strains → entry ([-1, 0] : List ℚ) (0 + s) ≤ 0 := by
    intro s hs
    have : s = 0 ∨ s = 1 := by
      have : s < 2 := hs
      omega
    rcases this with rfl | rfl <;> norm_num [entry]
  refine ⟨hk, himm, hiota, by decide, by decide, hempty, ?_⟩
  exact (Transmission_on_empty_host defaults ([-1, 0] : List ℚ) 0 1
    (allSucceed 0 0) hk himm hiota (by decide) (by decide) hempty).1

/-- Counterexample for C9: with `sigma = -1` (all other parameters at their
defaults, so `v = 0`) Clearance of serotype 0 on the row `[0.6, 0.4]` yields
`[0.5, 0.5]` and not `[-sigma, -sigma]`: the two entries are set to `-sigma = 1`,
which is positive, and are then normalised. -/
theorem Clearance_rule_counterexample :
    caseClearance { defaults with sigma := -1 } ([3 / 5, 2 / 5] : List ℚ) 0 0
        (allSucceed 0 0)
      = some ([1 / 2, 1 / 2], [Call.Bernoulli 0]) ∧
    ([1 / 2, 1 / 2] : List ℚ) ≠
      [-({ defaults with sigma := -1 } : Parameters ℚ).sigma,
       -({ defaults with sigma := -1 } : Parameters ℚ).sigma] := by
  constructor
  · norm_num [caseClearance, carried, defaults, Bernoulli, Normalize, accumulate, loop,
      divideStep, rd, wr, posPart, List.range']
  · norm_num

/-- C9 as amended (`sigma >= 0`).  Clearance(t) on a row inside the store returns.
If neither `x[2t]` nor `x[2t+1]` is positive the store is unchanged.  Otherwise
both entries become `-sigma`; when the Bernoulli trial with probability `v` fails
(always for `v = 0`) every other positive entry of the row is divided by the sum
of the remaining positive entries, which then sum to 1 if there is one; when it
succeeds (always for `v = 1`) every other positive entry becomes 0; non-positive
entries and the rest of the store are kept.  In particular `[0.6, 0.4]` with
`v = 0` yields `[-sigma, -sigma]`. -/
theorem Clearance_rule (P : Parameters α) (X : List α) (x t : Nat) (d : Draws α)
    (hsigma : 0 ≤ P.sigma) (hx : x + P.n_strains ≤ X.length) (ht : t * 2 + 1 < P.n_strains) :
    (∃ X' calls, caseClearance P X x t d = some (X', calls) ∧ X'.length = X.length ∧
      (∀ i, i < x ∨ x + P.n_strains ≤ i → entry X' i = entry X i) ∧
      (¬ (0 < entry X (x + t * 2) ∨ 0 < entry X (x + (t * 2 + 1))) → X' = X) ∧
      (0 < entry X (x + t * 2) ∨ 0 < entry X (x + (t * 2 + 1)) →
        entry X' (x + t * 2) = -P.sigma ∧ entry X' (x + (t * 2 + 1)) = -P.sigma ∧
        (Bernoulli P.v d.cascade = false →
          (∀ s, s < P.n_strains → s ≠ t * 2 → s ≠ t * 2 + 1 →
            entry X' (x + s) =
              if 0 < entry X (x + s) then
                entry X (x + s) / posSum (cleared P X x t) x P.n_strains
              else entry X (x + s)) ∧
          ((∃ s, s < P.n_strains ∧ s ≠ t * 2 ∧ s ≠ t * 2 + 1 ∧ 0 < entry X (x + s)) →
            posSum X' x P.n_strains = 1)) ∧
        (Bernoulli P.v d.cascade = true →
          ∀ s, s < P.n_strains → s ≠ t * 2 → s ≠ t * 2 + 1 →
            entry X' (x + s) = if 0 < entry X (x + s) then 0 else entry X (x + s)))) ∧
    (P.v = 0 → 0 ≤ d.cascade → Bernoulli P.v d.cascade = false) ∧
    (P.v = 1 → d.cascade < 1 → Bernoulli P.v d.cascade = true) ∧
    (P.n_strains = 2 → P.v = 0 → 0 ≤ d.cascade →
      caseClearance P [3 / 5, 2 / 5] 0 0 d = some ([-P.sigma, -P.sigma], [Call.Bernoulli P.v])) := by
  have hns : ¬ 0 < -P.sigma := by
    intro h; linarith
  have hlc : x + P.n_strains ≤ (cleared P X x t).length := by rw [length_cleared]; exact hx
  have hec : ∀ s, s < P.n_strains → s ≠ t * 2 → s ≠ t * 2 + 1 →
      entry (cleared P X x t) (x + s) = entry X (x + s) := by
    intro s _ h1 h2
    rw [entry_cleared P X x t _ (by omega), if_neg (by omega)]
  have hea : entry (cleared P X x t) (x + t * 2) = -P.sigma := by
    rw [entry_cleared P X x t _ (by omega), if_pos (Or.inl rfl)]
  have heb : entry (cleared P X x t) (x + (t * 2 + 1)) = -P.sigma := by
    rw [entry_cleared P X x t _ (by omega), if_pos (Or.inr rfl)]
  have heo : ∀ i, i < x ∨ x + P.n_strains ≤ i → entry (cleared P X x t) i = entry X i := by
    intro i hi
    rw [entry_cleared P X x t _ (by omega), if_neg (by omega)]
  refine ⟨?_, ?_, ?_, ?_⟩
  · rw [caseClearance_eq P X x t d hx ht]
    by_cases hc : 0 < entry X (x + t * 2) ∨ 0 < entry X (x + (t * 2 + 1))
    · rw [if_pos hc]
      by_cases hb : Bernoulli P.v d.cascade = true
      · -- the cascade: no positive entry is left
        rw [if_pos hb]
        have hz : ∀ s, s < P.n_strains → ¬ 0 < entry
            (onRow (cleared P X x t) x P.n_strains (fun _ v => if v > 0 then 0 else v))
            (x + s) := by
          intro s hs
          rw [entry_onRow_in _ x P.n_strains _ s hs hlc]
          split
          · exact lt_irrefl 0
          · rename_i hn; exact hn
        rw [normalized_of_no_pos _ x P.n_strains hz]
        refine ⟨_, _, rfl, by rw [length_onRow, length_cleared], ?_, ?_, ?_⟩
        · intro i hi
          rw [entry_onRow_out _ x P.n_strains _ i hi, heo i hi]
        · intro hnc; exact absurd hc hnc
        · intro _
          refine ⟨?_, ?_, ?_, ?_⟩
          · rw [entry_onRow_in _ x P.n_strains _ (t * 2) (by omega) hlc, hea]
            simp only [gt_iff_lt, if_neg hns]
          · rw [entry_onRow_in _ x P.n_strains _ (t * 2 + 1) (by omega) hlc, heb]
            simp only [gt_iff_lt, if_neg hns]
          · intro hf; rw [hb] at hf; exact absurd hf (by decide)
          · intro _ s hs h1 h2
            rw [entry_onRow_in _ x P.n_strains _ s hs hlc, hec s hs h1 h2]
      · -- no cascade: the remaining positive entries are normalised
        rw [if_neg hb]
        refine ⟨_, _, rfl, by rw [length_normalized, length_cleared], ?_, ?_, ?_⟩
        · intro i hi
          rw [entry_normalized_out _ x P.n_strains i hi, heo i hi]
        · intro hnc; exact absurd hc hnc
        · intro _
          refine ⟨?_, ?_, ?_, ?_⟩
          · rw [entry_normalized_in _ x P.n_strains (t * 2) (by omega) hlc, hea, if_neg hns]
          · rw [entry_normalized_in _ x P.n_strains (t * 2 + 1) (by omega) hlc, heb, if_neg hns]
          · intro _
            constructor
            · intro s hs h1 h2
              rw [entry_normalized_in _ x P.n_strains s hs hlc, hec s hs h1 h2]
            · rintro ⟨s, hs, h1, h2, hpos⟩
              rw [posSum_normalized _ x P.n_strains hlc, if_pos]
              exact (posSum_pos_iff _ x P.n_strains).mpr ⟨s, hs, by rw [hec s hs h1 h2]; exact hpos⟩
          · intro ht'; exact absurd ht' hb
    · rw [if_neg hc]
      exact ⟨X, [], rfl, rfl, fun _ _ => rfl, fun _ => rfl, fun h => absurd h hc⟩
  · intro hv hd
    unfold Bernoulli
    rw [hv]
    exact decide_eq_false (not_lt.mpr hd)
  · intro hv hd
    unfold Bernoulli
    rw [hv]
    exact decide_eq_true hd
  · intro hn hv hd
    have hb : ¬ d.cascade < 0 := not_lt.mpr hd
    have h35 : (0 : α) < 3 / 5 := by norm_num
    have hns' : ¬ P.sigma < 0 := not_lt.mpr hsigma
    simp [caseClearance, carried, Bernoulli, Normalize, accumulate, loop, divideStep, rd, wr,
      posPart, List.range', hn, hv, hb, h35, hns']

/-- Witness for C9 as amended: serotype 0 of the row `[0.6, 0.4, 1, 0]` of four
strains, with the default `sigma = 1` and `v = 0`. -/
theorem Clearance_rule_witness :
    ((0 : ℚ) ≤ ({ defaults with n_strains := 4 } : Parameters ℚ).sigma) ∧
    (0 + ({ defaults with n_strains := 4 } : Parameters ℚ).n_strains
      ≤ ([3 / 5, 2 / 5, 1, 0] : List ℚ).length) ∧
    (0 * 2 + 1 < ({ defaults with n_strains := 4 } : Parameters ℚ).n_strains) ∧
    ∃ X' calls, caseClearance { defaults with n_strains := 4 } ([3 / 5, 2 / 5, 1, 0] : List ℚ) 0 0
        (allSucceed 0 0) = some (X', calls) ∧
      entry X' 0 = -1 ∧ entry X' 1 = -1 ∧ posSum X' 0 4 = 1 := by
  have hs : (0 : ℚ) ≤ ({ defaults with n_strains := 4 } : Parameters ℚ).sigma := by
    norm_num [defaults]
  refine ⟨hs, by decide, by decide, ?_⟩
  obtain ⟨⟨X', calls, h1, _, _, _, h5⟩, _, _, _⟩ :=
    Clearance_rule { defaults with n_strains := 4 } ([3 / 5, 2 / 5, 1, 0] : List ℚ) 0 0
      (allSucceed 0 0) hs (by decide) (by decide)
  obtain ⟨ha, hb, hc, _⟩ := h5 (Or.inl (by norm_num [entry]))
  refine ⟨X', calls, h1, ?_, ?_, ?_⟩
  · simpa [defaults] using ha
  · simpa [defaults] using hb
  · exact (hc (by norm_num [Bernoulli, defaults])).2 ⟨2, by decide, by decide, by decide,
      by norm_num [entry]⟩

/-- C10. Transfer rule, for a target row inside the store and a contact row that
is the target row itself or another row of the store (`theta` having passed the
size check).  If the blocking test fails the store is unchanged and the only call
to the random source is the trial `Bernoulli(k)`: no contact host is drawn.
Otherwise the calls are those of the blocking test, made once, then the draw of
the contact host, then trials `Bernoulli(1 + x[s])` and `Bernoulli(theta[s])` of
the strain loop; with `Y` the store in which `x[s]` is
`max(x[s], 0) + iota * xx[s]` for each strain that immunity permits and whose
trial `Bernoulli(theta[s])` succeeds, the result is `Normalize` of `Y` if at least
one strain was so updated and the unchanged store if none was. -/
theorem Transfer_rule (P : Parameters α) (X : List α) (x : Nat) (d : Draws α)
    (hth : P.theta.length = P.n_strains) (hx : x + P.n_strains ≤ X.length)
    (hxx : (P.n_strains * d.contact) % 2 ^ 32 + P.n_strains ≤ X.length)
    (hrows : (P.n_strains * d.contact) % 2 ^ 32 = x ∨
      (P.n_strains * d.contact) % 2 ^ 32 + P.n_strains ≤ x ∨
      x + P.n_strains ≤ (P.n_strains * d.contact) % 2 ^ 32) :
    (¬ Unblocked P X x d → caseTransfer P X x d = some (X, [Call.Bernoulli P.k])) ∧
    (Unblocked P X x d → ∃ X' c1 c2 Y,
      noBlocking P X x d = some (true, c1) ∧
      caseTransfer P X x d = some (X', c1 ++ [Call.Discrete P.n_hosts] ++ c2) ∧
      (∀ q, q ∈ c2 → ∃ s, s < P.n_strains ∧
        (q = Call.Bernoulli (1 + entry X (x + s)) ∨ q = Call.Bernoulli (entry P.theta s))) ∧
      Y.length = X.length ∧
      (∀ i, i < x ∨ x + P.n_strains ≤ i → entry Y i = entry X i) ∧
      (∀ s, s < P.n_strains → entry Y (x + s) =
        if Permitted P X x s d ∧ Bernoulli (entry P.theta s) (d.success s) = true then
          max (entry X (x + s)) 0 +
            P.iota * entry X ((P.n_strains * d.contact) % 2 ^ 32 + s)
        else entry X (x + s)) ∧
      ((∃ s, s < P.n_strains ∧ Permitted P X x s d ∧
          Bernoulli (entry P.theta s) (d.success s) = true) → Normalize P Y x = some X') ∧
      ((¬ ∃ s, s < P.n_strains ∧ Permitted P X x s d ∧
          Bernoulli (entry P.theta s) (d.success s) = true) → X' = X)) := by
  obtain ⟨c1, c2, hb, hc, hq⟩ := caseTransfer_eq P X x d hth hx hxx hrows
  constructor
  · intro hu
    have hk : ¬ P.k = 1 := fun h => hu (Or.inl h)
    have he : ¬ ∀ s, s < P.n_strains → entry X (x + s) ≤ 0 := fun h => hu (Or.inr (Or.inl h))
    have hbern : Bernoulli P.k d.block = false :=
      Bool.eq_false_iff.mpr (fun h => hu (Or.inr (Or.inr h)))
    unfold caseTransfer
    rw [noBlocking_eq P X x d hx, if_neg hk, if_neg he, hbern]
  · intro hu
    rw [if_pos hu] at hc
    rw [decide_eq_true hu] at hb
    refine ⟨_, c1, c2,
      onRow X x P.n_strains (transferValue P X x ((P.n_strains * d.contact) % 2 ^ 32) d),
      hb, hc, hq, length_onRow _ _ _ _, fun i hi => entry_onRow_out _ _ _ _ i hi, ?_, ?_, ?_⟩
    · intro s hs
      rw [entry_onRow_in X x P.n_strains _ s hs hx]
      rfl
    · intro ht
      have ht' : ∃ s, s < P.n_strains ∧ Transferred P X x s d := ht
      rw [if_pos ht', Normalize_eq P _ x (by rw [length_onRow]; exact hx)]
    · intro ht
      have ht' : ¬ ∃ s, s < P.n_strains ∧ Transferred P X x s d := ht
      rw [if_neg ht']

/-- Witness for C10: two hosts with two strains; the target host 0 carries strain
0, the contact host 1 carries strain 1, `theta = [1, 1]`. -/
theorem Transfer_rule_witness :
    (({ defaults with n_hosts := 2 } : Parameters ℚ).theta.length = 2) ∧
    (0 + 2 ≤ ([1, 0, 0, 1] : List ℚ).length) ∧
    ((2 * 1) % 2 ^ 32 + 2 ≤ ([1, 0, 0, 1] : List ℚ).length) ∧
    (0 + 2 ≤ (2 * 1) % 2 ^ 32) ∧
    ∃ X' calls, caseTransfer { defaults with n_hosts := 2 } ([1, 0, 0, 1] : List ℚ) 0
        (allSucceed 0 1) = some (X', calls) ∧
      Normalize { defaults with n_hosts := 2 } ([1, 1 / 1000, 0, 1] : List ℚ) 0 = some X' := by
  refine ⟨by decide, by decide, by decide, by decide, ?_⟩
  obtain ⟨X', c1, c2, Y, _, h2, _, h3, h4, h5, h6, _⟩ :=
    (Transfer_rule { defaults with n_hosts := 2 } ([1, 0, 0, 1] : List ℚ) 0
      (allSucceed 0 1) (by decide) (by decide) (by decide)
      (Or.inr (Or.inr (by decide)))).2 (Or.inl rfl)
  have hperm : ∀ s, Permitted { defaults with n_hosts := 2 } ([1, 0, 0, 1] : List ℚ) 0 s
      (allSucceed 0 1) := fun s => Or.inl rfl
  have hY : Y = [1, 1 / 1000, 0, 1] := by
    apply store_ext Y [1, 1 / 1000, 0, 1] (by rw [h3]; rfl)
    intro i hi
    rw [h3] at hi
    have hi4 : i < 4 := hi
    have h50 := h5 0 (by decide)
    have h51 := h5 1 (by decide)
    have h42 := h4 2 (Or.inr (by decide))
    have h43 := h4 3 (Or.inr (by decide))
    rw [if_pos ⟨hperm 0, by norm_num [Bernoulli, defaults, entry]⟩] at h50
    rw [if_pos ⟨hperm 1, by norm_num [Bernoulli, defaults, entry]⟩] at h51
    norm_num [entry, defaults] at h50 h51 h42 h43
    have : i = 0 ∨ i = 1 ∨ i = 2 ∨ i = 3 := by omega
    rcases this with rfl | rfl | rfl | rfl
    · norm_num [entry]; exact h50
    · norm_num [entry]; exact h51
    · norm_num [entry]; exact h42
    · norm_num [entry]; exact h43
  refine ⟨X', _, h2, ?_⟩
  rw [← hY]
  exact h6 ⟨0, by decide, hperm 0, by norm_num [Bernoulli, defaults, entry]⟩

/-- C11. Treatment rule, for every row inside the store.  The case returns and
makes no call to the random source; the rest of the store is kept.  Every entry
of even index that was positive becomes 0 and every entry that was not positive
is kept.  If some entry of even index was positive, each positive entry of odd
index is divided by the sum of the positive entries of odd index, so that the
positive entries of the row then sum to 1 (to 0 if no entry of odd index was
positive).  If no entry of even index was positive the store is returned exactly
as it was. -/
theorem Treatment_rule (P : Parameters α) (X : List α) (x : Nat)
    (hx : x + P.n_strains ≤ X.length) :
    ∃ X', caseTreatment P X x = some (X', []) ∧ X'.length = X.length ∧
      (∀ i, i < x ∨ x + P.n_strains ≤ i → entry X' i = entry X i) ∧
      (∀ s, s < P.n_strains → s % 2 = 0 → 0 < entry X (x + s) → entry X' (x + s) = 0) ∧
      (∀ s, s < P.n_strains → entry X (x + s) ≤ 0 → entry X' (x + s) = entry X (x + s)) ∧
      ((∃ s, s < P.n_strains ∧ s % 2 = 0 ∧ 0 < entry X (x + s)) →
        (∀ s, s < P.n_strains → s % 2 = 1 → 0 < entry X (x + s) →
          entry X' (x + s) = entry X (x + s) /
            ∑ t in Finset.range P.n_strains,
              if t % 2 = 1 ∧ 0 < entry X (x + t) then entry X (x + t) else 0) ∧
        posSum X' x P.n_strains =
          if ∃ s, s < P.n_strains ∧ s % 2 = 1 ∧ 0 < entry X (x + s) then 1 else 0) ∧
      ((¬ ∃ s, s < P.n_strains ∧ s % 2 = 0 ∧ 0 < entry X (x + s)) → X' = X) := by
  rw [caseTreatment_eq P X x hx]
  have hT : x + P.n_strains ≤ (onRow X x P.n_strains treated).length := by
    rw [length_onRow]; exact hx
  by_cases hc : ∃ s, s < P.n_strains ∧ s % 2 = 0 ∧ 0 < entry X (x + s)
  · rw [if_pos hc]
    refine ⟨_, rfl, by rw [length_normalized, length_onRow], ?_, ?_, ?_, ?_, ?_⟩
    · intro i hi
      rw [entry_normalized_out _ x P.n_strains i hi, entry_onRow_out _ x P.n_strains _ i hi]
    · intro s hs he hp
      have hv : entry (onRow X x P.n_strains treated) (x + s) = 0 := by
        rw [entry_treated X x P.n_strains s hs hx, if_pos ⟨he, hp⟩]
      rw [entry_normalized_in _ x P.n_strains s hs hT, hv, if_neg (lt_irrefl 0)]
    · intro s hs hnp
      have hnp' : ¬ 0 < entry X (x + s) := not_lt.mpr hnp
      have hv : entry (onRow X x P.n_strains treated) (x + s) = entry X (x + s) := by
        rw [entry_treated X x P.n_strains s hs hx, if_neg (fun h => hnp' h.2)]
      rw [entry_normalized_in _ x P.n_strains s hs hT, hv, if_neg hnp']
    · intro _
      constructor
      · intro s hs ho hp
        have hv : entry (onRow X x P.n_strains treated) (x + s) = entry X (x + s) := by
          rw [entry_treated X x P.n_strains s hs hx, if_neg (fun h => by omega)]
        rw [entry_normalized_in _ x P.n_strains s hs hT, hv, if_pos hp,
          posSum_treated X x P.n_strains hx]
      · rw [posSum_normalized _ x P.n_strains hT]
        by_cases ho : ∃ s, s < P.n_strains ∧ s % 2 = 1 ∧ 0 < entry X (x + s)
        · rw [if_pos ho, if_pos ((treated_pos_iff X x P.n_strains hx).mpr ho)]
        · rw [if_neg ho, if_neg (fun h => ho ((treated_pos_iff X x P.n_strains hx).mp h))]
    · intro hn; exact absurd hc hn
  · rw [if_neg hc]
    refine ⟨X, rfl, rfl, fun _ _ => rfl, ?_, fun _ _ _ => rfl, fun h => absurd h hc, fun _ => rfl⟩
    intro s hs he hp
    exact absurd ⟨s, hs, he, hp⟩ hc

/-- Witness for C11: treatment of the row `[1/2, 1/4, 0, 1/4]` of four strains. -/
theorem Treatment_rule_witness :
    (0 + ({ defaults with n_strains := 4 } : Parameters ℚ).n_strains
      ≤ ([1 / 2, 1 / 4, 0, 1 / 4] : List ℚ).length) ∧
    ∃ X', caseTreatment { defaults with n_strains := 4 } ([1 / 2, 1 / 4, 0, 1 / 4] : List ℚ) 0
        = some (X', []) ∧
      entry X' 0 = 0 ∧ entry X' 2 = 0 ∧ posSum X' 0 4 = 1 := by
  refine ⟨by decide, ?_⟩
  obtain ⟨X', h1, _, _, h4, h5, h6, _⟩ :=
    Treatment_rule { defaults with n_strains := 4 } ([1 / 2, 1 / 4, 0, 1 / 4] : List ℚ) 0
      (by decide)
  refine ⟨X', h1, ?_, ?_, ?_⟩
  · exact h4 0 (by decide) (by decide) (by norm_num [entry])
  · have := h5 2 (by decide) (by norm_num [entry])
    simpa [entry] using this
  · have := (h6 ⟨0, by decide, by decide, by norm_num [entry]⟩).2
    rw [this, if_pos]
    exact ⟨1, by decide, by decide, by norm_num [entry]⟩

/-- C12. Birth resets identity: for every store and every row inside it, whatever
its entries (positive, zero or negative), Birth returns, makes the row all zeros
and keeps the rest of the store, without a call to the random source.  As
executed on the drawn host `d.host` of a store of `n_hosts * n_strains` entries,
the row zeroed is the row of that host. -/
theorem Birth_resets (P : Parameters α) (X : List α) (x : Nat) (d : Draws α)
    (hx : x + P.n_strains ≤ X.length) :
    (∃ X', caseBirth P X x = some (X', []) ∧ X'.length = X.length ∧
      (∀ s, s < P.n_strains → entry X' (x + s) = 0) ∧
      (∀ i, i < x ∨ x + P.n_strains ≤ i → entry X' i = entry X i)) ∧
    (X.length = P.n_hosts * P.n_strains → P.n_hosts * P.n_strains < 2 ^ 31 →
      d.host < P.n_hosts →
      ∃ X', execute P X Birth d = some (X', [Call.Discrete P.n_hosts]) ∧
        X'.length = X.length ∧
        (∀ s, s < P.n_strains → entry X' (P.n_strains * d.host + s) = 0) ∧
        (∀ i, i < P.n_strains * d.host ∨ P.n_strains * d.host + P.n_strains ≤ i →
          entry X' i = entry X i)) := by
  have key : ∀ y, y + P.n_strains ≤ X.length →
      ∃ X', caseBirth P X y = some (X', []) ∧ X'.length = X.length ∧
        (∀ s, s < P.n_strains → entry X' (y + s) = 0) ∧
        (∀ i, i < y ∨ y + P.n_strains ≤ i → entry X' i = entry X i) := by
    intro y hy
    refine ⟨_, caseBirth_eq P X y hy, length_onRow _ _ _ _, ?_, ?_⟩
    · intro s hs
      rw [entry_onRow_in X y P.n_strains _ s hs hy]
    · intro i hi
      exact entry_onRow_out X y P.n_strains _ i hi
  refine ⟨key x hx, ?_⟩
  intro hsize hfit hh
  have hrow := row_in_store P.n_strains P.n_hosts d.host X.length hsize hh
  have hmod : (P.n_strains * d.host) % 2 ^ 32 = P.n_strains * d.host := by
    apply Nat.mod_eq_of_lt
    omega
  obtain ⟨X', h1, h2, h3, h4⟩ := key (P.n_strains * d.host) hrow
  refine ⟨X', ?_, h2, h3, h4⟩
  rw [execute_Birth P X d, hmod, h1]
  rfl

/-- Witness for C12: Birth on the second of two hosts, whose row holds a carried
strain and an immune memory. -/
theorem Birth_resets_witness :
    (2 + (defaults : Parameters ℚ).n_strains ≤ ([1, 0, 1, -1] : List ℚ).length) ∧
    ∃ X', caseBirth defaults ([1, 0, 1, -1] : List ℚ) 2 = some (X', []) ∧
      entry X' 2 = 0 ∧ entry X' 3 = 0 ∧ entry X' 0 = 1 := by
  refine ⟨by decide, ?_⟩
  obtain ⟨X', h1, _, h3, h4⟩ :=
    (Birth_resets defaults ([1, 0, 1, -1] : List ℚ) 2 (allSucceed 1 0) (by decide)).1
  refine ⟨X', h1, h3 0 (by decide), h3 1 (by decide), ?_⟩
  have := h4 0 (Or.inl (by decide))
  simpa [entry] using this

/-- C15. Sweep-start validation.  `Check` throws (with the message naming the
parameter) exactly when the length of the vector differs from the expected
size.  The four checks of a sweep pass exactly when `w`, `beta` and `theta` have
`n_strains` entries and `u` has `n_strains / 2` (integer division); no other
parameter is looked at.  When they pass, the sweep goes on to allocate, inoculate
and step; when one fails, the sweep ends with the error of the first vector of
wrong size (in the order `w`, `beta`, `theta`, `u`) whatever the random source
would return: no store is created and no step runs. -/
theorem sweep_start_validation (P : Parameters α) (ww : Nat → α) (run n : Nat)
    (pick : Nat → Nat) (ticks : List (Tick α)) (param : List α) (size : Nat) (name : String) :
    (Check param size name = Except.error ("Incorrect size for parameter " ++ name) ↔
      param.length ≠ size) ∧
    (Check param size name = Except.ok () ↔ param.length = size) ∧
    (checkParameters P = Except.ok () ↔
      P.w.length = P.n_strains ∧ P.beta.length = P.n_strains ∧
        P.theta.length = P.n_strains ∧ P.u.length = P.n_strains / 2) ∧
    (P.w.length = P.n_strains ∧ P.beta.length = P.n_strains ∧
        P.theta.length = P.n_strains ∧ P.u.length = P.n_strains / 2 →
      sweep P ww run n pick ticks =
        Except.ok (match inoculate P n pick (allocate P) with
          | none => none
          | some X => timeLoop P ww run ticks 0 (X, []))) ∧
    (P.w.length ≠ P.n_strains →
      sweep P ww run n pick ticks = Except.error "Incorrect size for parameter w") ∧
    (P.w.length = P.n_strains → P.beta.length ≠ P.n_strains →
      sweep P ww run n pick ticks = Except.error "Incorrect size for parameter beta") ∧
    (P.w.length = P.n_strains → P.beta.length = P.n_strains →
      P.theta.length ≠ P.n_strains →
      sweep P ww run n pick ticks = Except.error "Incorrect size for parameter theta") ∧
    (P.w.length = P.n_strains → P.beta.length = P.n_strains →
      P.theta.length = P.n_strains → P.u.length ≠ P.n_strains / 2 →
      sweep P ww run n pick ticks = Except.error "Incorrect size for parameter u") := by
  refine ⟨?_, ?_, ?_, ?_, ?_, ?_, ?_, ?_⟩
  · constructor
    · intro h
      by_contra hc
      rw [Check_ok param size name hc] at h
      cases h
    · exact Check_error param size name
  · constructor
    · intro h
      by_contra hc
      rw [Check_error param size name hc] at h
      cases h
    · exact Check_ok param size name
  · rw [checkParameters_eq]
    constructor
    · intro h
      by_cases h1 : P.w.length = P.n_strains
      · by_cases h2 : P.beta.length = P.n_strains
        · by_cases h3 : P.theta.length = P.n_strains
          · by_cases h4 : P.u.length = P.n_strains / 2
            · exact ⟨h1, h2, h3, h4⟩
            · simp [h1, h2, h3, h4] at h
          · simp [h1, h2, h3] at h
        · simp [h1, h2] at h
      · simp [h1] at h
    · rintro ⟨h1, h2, h3, h4⟩
      simp [h1, h2, h3, h4]
  · rintro ⟨h1, h2, h3, h4⟩
    unfold sweep
    rw [checkParameters_eq]
    simp [h1, h2, h3, h4]
  · intro h1
    unfold sweep
    rw [checkParameters_eq]
    simp [h1]
  · intro h1 h2
    unfold sweep
    rw [checkParameters_eq]
    simp [h1, h2]
  · intro h1 h2 h3
    unfold sweep
    rw [checkParameters_eq]
    simp [h1, h2, h3]
  · intro h1 h2 h3 h4
    unfold sweep
    rw [checkParameters_eq]
    simp [h1, h2, h3, h4]

/-- C13 fails as stated for a negative growth rate.  One host with the row
`[1, 1]` and growth rates `3` and `-1` (`w = {3, -1}`, `t_step = 1`): the first
inner loop leaves `[3, -1]` and `total = 3 + (-1) = 2`, so the pass leaves
`[3/2, -1]`, whereas dividing the resulting positive entry by the sum of the
resulting positive entries, which is 3, gives `[1, -1]`. -/
theorem growth_pass_rule_counterexample :
    growthPass { defaults with n_hosts := 1, w := [3, -1], t_step := 1 }
        (fun s => if s = 0 then 3 else -1) ([1, 1] : List ℚ)
      = some ([3 / 2, -1], [3 / 2, 1]) ∧
    claimedGrowth { defaults with n_hosts := 1, w := [3, -1], t_step := 1 }
        (fun s => if s = 0 then 3 else -1) ([1, 1] : List ℚ) 0
      = [1, -1] ∧
    ([3 / 2, -1] : List ℚ) ≠ [1, -1] := by
  refine ⟨?_, ?_, ?_⟩
  · norm_num [growthPass, growHost, growStep, shareStep, upTo, loop, rd, wr, defaults,
      List.range', List.replicate]
  · norm_num [claimedGrowth, normalized, onRow, posSum, posPart, grown, entry, defaults,
      Finset.sum_range_succ, List.range']
  · norm_num

/-- C13 as amended (growth rates that are not negative).  On a store of
`n_hosts * n_strains` entries the growth pass returns and keeps the size of the
store.  With `g` the grown value of an entry (0 for a positive entry below
`min_carriage`, the entry times `ww[s]` for any other positive entry, the entry
itself when it is not positive), every entry of every host row becomes `g`
divided by the sum of the positive grown values of its row when `g` and that sum
are positive, and `g` otherwise. -/
theorem growth_pass_rule (P : Parameters α) (ww : Nat → α) (X : List α)
    (hsize : X.length = P.n_hosts * P.n_strains)
    (hww : ∀ s, s < P.n_strains → 0 ≤ ww s) :
    (∀ s v, grown P ww s v =
      if v > 0 then (if v < P.min_carriage then 0 else v * ww s) else v) ∧
    ∃ X' l, growthPass P ww X = some (X', l) ∧ X'.length = X.length ∧
      ∀ h, h < P.n_hosts → ∀ s, s < P.n_strains →
        entry X' (P.n_strains * h + s) =
          if 0 < ∑ t in Finset.range P.n_strains,
              posPart (grown P ww t (entry X (P.n_strains * h + t))) then
            (if 0 < grown P ww s (entry X (P.n_strains * h + s)) then
              grown P ww s (entry X (P.n_strains * h + s)) /
                ∑ t in Finset.range P.n_strains,
                  posPart (grown P ww t (entry X (P.n_strains * h + t)))
            else grown P ww s (entry X (P.n_strains * h + s)))
          else grown P ww s (entry X (P.n_strains * h + s)) := by
  refine ⟨fun _ _ => rfl, ?_⟩
  obtain ⟨X', l, hgo, hlen, _, hent, _⟩ := growthPass_eq P ww X hsize
  refine ⟨X', l, hgo, hlen, ?_⟩
  intro h hh s hs
  have hrow := row_in_store P.n_strains P.n_hosts h X.length hsize hh
  have hsum : growTotal P ww X (P.n_strains * h) P.n_strains =
      ∑ t in Finset.range P.n_strains,
        posPart (grown P ww t (entry X (P.n_strains * h + t))) := by
    rw [growTotal_eq_posSum P ww X _ hrow hww]
    unfold posSum
    apply Finset.sum_congr rfl
    intro t ht
    rw [entry_onRow_in X _ P.n_strains _ t (Finset.mem_range.mp ht) hrow]
  rw [hent h hh s hs]
  unfold passed shared
  rw [hsum]

/-- Witness for C13 as amended: two hosts, the first carrying strain 0 at 1/2 and
strain 1 below `min_carriage`, growth rates 2 and 1. -/
theorem growth_pass_rule_witness :
    (([1 / 2, 1 / 100000, 0, -1] : List ℚ).length
      = ({ defaults with n_hosts := 2, w := [2, 1], t_step := 1 } : Parameters ℚ).n_hosts
        * ({ defaults with n_hosts := 2, w := [2, 1], t_step := 1 } : Parameters ℚ).n_strains) ∧
    (∀ s, s < ({ defaults with n_hosts := 2, w := [2, 1], t_step := 1 } : Parameters ℚ).n_strains →
      (0 : ℚ) ≤ (fun s => if s = 0 then 2 else 1) s) ∧
    ∃ X' l, growthPass { defaults with n_hosts := 2, w := [2, 1], t_step := 1 } (fun s => if s = 0 then 2 else 1)
        ([1 / 2, 1 / 100000, 0, -1] : List ℚ) = some (X', l) ∧
      entry X' 0 = 1 ∧ entry X' 1 = 0 ∧ entry X' 3 = -1 := by
  have hww : ∀ s, s < ({ defaults with n_hosts := 2, w := [2, 1], t_step := 1 } : Parameters ℚ).n_strains →
      (0 : ℚ) ≤ (fun s => if s = 0 then 2 else 1) s := by
    intro s _
    by_cases h : s = 0 <;> simp [h]
  refine ⟨by decide, hww, ?_⟩
  obtain ⟨_, X', l, hgo, _, hent⟩ :=
    growth_pass_rule { defaults with n_hosts := 2, w := [2, 1], t_step := 1 } (fun s => if s = 0 then 2 else 1)
      ([1 / 2, 1 / 100000, 0, -1] : List ℚ) (by decide) hww
  refine ⟨X', l, hgo, ?_, ?_, ?_⟩
  · have := hent 0 (by decide) 0 (by decide)
    norm_num [grown, posPart, entry, defaults, Finset.sum_range_succ] at this ⊢
    exact this
  · have := hent 0 (by decide) 1 (by decide)
    norm_num [grown, posPart, entry, defaults, Finset.sum_range_succ] at this ⊢
    exact this
  · have := hent 1 (by decide) 1 (by decide)
    norm_num [grown, posPart, entry, defaults, Finset.sum_range_succ] at this ⊢
    exact this

/-- C14 fails as stated when a host holds an immune memory.  Three hosts with the
rows `[1, 0]`, `[1, 0]` and `[-1, 1]`, growth rates 1 and the default
`min_carriers = 1`: the pass leaves the store as it is and `l[0] = max(2, 1) / 3`,
the entry `-1` not being added, whereas the sum over all hosts of the value of
strain 0 is `1 + 1 - 1 = 1`, which gives `max(1, 1) / 3`. -/
theorem population_tally_counterexample :
    growthPass { defaults with n_hosts := 3 } (fun _ => 1) ([1, 0, 1, 0, -1, 1] : List ℚ)
      = some ([1, 0, 1, 0, -1, 1], [2 / 3, 1 / 3]) ∧
    claimedTally { defaults with n_hosts := 3 } ([1, 0, 1, 0, -1, 1] : List ℚ) 0 = 1 / 3 ∧
    entry ([2 / 3, 1 / 3] : List ℚ) 0 ≠ 1 / 3 := by
  refine ⟨?_, ?_, ?_⟩
  · norm_num [growthPass, growHost, growStep, shareStep, upTo, loop, rd, wr, defaults,
      List.range', List.replicate]
  · norm_num [claimedTally, entry, defaults, Finset.sum_range_succ]
  · norm_num [entry]

/-- C14 as amended (only positive values are tallied).  On a store of
`n_hosts * n_strains` entries the growth pass returns the store `X'` and the
tally `l` of `n_strains` entries with `l[s] = max(T_s, min_carriers) / n_hosts`,
where `T_s` is the sum, over the hosts whose row the pass normalised
(`total > 0`), of the value of strain `s` in `X'` where it is positive.  With
growth rates that are not negative `T_s` is the sum over all hosts of the
positive values of strain `s` in `X'`.  Hence for `n_hosts > 0` every `l[s]` is
at least `min_carriers / n_hosts`. -/
theorem population_tally (P : Parameters α) (ww : Nat → α) (X : List α)
    (hsize : X.length = P.n_hosts * P.n_strains) :
    ∃ X' l, growthPass P ww X = some (X', l) ∧ l.length = P.n_strains ∧
      (∀ s, s < P.n_strains →
        entry l s =
          max (∑ h in Finset.range P.n_hosts,
              if 0 < growTotal P ww X (P.n_strains * h) P.n_strains then
                posPart (entry X' (P.n_strains * h + s))
              else 0) P.min_carriers / (P.n_hosts : α)) ∧
      ((∀ s, s < P.n_strains → 0 ≤ ww s) → ∀ s, s < P.n_strains →
        entry l s =
          max (∑ h in Finset.range P.n_hosts, posPart (entry X' (P.n_strains * h + s)))
            P.min_carriers / (P.n_hosts : α)) ∧
      (0 < P.n_hosts → ∀ s, s < P.n_strains → P.min_carriers / (P.n_hosts : α) ≤ entry l s) := by
  obtain ⟨X', l, hgo, _, hll, hent, hl⟩ := growthPass_eq P ww X hsize
  refine ⟨X', l, hgo, hll, ?_, ?_, ?_⟩
  · intro s hs
    rw [hl s hs]
    congr 2
    apply Finset.sum_congr rfl
    intro h hh
    rw [tallied_eq, hent h (Finset.mem_range.mp hh) s hs]
  · intro hww s hs
    rw [hl s hs]
    congr 2
    apply Finset.sum_congr rfl
    intro h hh
    have hh' := Finset.mem_range.mp hh
    have hrow := row_in_store P.n_strains P.n_hosts h X.length hsize hh'
    rw [tallied_eq, hent h hh' s hs]
    by_cases ht : 0 < growTotal P ww X (P.n_strains * h) P.n_strains
    · rw [if_pos ht]
    · rw [if_neg ht, posPart_of_not_pos _ (passed_not_pos P ww X _ s hrow hs hww ht)]
  · intro hH s hs
    rw [hl s hs]
    have hpos : (0 : α) < (P.n_hosts : α) := Nat.cast_pos.mpr hH
    exact div_le_div_of_nonneg_right (le_max_right _ _) (le_of_lt hpos)

/-- Witness for C14 as amended: the three hosts `[1, 0]`, `[1, 0]`, `[-1, 1]` with
growth rates 1. -/
theorem population_tally_witness :
    (([1, 0, 1, 0, -1, 1] : List ℚ).length
      = ({ defaults with n_hosts := 3 } : Parameters ℚ).n_hosts
        * ({ defaults with n_hosts := 3 } : Parameters ℚ).n_strains) ∧
    ∃ X' l, growthPass { defaults with n_hosts := 3 } (fun _ => 1)
        ([1, 0, 1, 0, -1, 1] : List ℚ) = some (X', l) ∧
      (1 : ℚ) / 3 ≤ entry l 0 ∧ (1 : ℚ) / 3 ≤ entry l 1 := by
  refine ⟨by decide, ?_⟩
  obtain ⟨X', l, hgo, _, _, _, hfloor⟩ :=
    population_tally { defaults with n_hosts := 3 } (fun _ => 1)
      ([1, 0, 1, 0, -1, 1] : List ℚ) (by decide)
  have h0 := hfloor (by decide) 0 (by decide)
  have h1 := hfloor (by decide) 1 (by decide)
  norm_num [defaults] at h0 h1
  exact ⟨X', l, hgo, h0, h1⟩

/-- C16 fails as stated.  The histogram has 9 entries, not 10: a single host that
carries 9 of 10 strains is counted in entry 8, the last one, although it does
not carry exactly 8 strains.  And when `first_sero` is set, a host that carries
all of its 4 strains is counted in entry 2. -/
theorem histogram_buckets_counterexample :
    checkParameters (sized 10 1) = Except.ok () ∧
    (report (sized 10 1) 0 0 ([1, 1, 1, 1, 1, 1, 1, 1, 1, 0] : List ℚ) []).map
        (fun line => line.strain_count)
      = some [0, 0, 0, 0, 0, 0, 0, 0, 1] ∧
    ([0, 0, 0, 0, 0, 0, 0, 0, 1] : List Nat).length = 9 ∧
    multiplicity (sized 10 1) ([1, 1, 1, 1, 1, 1, 1, 1, 1, 0] : List ℚ) 0 = 9 ∧
    (report { sized 4 1 with first_sero := true } 0 0 ([1 / 4, 1 / 4, 1 / 4, 1 / 4] : List ℚ)
        []).map (fun line => line.strain_count)
      = some [0, 0, 1, 0, 0, 0, 0, 0, 0] := by
  have hm : count_if ([1, 1, 1, 1, 1, 1, 1, 1, 1, 0] : List ℚ) 0 10 = some 9 := by
    simp [count_if, loop, rd, List.range']
  refine ⟨?_, ?_, rfl, ?_, ?_⟩
  · rfl
  · have hcnt : counted (sized 10 1) = 10 := rfl
    have hu : upTo ((sized 10 1).n_strains * (sized 10 1).n_hosts) (sized 10 1).n_strains
        = [0] := rfl
    unfold report countHosts
    rw [hu]
    unfold loop countHost
    rw [hcnt, hm]
    rfl
  · have h := count_if_eq ([1, 1, 1, 1, 1, 1, 1, 1, 1, 0] : List ℚ) 0 10 (by decide)
    rw [hm] at h
    show ((Finset.range 10).filter
      fun s => 0 < entry ([1, 1, 1, 1, 1, 1, 1, 1, 1, 0] : List ℚ) (10 * 0 + s)).card = 9
    exact (Option.some.inj h).symm
  · norm_num [report, countHosts, countHost, count_if, counted, upTo, loop, rd, sized,
      defaults, List.range', List.replicate]

/-- C16 as amended (9 buckets, the last for 8 or more).  For every store of
`n_hosts` rows of `n_strains >= 1` entries (`n_strains >= 2` when `first_sero` is
set) the report is emitted and its histogram has 9 entries: entry `m`, for `m`
from 0 to 7, is the number of hosts with exactly `m` positive entries among the
strains counted, and entry 8 is the number of hosts with 8 or more.  The strains
counted are all `n_strains`, or the first two when `first_sero` is set. -/
theorem histogram_buckets (P : Parameters α) (X l : List α) (run g : Nat)
    (hsize : X.length = P.n_hosts * P.n_strains) (hn : 0 < P.n_strains)
    (hc : (if P.first_sero then 2 else P.n_strains) ≤ P.n_strains) :
    (∀ h, multiplicity P X h =
      ((Finset.range (if P.first_sero then 2 else P.n_strains)).filter
        fun s => 0 < entry X (P.n_strains * h + s)).card) ∧
    (∀ m, hostsWith P X (fun k => k = m) =
      ((Finset.range P.n_hosts).filter fun h => multiplicity P X h = m).card) ∧
    (hostsWith P X (fun k => 8 ≤ k) =
      ((Finset.range P.n_hosts).filter fun h => 8 ≤ multiplicity P X h).card) ∧
    ∃ line, report P run g X l = some line ∧ line.strain_count.length = 9 ∧
      (∀ m, m < 8 → entry line.strain_count m = hostsWith P X (fun k => k = m)) ∧
      entry line.strain_count 8 = hostsWith P X (fun k => 8 ≤ k) := by
  refine ⟨fun _ => rfl, fun _ => rfl, rfl, ?_⟩
  obtain ⟨line, hgo, h1, h2, _, _⟩ := report_eq P X l run g hsize hn hc
  refine ⟨line, hgo, h1, ?_, ?_⟩
  · intro m hm
    rw [h2 m (by omega)]
    apply hostsWith_congr
    intro k
    omega
  · rw [h2 8 (by decide)]
    apply hostsWith_congr
    intro k
    omega

/-- Witness for C16 as amended: three hosts with two strains, of multiplicities
1, 2 and 0. -/
theorem histogram_buckets_witness :
    (([1, 0, 1 / 2, 1 / 2, 0, -1] : List ℚ).length = (sized 2 3).n_hosts * (sized 2 3).n_strains) ∧
    (0 < (sized 2 3).n_strains) ∧
    ((if (sized 2 3).first_sero then 2 else (sized 2 3).n_strains) ≤ (sized 2 3).n_strains) ∧
    ∃ line, report (sized 2 3) 0 0 ([1, 0, 1 / 2, 1 / 2, 0, -1] : List ℚ) [] = some line ∧
      line.strain_count.length = 9 ∧
      entry line.strain_count 8 = hostsWith (sized 2 3) ([1, 0, 1 / 2, 1 / 2, 0, -1] : List ℚ)
        (fun k => 8 ≤ k) := by
  refine ⟨by decide, by decide, by decide, ?_⟩
  obtain ⟨_, _, _, line, hgo, h1, _, h3⟩ :=
    histogram_buckets (sized 2 3) ([1, 0, 1 / 2, 1 / 2, 0, -1] : List ℚ) [] 0 0
      (by decide) (by decide) (by decide)
  exact ⟨line, hgo, h1, h3⟩

/-- C17 fails as stated.  On the store as allocated for one host and two strains,
in which no host carries a strain, the reporter leaves `carriers = 0`: the mean
multiplicity `mult / carriers` is the quotient of 0 by 0, which is no number. -/
theorem mean_multiplicity_divisor_counterexample :
    checkParameters (sized 2 1) = Except.ok () ∧
    allocate (sized 2 1) = [0, 0] ∧
    (countHosts (sized 2 1) (allocate (sized 2 1))).map (fun c => c.carriers) = some 0 ∧
    (report (sized 2 1) 0 0 (allocate (sized 2 1)) [1, 1]).map (fun line => line.mult)
      = some none := by
  refine ⟨rfl, rfl, ?_, ?_⟩
  · norm_num [countHosts, countHost, count_if, counted, upTo, loop, rd, sized, allocate,
      defaults, List.range', List.replicate]
  · norm_num [report, quotient, countHosts, countHost, count_if, counted, upTo, loop, rd,
      sized, allocate, defaults, List.range', List.replicate]

/-- C17 as amended (the divisor is zero when no host carries).  For every store of
`n_hosts` rows of `n_strains >= 1` entries (`n_strains >= 2` when `first_sero` is
set) the loop over the hosts returns with `carriers` the number of hosts that
have at least one positive entry among the strains counted.  This divisor is
not zero exactly when some host has such an entry; when no host has one it is
zero and the quotient `mult / carriers` is not defined. -/
theorem mean_multiplicity_divisor (P : Parameters α) (X : List α)
    (hsize : X.length = P.n_hosts * P.n_strains) (hn : 0 < P.n_strains)
    (hc : (if P.first_sero then 2 else P.n_strains) ≤ P.n_strains) :
    ∃ c, countHosts P X = some c ∧
      c.carriers = ((hostsWith P X (fun m => 0 < m) : Nat) : α) ∧
      (c.carriers ≠ 0 ↔ ∃ h, h < P.n_hosts ∧ 0 < multiplicity P X h) ∧
      (quotient c.mult c.carriers = none ↔ ∀ h, h < P.n_hosts → multiplicity P X h = 0) := by
  obtain ⟨c, hgo, _, _, _, h4⟩ := countHosts_eq P X hsize hn hc
  have hiff : c.carriers ≠ 0 ↔ ∃ h, h < P.n_hosts ∧ 0 < multiplicity P X h := by
    rw [h4, Nat.cast_ne_zero, ← carriers_pos_iff, Nat.pos_iff_ne_zero]
  refine ⟨c, hgo, h4, hiff, ?_⟩
  unfold quotient
  constructor
  · intro hq h hh
    by_cases h0 : c.carriers = 0
    · by_contra hm
      exact (hiff.mpr ⟨h, hh, Nat.pos_of_ne_zero hm⟩) h0
    · rw [if_neg h0] at hq
      cases hq
  · intro hall
    have h0 : c.carriers = 0 := by
      by_contra hne
      obtain ⟨h, hh, hm⟩ := hiff.mp hne
      rw [hall h hh] at hm
      exact absurd hm (lt_irrefl 0)
    rw [if_pos h0]

/-- Witness for C17 as amended: three hosts with two strains, two of them
carriers. -/
theorem mean_multiplicity_divisor_witness :
    (([1, 0, 1 / 2, 1 / 2, 0, -1] : List ℚ).length = (sized 2 3).n_hosts * (sized 2 3).n_strains) ∧
    (0 < (sized 2 3).n_strains) ∧
    ((if (sized 2 3).first_sero then 2 else (sized 2 3).n_strains) ≤ (sized 2 3).n_strains) ∧
    ∃ c, countHosts (sized 2 3) ([1, 0, 1 / 2, 1 / 2, 0, -1] : List ℚ) = some c ∧
      c.carriers ≠ 0 := by
  refine ⟨by decide, by decide, by decide, ?_⟩
  obtain ⟨c, hgo, _, hiff, _⟩ :=
    mean_multiplicity_divisor (sized 2 3) ([1, 0, 1 / 2, 1 / 2, 0, -1] : List ℚ)
      (by decide) (by decide) (by decide)
  refine ⟨c, hgo, hiff.mpr ⟨0, by decide, ?_⟩⟩
  have hm : count_if ([1, 0, 1 / 2, 1 / 2, 0, -1] : List ℚ) 0 2 = some 1 := by
    simp [count_if, loop, rd, List.range']
  rw [multiplicity_of_count_if (sized 2 3) _ 0 1 (by decide) hm]
  exact Nat.one_pos

/-- C18. Mean multiplicity.  For every store of `n_hosts` rows of `n_strains >= 1`
entries (`n_strains >= 2` when `first_sero` is set) in which some host has a
positive entry among the strains counted, the report is emitted and its mean
multiplicity is the sum over the hosts of `m_i` divided by the number of hosts
with `m_i > 0`, where `m_i` is the number of positive entries of host `i` among
all `n_strains` strains, or among the first two when `first_sero` is set.  It
lies between 1 and the number of strains counted. -/
theorem mean_multiplicity (P : Parameters α) (X l : List α) (run g : Nat)
    (hsize : X.length = P.n_hosts * P.n_strains) (hn : 0 < P.n_strains)
    (hc : (if P.first_sero then 2 else P.n_strains) ≤ P.n_strains)
    (hcarrier : ∃ h, h < P.n_hosts ∧ 0 < multiplicity P X h) :
    (∀ h, multiplicity P X h =
      ((Finset.range (if P.first_sero then 2 else P.n_strains)).filter
        fun s => 0 < entry X (P.n_strains * h + s)).card) ∧
    ∃ line v, report P run g X l = some line ∧ line.mult = some v ∧
      v = ((∑ h in Finset.range P.n_hosts, multiplicity P X h : Nat) : α) /
        ((((Finset.range P.n_hosts).filter fun h => 0 < multiplicity P X h).card : Nat) : α) ∧
      1 ≤ v ∧ v ≤ ((if P.first_sero then 2 else P.n_strains : Nat) : α) := by
  refine ⟨fun _ => rfl, ?_⟩
  obtain ⟨line, hgo, _, _, hmult, _⟩ := report_eq P X l run g hsize hn hc
  have hpos : 0 < hostsWith P X (fun m => 0 < m) := (carriers_pos_iff P X).mpr hcarrier
  have hposα : (0 : α) < ((hostsWith P X (fun m => 0 < m) : Nat) : α) := Nat.cast_pos.mpr hpos
  obtain ⟨hlo, hhi⟩ := carriers_le_sum P X
  refine ⟨line, _, hgo, ?_, rfl, ?_, ?_⟩
  · rw [hmult]
    unfold quotient
    rw [if_neg (ne_of_gt hposα)]
    rfl
  · show 1 ≤ ((∑ h in Finset.range P.n_hosts, multiplicity P X h : Nat) : α) /
      ((hostsWith P X (fun m => 0 < m) : Nat) : α)
    rw [one_le_div hposα]
    exact Nat.cast_le.mpr hlo
  · show ((∑ h in Finset.range P.n_hosts, multiplicity P X h : Nat) : α) /
      ((hostsWith P X (fun m => 0 < m) : Nat) : α) ≤ ((counted P : Nat) : α)
    rw [div_le_iff₀ hposα, ← Nat.cast_mul]
    exact Nat.cast_le.mpr hhi

/-- Witness for C18: three hosts with two strains, of multiplicities 1, 2 and 0;
the mean multiplicity is 3/2. -/
theorem mean_multiplicity_witness :
    (([1, 0, 1 / 2, 1 / 2, 0, -1] : List ℚ).length = (sized 2 3).n_hosts * (sized 2 3).n_strains) ∧
    (0 < (sized 2 3).n_strains) ∧
    ((if (sized 2 3).first_sero then 2 else (sized 2 3).n_strains) ≤ (sized 2 3).n_strains) ∧
    (∃ h, h < (sized 2 3).n_hosts ∧
      0 < multiplicity (sized 2 3) ([1, 0, 1 / 2, 1 / 2, 0, -1] : List ℚ) h) ∧
    ∃ line v, report (sized 2 3) 0 0 ([1, 0, 1 / 2, 1 / 2, 0, -1] : List ℚ) [] = some line ∧
      line.mult = some v ∧ 1 ≤ v ∧ v ≤ 2 := by
  have hcarrier : ∃ h, h < (sized 2 3).n_hosts ∧
      0 < multiplicity (sized 2 3) ([1, 0, 1 / 2, 1 / 2, 0, -1] : List ℚ) h := by
    refine ⟨0, by decide, ?_⟩
    have hm : count_if ([1, 0, 1 / 2, 1 / 2, 0, -1] : List ℚ) 0 2 = some 1 := by
      simp [count_if, loop, rd, List.range']
    rw [multiplicity_of_count_if (sized 2 3) _ 0 1 (by decide) hm]
    exact Nat.one_pos
  refine ⟨by decide, by decide, by decide, hcarrier, ?_⟩
  obtain ⟨_, line, v, hgo, hm, _, hlo, hhi⟩ :=
    mean_multiplicity (sized 2 3) ([1, 0, 1 / 2, 1 / 2, 0, -1] : List ℚ) [] 0 0
      (by decide) (by decide) (by decide) hcarrier
  refine ⟨line, v, hgo, hm, hlo, ?_⟩
  have e : ((if (sized 2 3).first_sero then 2 else (sized 2 3).n_strains : Nat) : ℚ) = 2 := by
    norm_num [sized, defaults]
  rw [e] at hhi
  exact hhi

/-- C19. Scenario generalised.  For every `n_hosts` and `n_strains`, on an all-zero
store of `n_hosts * n_strains` entries a time step in which every sampled count
is 0 (the shuffle returning a permutation of the sampled sequence) returns and
leaves the store as it is; so does any number of such steps.  With a reporting
interval `report > 0` and `n_strains >= 1` (`n_strains >= 2` when `first_sero` is
set) the loop over the time steps returns, one line is reported for each step
`g` with `g % report == 0`, and in each line entry 0 of the histogram is
`n_hosts` and the other eight entries are 0.  The same holds for the sweep that
starts from the store as allocated with no host inoculated. -/
theorem zero_store_scenario (P : Parameters α) (ww : Nat → α) (run : Nat) (pick : Nat → Nat)
    (ticks : List (Tick α)) (X : List α)
    (hsize : X.length = P.n_hosts * P.n_strains) (hzero : ∀ i, entry X i = 0)
    (hcounts : ∀ T, T ∈ ticks → (∀ s, T.nTransmission s = 0) ∧ (∀ t, T.nClearance t = 0) ∧
      T.nTreatment = 0 ∧ T.nBirth = 0 ∧ T.nTransfer = 0)
    (hshuffle : ∀ T, T ∈ ticks → ∀ es, (T.shuffle es).Perm es) :
    (∀ T, T ∈ ticks → ∃ l, timeStep P ww T X = some (X, l)) ∧
    (0 < P.report → 0 < P.n_strains →
      (if P.first_sero then 2 else P.n_strains) ≤ P.n_strains →
      ∃ out, timeLoop P ww run ticks 0 (X, []) = some (X, out) ∧
        out.length = ((List.range' 0 ticks.length).filter fun g => g % P.report = 0).length ∧
        (∀ line, line ∈ out → line.strain_count = P.n_hosts :: List.replicate 8 0) ∧
        (checkParameters P = Except.ok () →
          sweep P ww run 0 pick ticks = Except.ok (some (X, out)))) := by
  constructor
  · intro T hT
    obtain ⟨h1, h2, h3, h4, h5⟩ := hcounts T hT
    exact timeStep_zero P ww T X hsize hzero h1 h2 h3 h4 h5 (hshuffle T hT)
  · intro hrep hn hc
    obtain ⟨out, hgo, hlen, hlines⟩ := timeLoop_zero P ww run X hsize hzero hrep hn hc ticks 0 []
      (fun T hT => by
        obtain ⟨h1, h2, h3, h4, h5⟩ := hcounts T hT
        exact ⟨h1, h2, h3, h4, h5, hshuffle T hT⟩)
    rw [List.nil_append] at hgo
    refine ⟨out, hgo, hlen, fun line hline => (hlines line hline).1, ?_⟩
    intro hcheck
    unfold sweep
    rw [hcheck]
    simp only
    have hin : inoculate P 0 pick (allocate P) = some (allocate P) := rfl
    rw [hin, eq_allocate P X hsize hzero]
    simp only
    rw [hgo]

/-- Witness for C19: the scenario of one host with two strains, reported at every
step, run for two steps. -/
theorem zero_store_scenario_witness :
    (([0, 0] : List ℚ).length
      = ({ sized 2 1 with report := 1 } : Parameters ℚ).n_hosts
        * ({ sized 2 1 with report := 1 } : Parameters ℚ).n_strains) ∧
    (∀ i, entry ([0, 0] : List ℚ) i = 0) ∧
    ∃ out, timeLoop { sized 2 1 with report := 1 } (fun _ => 1) 0 [noEvents, noEvents] 0
        (([0, 0] : List ℚ), []) = some ([0, 0], out) ∧
      out.length = 2 ∧
      ∀ line, line ∈ out → line.strain_count = [1, 0, 0, 0, 0, 0, 0, 0, 0] := by
  have hzero : ∀ i, entry ([0, 0] : List ℚ) i = 0 := by
    intro i
    rcases i with _ | _ | i <;> simp [entry]
  refine ⟨by decide, hzero, ?_⟩
  obtain ⟨out, hgo, hlen, hlines, _⟩ :=
    (zero_store_scenario { sized 2 1 with report := 1 } (fun _ => 1) 0 (fun _ => 0)
      [noEvents, noEvents] ([0, 0] : List ℚ) (by decide) hzero
      (by
        intro T hT
        simp only [List.mem_cons, List.mem_singleton, List.not_mem_nil, or_false, or_self]
          at hT
        subst hT
        exact ⟨fun _ => rfl, fun _ => rfl, rfl, rfl, rfl⟩)
      (by
        intro T hT es
        simp only [List.mem_cons, List.mem_singleton, List.not_mem_nil, or_false, or_self]
          at hT
        subst hT
        exact List.Perm.refl es)).2 (by decide) (by decide) (by decide)
  exact ⟨out, hgo, hlen, hlines⟩

/-- C20 fails as stated.  With the default `k = 1` a trial with success probability
`k` succeeds, yet Transmission of strain 1 to a host that carries strain 0
(immunity disabled) is not blocked: the row `[1, 0]` becomes
`[1000/1001, 1/1001]` and no trial is made.  With `k = 0` the trial fails and the
same event is blocked: the row stays `[1, 0]`. -/
theorem k_semantics_counterexample :
    Bernoulli (defaults : Parameters ℚ).k 0 = true ∧
    caseTransmission defaults ([1, 0] : List ℚ) 0 1 (allSucceed 0 0)
      = some ([1000 / 1001, 1 / 1001], []) ∧
    ([1000 / 1001, 1 / 1001] : List ℚ) ≠ [1, 0] ∧
    Bernoulli ({ defaults with k := 0 } : Parameters ℚ).k 0 = false ∧
    caseTransmission { defaults with k := 0 } ([1, 0] : List ℚ) 0 1 (allSucceed 0 0)
      = some ([1, 0], [Call.Bernoulli 0]) := by
  refine ⟨?_, ?_, ?_, ?_, ?_⟩
  · norm_num [Bernoulli, defaults]
  · norm_num [caseTransmission, noBlocking, noImmunity, colonise, defaults, Normalize,
      accumulate, loop, divideStep, rd, wr, posPart, List.range']
  · norm_num
  · norm_num [Bernoulli, defaults]
  · norm_num [caseTransmission, noBlocking, all_of, Bernoulli, defaults, rd, List.range']

/-- C20 as amended (`k` is the relative efficiency of co-colonisation).  For a
row inside the store with at least one positive entry and immunity disabled,
Transmission of strain `j` is blocked, the store being returned as it was,
exactly when `k != 1` and the Bernoulli trial with success probability `k`
fails; otherwise `x[j] = max(x[j], 0) + iota` is applied and the row normalised.
With `k = 1` no trial is made and the host never resists; with `k = 0` the trial
(on a variate of `[0, 1)`) always fails and the host always resists. -/
theorem k_semantics (P : Parameters α) (X : List α) (x j : Nat) (d : Draws α)
    (hx : x + P.n_strains ≤ X.length) (hj : j < P.n_strains) (himm : P.immunity = false)
    (hpos : ∃ s, s < P.n_strains ∧ 0 < entry X (x + s)) :
    (caseTransmission P X x j d =
      if P.k ≠ 1 ∧ Bernoulli P.k d.block = false then some (X, [Call.Bernoulli P.k])
      else some (normalized (X.set (x + j) (max (entry X (x + j)) 0 + P.iota)) x P.n_strains,
        if P.k = 1 then [] else [Call.Bernoulli P.k])) ∧
    (P.k = 1 → caseTransmission P X x j d =
      some (normalized (X.set (x + j) (max (entry X (x + j)) 0 + P.iota)) x P.n_strains, [])) ∧
    (P.k = 0 → 0 ≤ d.block → caseTransmission P X x j d = some (X, [Call.Bernoulli P.k])) := by
  have hI : noImmunity P X x j d = some (true, []) := by
    unfold noImmunity
    rw [if_pos himm]
  have hne : ¬ ∀ s, s < P.n_strains → entry X (x + s) ≤ 0 := by
    obtain ⟨s, hs, hp⟩ := hpos
    intro h
    exact absurd (h s hs) (not_le.mpr hp)
  have main : caseTransmission P X x j d =
      if P.k ≠ 1 ∧ Bernoulli P.k d.block = false then some (X, [Call.Bernoulli P.k])
      else some (normalized (X.set (x + j) (max (entry X (x + j)) 0 + P.iota)) x P.n_strains,
        if P.k = 1 then [] else [Call.Bernoulli P.k]) := by
    unfold caseTransmission
    rw [noBlocking_eq P X x d hx]
    by_cases hk : P.k = 1
    · rw [if_pos hk, if_neg (fun h => h.1 hk), if_pos hk]
      simp only
      rw [hI]
      simp only
      rw [colonise_eq P X x j hx hj]
      rfl
    · rw [if_neg hk, if_neg hne, if_neg hk]
      cases hb : Bernoulli P.k d.block with
      | false =>
        rw [if_pos ⟨hk, rfl⟩]
      | true =>
        rw [if_neg (fun h => absurd h.2 (by simp))]
        simp only
        rw [hI]
        simp only
        rw [colonise_eq P X x j hx hj]
        rfl
  refine ⟨main, ?_, ?_⟩
  · intro hk
    rw [main, if_neg (fun h => h.1 hk), if_pos hk]
  · intro hk hd
    have hb : Bernoulli P.k d.block = false := by
      unfold Bernoulli
      rw [hk]
      exact decide_eq_false (not_lt.mpr hd)
    have hk1 : P.k ≠ 1 := by
      rw [hk]
      exact zero_ne_one
    rw [main, if_pos ⟨hk1, hb⟩]

/-- Witness for C20 as amended: `k = 1/2`, a host that carries strain 0; the trial
on the variate `3/4` fails and the event is blocked. -/
theorem k_semantics_witness :
    (0 + ({ defaults with k := 1 / 2 } : Parameters ℚ).n_strains ≤ ([1, 0] : List ℚ).length) ∧
    (1 < ({ defaults with k := 1 / 2 } : Parameters ℚ).n_strains) ∧
    (({ defaults with k := 1 / 2 } : Parameters ℚ).immunity = false) ∧
    (∃ s, s < ({ defaults with k := 1 / 2 } : Parameters ℚ).n_strains ∧
      0 < entry ([1, 0] : List ℚ) (0 + s)) ∧
    caseTransmission { defaults with k := 1 / 2 } ([1, 0] : List ℚ) 0 1
        { allSucceed 0 0 with block := 3 / 4 }
      = some ([1, 0], [Call.Bernoulli (1 / 2)]) := by
  have hp : ∃ s, s < ({ defaults with k := 1 / 2 } : Parameters ℚ).n_strains ∧
      0 < entry ([1, 0] : List ℚ) (0 + s) := ⟨0, by decide, by norm_num [entry]⟩
  refine ⟨by decide, by decide, rfl, hp, ?_⟩
  have h := (k_semantics { defaults with k := 1 / 2 } ([1, 0] : List ℚ) 0 1
    { allSucceed 0 0 with block := 3 / 4 } (by decide) (by decide) rfl hp).1
  rw [h, if_pos]
  constructor
  · norm_num [defaults]
  · norm_num [Bernoulli, defaults]

/-- C26. Event tag round trip.  For each of the five kinds and every index `j`
below 65536 the tag `kind | j` decodes to its kind and its index, and two tags
are equal only if their kinds and their indices are.  Hence for
`n_strains <= 65536` the loop body runs a sampled Transmission of strain `s` as
the case Transmission with `j = s`, a sampled Clearance of serotype `t` as the case
Clearance with `j = t`, and Treatment, Birth and Transfer as their own cases; and
every sampled event is one of these. -/
theorem tag_round_trip (P : Parameters α) (X : List α) (d : Draws α) (kind j : Nat)
    (hkind : kind ∈ [Transmission, Clearance, Treatment, Birth, Transfer])
    (hj : j < 65536) :
    ((kind ||| j) &&& 0xF0000 = kind ∧ (kind ||| j) &&& 0xFFFF = j) ∧
    (∀ kind' j', kind' ∈ [Transmission, Clearance, Treatment, Birth, Transfer] → j' < 65536 →
      kind ||| j = kind' ||| j' → kind = kind' ∧ j = j') ∧
    (P.n_strains ≤ 65536 →
      (∀ s, s < P.n_strains → execute P X (Transmission ||| s) d =
        (caseTransmission P X ((P.n_strains * d.host) % 2 ^ 32) s d).map
          fun r => (r.1, Call.Discrete P.n_hosts :: r.2)) ∧
      (∀ t, t < P.n_strains / 2 → execute P X (Clearance ||| t) d =
        (caseClearance P X ((P.n_strains * d.host) % 2 ^ 32) t d).map
          fun r => (r.1, Call.Discrete P.n_hosts :: r.2)) ∧
      execute P X Treatment d =
        (caseTreatment P X ((P.n_strains * d.host) % 2 ^ 32)).map
          (fun r => (r.1, Call.Discrete P.n_hosts :: r.2)) ∧
      execute P X Birth d =
        (caseBirth P X ((P.n_strains * d.host) % 2 ^ 32)).map
          (fun r => (r.1, Call.Discrete P.n_hosts :: r.2)) ∧
      execute P X Transfer d =
        (caseTransfer P X ((P.n_strains * d.host) % 2 ^ 32) d).map
          (fun r => (r.1, Call.Discrete P.n_hosts :: r.2)) ∧
      ∀ nTransmission nClearance nTreatment nBirth nTransfer e,
        e ∈ sampleEvents P nTransmission nClearance nTreatment nBirth nTransfer →
          (∃ s, s < P.n_strains ∧ e = Transmission ||| s) ∨
          (∃ t, t < P.n_strains / 2 ∧ e = Clearance ||| t) ∨
          e = Treatment ∨ e = Birth ∨ e = Transfer) := by
  have decode : ∀ k i, k ∈ [Transmission, Clearance, Treatment, Birth, Transfer] → i < 65536 →
      (k ||| i) &&& 0xF0000 = k ∧ (k ||| i) &&& 0xFFFF = i := by
    intro k i hk hi
    simp only [List.mem_cons, List.mem_singleton, List.not_mem_nil, or_false] at hk
    rcases hk with rfl | rfl | rfl | rfl | rfl
    · have := tag_decode 0 i (by decide) hi
      exact ⟨by simpa [Transmission] using this.2, by simpa [Transmission] using this.1⟩
    · have := tag_decode 1 i (by decide) hi
      exact ⟨by simpa [Clearance] using this.2, by simpa [Clearance] using this.1⟩
    · have := tag_decode 2 i (by decide) hi
      exact ⟨by simpa [Treatment] using this.2, by simpa [Treatment] using this.1⟩
    · have := tag_decode 3 i (by decide) hi
      exact ⟨by simpa [Birth] using this.2, by simpa [Birth] using this.1⟩
    · have := tag_decode 4 i (by decide) hi
      exact ⟨by simpa [Transfer] using this.2, by simpa [Transfer] using this.1⟩
  refine ⟨decode kind j hkind hj, ?_, ?_⟩
  · intro kind' j' hkind' hj' he
    obtain ⟨h1, h2⟩ := decode kind j hkind hj
    obtain ⟨h1', h2'⟩ := decode kind' j' hkind' hj'
    rw [he] at h1 h2
    exact ⟨h1.symm.trans h1', h2.symm.trans h2'⟩
  · intro hn
    refine ⟨fun s hs => execute_Transmission P X s d (by omega),
      fun t ht => execute_Clearance P X t d (by omega), execute_Treatment P X d,
      execute_Birth P X d, execute_Transfer P X d, ?_⟩
    intro nTransmission nClearance nTreatment nBirth nTransfer e he
    exact mem_sampleEvents P nTransmission nClearance nTreatment nBirth nTransfer e he

/-- Witness for C26: the tag of a Clearance of serotype 3. -/
theorem tag_round_trip_witness :
    (Clearance ∈ [Transmission, Clearance, Treatment, Birth, Transfer]) ∧ (3 < 65536) ∧
    (Clearance ||| 3) &&& 0xF0000 = Clearance ∧ (Clearance ||| 3) &&& 0xFFFF = 3 := by
  have hk : Clearance ∈ [Transmission, Clearance, Treatment, Birth, Transfer] := by
    simp
  have h := (tag_round_trip defaults ([0, 0] : List ℚ) (allSucceed 0 0) Clearance 3 hk
    (by decide)).1
  exact ⟨hk, by decide, h.1, h.2⟩

/-- C27. A carrier stays a carrier through the growth pass.  On a store of
`n_hosts * n_strains` entries, for every host whose positive entries sum to 1,
with positive growth rates and `min_carriage <= 1 / n_strains`, the growth pass
returns and some strain of the host that held at least `1 / n_strains` is still
positive after it; the positive entries of the host again sum to 1. -/
theorem carrier_stays_carrier (P : Parameters α) (ww : Nat → α) (X : List α) (h : Nat)
    (hsize : X.length = P.n_hosts * P.n_strains) (hh : h < P.n_hosts)
    (hsum : posSum X (P.n_strains * h) P.n_strains = 1)
    (hww : ∀ s, s < P.n_strains → 0 < ww s)
    (hmin : P.min_carriage ≤ 1 / (P.n_strains : α)) :
    ∃ X' l, growthPass P ww X = some (X', l) ∧
      (∃ s, s < P.n_strains ∧ 1 / (P.n_strains : α) ≤ entry X (P.n_strains * h + s) ∧
        0 < entry X' (P.n_strains * h + s)) ∧
      posSum X' (P.n_strains * h) P.n_strains = 1 := by
  obtain ⟨hn, s, hs, hlarge⟩ := exists_large_entry X (P.n_strains * h) P.n_strains hsum
  have hnpos : (0 : α) < (P.n_strains : α) := Nat.cast_pos.mpr hn
  have hrow := row_in_store P.n_strains P.n_hosts h X.length hsize hh
  have hww0 : ∀ s, s < P.n_strains → 0 ≤ ww s := fun s hs => le_of_lt (hww s hs)
  have hv : 0 < entry X (P.n_strains * h + s) := lt_of_lt_of_le (div_pos one_pos hnpos) hlarge
  have hg : 0 < grown P ww s (entry X (P.n_strains * h + s)) := by
    unfold grown
    rw [if_pos hv, if_neg (not_lt.mpr (le_trans hmin hlarge))]
    exact mul_pos hv (hww s hs)
  have ht : 0 < growTotal P ww X (P.n_strains * h) P.n_strains := by
    rw [growTotal_eq_posSum P ww X _ hrow hww0]
    apply (posSum_pos_iff _ _ _).mpr
    refine ⟨s, hs, ?_⟩
    rw [entry_onRow_in X _ P.n_strains _ s hs hrow]
    exact hg
  obtain ⟨X', l, hgo, hlen, hnorm, _⟩ := growthPass_spec P ww X hsize hww0
  obtain ⟨X'', l'', hgo', _, _, hent, _⟩ := growthPass_eq P ww X hsize
  rw [hgo] at hgo'
  have hXX : X' = X'' := (Prod.mk.inj (Option.some.inj hgo')).1
  subst hXX
  have hpos : 0 < entry X' (P.n_strains * h + s) := by
    rw [hent h hh s hs]
    unfold passed shared
    rw [if_pos ht, if_pos hg]
    exact div_pos hg ht
  refine ⟨X', l, hgo, ⟨s, hs, hlarge, hpos⟩, ?_⟩
  rcases hnorm h hh with h0 | h1
  · have := (posSum_pos_iff X' (P.n_strains * h) P.n_strains).mpr ⟨s, hs, hpos⟩
    rw [h0] at this
    exact absurd this (lt_irrefl 0)
  · exact h1

/-- Witness for C27: one host carrying strain 0 at 1/4 and strain 1 at 3/4, with
growth rates 2 and 1 and the default `min_carriage`. -/
theorem carrier_stays_carrier_witness :
    (([1 / 4, 3 / 4] : List ℚ).length = (sized 2 1).n_hosts * (sized 2 1).n_strains) ∧
    (0 < (sized 2 1).n_hosts) ∧
    (posSum ([1 / 4, 3 / 4] : List ℚ) ((sized 2 1).n_strains * 0) (sized 2 1).n_strains = 1) ∧
    (∀ s, s < (sized 2 1).n_strains → (0 : ℚ) < (fun s => if s = 0 then 2 else 1) s) ∧
    ((sized 2 1).min_carriage ≤ 1 / ((sized 2 1).n_strains : ℚ)) ∧
    ∃ X' l, growthPass (sized 2 1) (fun s => if s = 0 then 2 else 1) ([1 / 4, 3 / 4] : List ℚ)
        = some (X', l) ∧
      posSum X' ((sized 2 1).n_strains * 0) (sized 2 1).n_strains = 1 := by
  have hsum : posSum ([1 / 4, 3 / 4] : List ℚ) ((sized 2 1).n_strains * 0)
      (sized 2 1).n_strains = 1 := by
    norm_num [posSum, posPart, entry, sized, defaults, Finset.sum_range_succ]
  have hww : ∀ s, s < (sized 2 1).n_strains → (0 : ℚ) < (fun s => if s = 0 then 2 else 1) s := by
    intro s _
    by_cases h : s = 0 <;> simp [h]
  have hmin : (sized 2 1).min_carriage ≤ 1 / ((sized 2 1).n_strains : ℚ) := by
    norm_num [sized, defaults]
  refine ⟨by decide, by decide, hsum, hww, hmin, ?_⟩
  obtain ⟨X', l, hgo, _, h1⟩ :=
    carrier_stays_carrier (sized 2 1) (fun s => if s = 0 then 2 else 1)
      ([1 / 4, 3 / 4] : List ℚ) 0 (by decide) (by decide) hsum hww hmin
  exact ⟨X', l, hgo, h1⟩

/-- C28. Extinction is absorbing for everything except Transmission.  On a store
of `n_hosts * n_strains` entries (its size fitting an `int`, `n_strains <= 65536`,
`theta` of `n_strains` entries) in which no entry is positive, with `iota >= 0`:
the growth pass, a Clearance of any serotype and a Treatment return the store as
it is, and a Birth and a Transfer return a store in which still no entry is
positive, for every target host, contact host and outcome of the Bernoulli
trials.  A Transmission does create a positive entry: with immunity disabled
and `iota > 0` the entry of the transmitted strain becomes 1. -/
theorem extinction_absorbing (P : Parameters α) (ww : Nat → α) (X : List α) (d : Draws α)
    (hsize : X.length = P.n_hosts * P.n_strains) (hfit : P.n_hosts * P.n_strains < 2 ^ 31)
    (htag : P.n_strains ≤ 65536) (hth : P.theta.length = P.n_strains) (hiota : 0 ≤ P.iota)
    (hext : ∀ i, entry X i ≤ 0) (hhost : d.host < P.n_hosts)
    (hcontact : d.contact < P.n_hosts) :
    (∃ l, growthPass P ww X = some (X, l)) ∧
    (∀ t, t < P.n_strains / 2 → ∃ c, execute P X (Clearance ||| t) d = some (X, c)) ∧
    (∃ c, execute P X Treatment d = some (X, c)) ∧
    (∃ X' c, execute P X Birth d = some (X', c) ∧ ∀ i, entry X' i ≤ 0) ∧
    (∃ X' c, execute P X Transfer d = some (X', c) ∧ ∀ i, entry X' i ≤ 0) ∧
    (0 < P.iota → P.immunity = false → ∀ s, s < P.n_strains →
      ∃ X' c, execute P X (Transmission ||| s) d = some (X', c) ∧
        0 < entry X' (P.n_strains * d.host + s)) := by
  have hrow := row_in_store P.n_strains P.n_hosts d.host X.length hsize hhost
  have hx : (P.n_strains * d.host) % 2 ^ 32 = P.n_strains * d.host := by
    apply Nat.mod_eq_of_lt
    omega
  refine ⟨growthPass_extinct P ww X hsize hext, ?_, ?_, ?_, ?_, ?_⟩
  · intro t ht
    rw [execute_Clearance P X t d (by omega), hx,
      caseClearance_eq P X _ t d hrow (by omega), if_neg]
    · exact ⟨_, rfl⟩
    · rintro (hp | hp)
      · exact absurd hp (not_lt.mpr (hext _))
      · exact absurd hp (not_lt.mpr (hext _))
  · rw [execute_Treatment P X d, hx, caseTreatment_eq P X _ hrow, if_neg]
    · exact ⟨_, rfl⟩
    · rintro ⟨s, _, _, hp⟩
      exact absurd hp (not_lt.mpr (hext _))
  · rw [execute_Birth P X d, hx, caseBirth_eq P X _ hrow]
    refine ⟨_, _, rfl, ?_⟩
    intro i
    by_cases hi : i < X.length
    · rw [entry_onRow X _ _ _ i hi]
      split
      · exact le_refl 0
      · exact hext i
    · rw [entry_of_le _ _ (by rw [length_onRow]; omega)]
  · obtain ⟨X', c, hgo, _, hX'⟩ := caseTransfer_extinct P X d.host d hth hsize
      (lt_trans hfit (by decide)) hhost hcontact hiota hext
    rw [execute_Transfer P X d, hx, hgo]
    exact ⟨X', _, rfl, hX'⟩
  · intro hpos himm s hs
    obtain ⟨c, hgo⟩ := caseTransmission_extinct P X _ s d hrow hs himm hpos hext
    rw [execute_Transmission P X s d (by omega), hx, hgo]
    refine ⟨_, _, rfl, ?_⟩
    rw [entry_set X _ _ _ (by omega), if_pos rfl]
    exact one_pos

/-- Witness for C28: two hosts with two strains, the first holding an immune
memory of strain 0 and nobody carrying anything; Transfer from the first host to
the second. -/
theorem extinction_absorbing_witness :
    (([-1, 0, 0, 0] : List ℚ).length = (sized 2 2).n_hosts * (sized 2 2).n_strains) ∧
    ((sized 2 2).n_hosts * (sized 2 2).n_strains < 2 ^ 31) ∧
    ((sized 2 2).n_strains ≤ 65536) ∧
    ((sized 2 2).theta.length = (sized 2 2).n_strains) ∧
    ((0 : ℚ) ≤ (sized 2 2).iota) ∧
    (∀ i, entry ([-1, 0, 0, 0] : List ℚ) i ≤ 0) ∧
    ∃ X' c, execute (sized 2 2) ([-1, 0, 0, 0] : List ℚ) Transfer (allSucceed 1 0)
        = some (X', c) ∧ ∀ i, entry X' i ≤ 0 := by
  have hiota : (0 : ℚ) ≤ (sized 2 2).iota := by norm_num [sized, defaults]
  have hext : ∀ i, entry ([-1, 0, 0, 0] : List ℚ) i ≤ 0 := by
    intro i
    rcases i with _ | _ | _ | _ | i <;> simp [entry]
  refine ⟨by decide, by decide, by decide, by decide, hiota, hext, ?_⟩
  exact (extinction_absorbing (sized 2 2) (fun _ => 1) ([-1, 0, 0, 0] : List ℚ)
    (allSucceed 1 0) (by decide) (by decide) (by decide) (by decide) hiota hext
    (by decide) (by decide)).2.2.2.2.1

/-- Counterexample for C25: the empty vector of `bool` is written as the empty text,
which is read back as a vector of one element, `true`. -/
theorem vector_round_trip_counterexample :
    ConvertToStringVector ConvertToStringBool [] = [] ∧
    ConvertFromStringVector ConvertFromStringBool (ConvertToStringVector ConvertToStringBool [])
      = some [true] ∧
    ConvertFromStringVector ConvertFromStringBool (ConvertToStringVector ConvertToStringBool [])
      ≠ some [] := by
  refine ⟨rfl, by decide, by decide⟩

/-- Claim C25, amended: for every vector that is not empty and whose elements are
written without a comma, without a leading and without a trailing blank, and are
read back from their own text, reading the written vector returns the vector;
and for every text the parser returns, with the tokens being the pieces without
a comma that give the text back when joined with commas, one element for each
token, read from the trimmed token. -/
theorem vector_round_trip {β : Type} (toStr : β → List Char) (fromStr : List Char → β)
    (v : List β) (hv : v ≠ [])
    (hcomma : ∀ x ∈ v, ',' ∉ toStr x)
    (hblank : ∀ x ∈ v, ∀ c,
      (toStr x).head? = some c ∨ (toStr x).getLast? = some c → blank c = false)
    (hround : ∀ x ∈ v, fromStr (toStr x) = x) :
    ConvertFromStringVector fromStr (ConvertToStringVector toStr v) = some v ∧
    ∀ s : List Char,
      ConvertFromStringVector fromStr s = some ((tokens s).map fun t => fromStr (Trim t)) ∧
      List.intercalate [','] (tokens s) = s ∧ (∀ t ∈ tokens s, ',' ∉ t) ∧
      (tokens s).length = s.count ',' + 1 := by
  refine ⟨?_, fun s => ⟨ConvertFromStringVector_eq fromStr s, tokens_join s, tokens_free s,
    length_tokens s⟩⟩
  rw [ConvertFromStringVector_eq, tokens_written toStr v hv hcomma, List.map_map]
  congr 1
  conv_rhs => rw [← List.map_id v]
  apply List.map_congr_left
  intro x hx
  show fromStr (Trim (toStr x)) = x
  rw [Trim_eq_self (toStr x) (fun c h => hblank x hx c (Or.inl h))
    (fun c h => hblank x hx c (Or.inr h)), hround x hx]

/-- Witness for C25: the vector `{true, false}` of `bool` is written as
`"true,false"` and read back. -/
theorem vector_round_trip_witness :
    ConvertToStringVector ConvertToStringBool [true, false] = "true,false".toList ∧
    ConvertFromStringVector ConvertFromStringBool
      (ConvertToStringVector ConvertToStringBool [true, false]) = some [true, false] := by
  refine ⟨by decide, ?_⟩
  exact (vector_round_trip ConvertToStringBool ConvertFromStringBool [true, false]
    (by decide)
    (by intro x _; cases x <;> decide)
    (by
      intro x _ c h
      cases x <;> rcases h with h | h <;> simp [ConvertToStringBool] at h <;> subst h <;>
        decide)
    (by intro x _; cases x <;> decide)).1

/-- Claim C24 fails on the code: with the map of the command line
`-w.0 2 -w.1 3`, which holds the entries `w.0 = 2` and `w.1 = 3` and no entry
`w`, assigning to the parameter `w`, declared as the vector `{1, 1}`, returns
true at the first entry and sets only the element 0: `w` becomes `{2, 1}`, where
both entries ask for `{2, 3}`.  The same holds for `AssignFromMap`. -/
theorem subscripted_assignment_first_entry_only :
    (SetParameterFromMap (PARAMETER "vector<double>" "w" ["1", "1"])
        [("w.0".toList, "2".toList), ("w.1".toList, "3".toList)]).map
        (fun r => (r.1.value, r.2))
      = some (Value.vector ["2".toList, "1".toList], true) ∧
    (AssignFromMap [("w.0".toList, "2".toList), ("w.1".toList, "3".toList)]
        [PARAMETER "vector<double>" "w" ["1", "1"]]).map (List.map fun p => p.value)
      = some [Value.vector ["2".toList, "1".toList]] ∧
    (SetParameterFromMap (PARAMETER "vector<double>" "w" ["1", "1"])
        [("w.1".toList, "3".toList)]).map (fun r => (r.1.value, r.2))
      = some (Value.vector ["1".toList, "3".toList], true) ∧
    (SetParameterFromMap (PARAMETER "vector<double>" "w" ["1", "1"])
        [("tau".toList, "3".toList)]).map (fun r => (r.1.value, r.2))
      = some (Value.vector ["1".toList, "1".toList], false) := by
  refine ⟨by decide, by decide, by decide, by decide⟩

/-- Claim C21 fails on the code: for the file with the three sweeps `n_hosts = 5`,
`tau = 0.2` and `tau = 0.3`, read without a command line.  Sweep 0 defines
`n_hosts = 5`, and `GoToSweep(0)` as well as `GoToSweep(1)` leave `n_hosts` at
its default 10000; from sweep 1, `GoToSweep(1)` ends on sweep 2; and after the
loop over the sweeps has ended, `GoToSweep(0)` ends on sweep 2 with `Good()`
false. -/
theorem GoToSweep_divergence :
    ((Read (interpreted [[("n_hosts".toList, "5".toList)], [("tau".toList, "0.2".toList)],
        [("tau".toList, "0.3".toList)]]) none []).bind
      fun c => valueOf c "n_hosts") = some (Value.scalar "5".toList) ∧
    (((Read (interpreted [[("n_hosts".toList, "5".toList)], [("tau".toList, "0.2".toList)],
        [("tau".toList, "0.3".toList)]]) none []).bind fun c => GoToSweep c 0).bind
      fun c => valueOf c "n_hosts") = some (Value.scalar "10000".toList) ∧
    (((Read (interpreted [[("n_hosts".toList, "5".toList)], [("tau".toList, "0.2".toList)],
        [("tau".toList, "0.3".toList)]]) none []).bind fun c => GoToSweep c 1).bind
      fun c => valueOf c "n_hosts") = some (Value.scalar "10000".toList) ∧
    (((Read (interpreted [[("n_hosts".toList, "5".toList)], [("tau".toList, "0.2".toList)],
        [("tau".toList, "0.3".toList)]]) none []).bind fun c =>
        (NextSweep c).bind fun c => GoToSweep c 1).map
      fun c => (Sweep c, Good c)) = some (2, true) ∧
    (((Read (interpreted [[("n_hosts".toList, "5".toList)], [("tau".toList, "0.2".toList)],
        [("tau".toList, "0.3".toList)]]) none []).bind fun c =>
        (advance c 3).bind fun c => GoToSweep c 0).map
      fun c => (Sweep c, Good c)) = some (2, false) := by
  refine ⟨by decide, by decide, by decide, by decide, by decide⟩

/-- Claim C22: for a state on sweep 0 with `Good()`, as `Read` leaves it, with
`N = NSweeps() >= 1` sweeps, when the `N - 1` calls of `NextSweep` that lead to
the last sweep return: the loop `for (; Good(); NextSweep())` ends, after `N + 1`
tests of `Good()`, having run its body `N` times with `Sweep()` being 0, 1, ...,
`N - 1` in this order, and it ends on the last sweep with `Good()` false; after
`j` calls of `NextSweep`, for every `j`, `Sweep()` is `j` or, from the last
sweep on, `N - 1`, `Good()` holds exactly if `j < N`, so that it turns false on
the call made from the last sweep, and `Sweep() < NSweeps()`. -/
theorem sweep_iteration {τ : Type} (c : Config τ) (h0 : c._sweep = 0)
    (hg : c._good = true) (hN : 1 ≤ NSweeps c)
    (hok : (advance c (NSweeps c - 1)).isSome = true) :
    (∃ cEnd, (∀ fuel, NSweeps c + 1 ≤ fuel →
        sweepLoop fuel c = some (List.range (NSweeps c), cEnd)) ∧
      Good cEnd = false ∧ Sweep cEnd = NSweeps c - 1 ∧ NSweeps cEnd = NSweeps c) ∧
    ∀ j, ∃ cj, advance c j = some cj ∧ Sweep cj = min j (NSweeps c - 1) ∧
      (Good cj = true ↔ j < NSweeps c) ∧ Sweep cj < NSweeps cj ∧
      NSweeps cj = NSweeps c := by
  constructor
  · obtain ⟨cEnd, h1, h2, h3, h4⟩ := sweepLoop_spec (NSweeps c - 1) c hg (by omega) hok
    refine ⟨cEnd, ?_, h2, h3, h4⟩
    intro fuel hf
    rw [h1 fuel (by omega), h0, List.range_eq_range', show NSweeps c - 1 + 1 = NSweeps c by omega]
  · intro j
    obtain ⟨cj, h1, h2, h3, h4, _⟩ := advance_spec (NSweeps c) j c rfl (by omega)
      (by rw [h0]; exact hok)
    rw [h0, Nat.zero_add] at h2 h3
    refine ⟨cj, h1, h2, ?_, ?_, h4⟩
    · show cj._good = true ↔ _
      rw [h3, hg]
      simp
    · show cj._sweep < _
      rw [h2, h4]
      exact lt_of_le_of_lt (Nat.min_le_right _ _) (by omega)

/-- Witness for C22: the file with the three sweeps `n_hosts = 5`, `tau = 0.2` and
`tau = 0.3`; the loop runs its body with the sweeps 0, 1, 2. -/
theorem sweep_iteration_witness :
    (interpreted [[("n_hosts".toList, "5".toList)], [("tau".toList, "0.2".toList)],
      [("tau".toList, "0.3".toList)]])._sweep = 0 ∧
    (interpreted [[("n_hosts".toList, "5".toList)], [("tau".toList, "0.2".toList)],
      [("tau".toList, "0.3".toList)]])._good = true ∧
    NSweeps (interpreted [[("n_hosts".toList, "5".toList)], [("tau".toList, "0.2".toList)],
      [("tau".toList, "0.3".toList)]]) = 3 ∧
    ∃ cEnd, sweepLoop 4 (interpreted [[("n_hosts".toList, "5".toList)],
        [("tau".toList, "0.2".toList)], [("tau".toList, "0.3".toList)]])
        = some ([0, 1, 2], cEnd) ∧
      Good cEnd = false ∧ Sweep cEnd = 2 := by
  refine ⟨rfl, rfl, rfl, ?_⟩
  obtain ⟨⟨cEnd, h1, h2, h3, _⟩, _⟩ :=
    sweep_iteration (interpreted [[("n_hosts".toList, "5".toList)],
      [("tau".toList, "0.2".toList)], [("tau".toList, "0.3".toList)]]) rfl rfl (by decide)
      (by decide)
  exact ⟨cEnd, h1 4 (by decide), h2, h3⟩

/-- Claim C23: for every state that `InterpretLines` leaves (on sweep 0, the maps of
the sweeps holding no dotted key, as the lines `parameter = value` give them),
every range `N`-`M` with `1 <= N <= M <= NSweeps()` and every command line, whose
map may hold subscripted keys such as `w.1`: limiting the sweeps to the range
leaves `M - N + 1` sweeps; and when the run that is not limited reaches its
sweep `N - 1 + j` of the range, the limited run is read, has `M - N + 1` sweeps,
reaches its sweep `j` and has there the same parameters with the same values,
and the same `Good()`. -/
theorem sweep_range {τ : Type} (c0 : Config τ) (N M j : Nat) (override : NameValueMap)
    (h0 : c0._sweep = 0) (hN : 1 ≤ N) (hNM : N ≤ M) (hM : M ≤ NSweeps c0) (hj : j ≤ M - N)
    (hplain : ∀ nvm ∈ c0._nvm_sweeps, ∀ e ∈ nvm, '.' ∉ e.1)
    (hu : ((Read c0 none override).bind fun u => advance u (N - 1 + j)).isSome = true) :
    (limitSweeps c0 N M).map NSweeps = some (M - N + 1) ∧
    ∃ r0 rj uj, Read c0 (some (N, M)) override = some r0 ∧ NSweeps r0 = M - N + 1 ∧
      advance r0 j = some rj ∧
      ((Read c0 none override).bind fun u => advance u (N - 1 + j)) = some uj ∧
      rj.parameters = uj.parameters ∧ Sweep rj = j ∧ Sweep uj = N - 1 + j ∧
      Good rj = Good uj := by
  have hl := limited_sweeps c0._nvm_sweeps (combine c0._nvm_sweeps N) N M hN hNM hM
  constructor
  · unfold limitSweeps
    rw [if_neg (by omega)]
    exact congrArg some hl.1
  · obtain ⟨uj, huj⟩ := Option.isSome_iff_exists.1 hu
    obtain ⟨u0, hread, hadv⟩ := Option.bind_eq_some.1 huj
    rw [advance_add] at hadv
    obtain ⟨um, hum, hrest⟩ := Option.bind_eq_some.1 hadv
    obtain ⟨ps, g1, g2, g3, g4, g5, g6⟩ :=
      unrestricted_values c0 u0 override h0 hplain hread (N - 1) (by omega) um hum
    rw [show N - 1 + 1 = N by omega] at g1
    have hr0 := Read_range_of c0 N M override ps um.parameters h0 hN hNM hM g1 g2
    have hNu : NSweeps um = NSweeps c0 := by
      unfold NSweeps
      rw [g4]
    obtain ⟨rj, b1, b2, b3, b4, b5, _⟩ :=
      restricted_follows (N - 1) j
        { c0 with
          _nvm_sweeps :=
            ((c0._nvm_sweeps.set (N - 1) (combine c0._nvm_sweeps N)).take M).drop (N - 1),
          parameters := um.parameters, _nvm_override := override }
        um rfl g5.symm g6.symm
        (by
          intro i h1 h2
          have h2' : i < M - N + 1 := by
            rw [← hl.1]
            exact h2
          rw [g4]
          exact hl.2.2 i (by omega) h2')
        (by
          show um._sweep = c0._sweep + (N - 1)
          omega)
        (by
          show c0._sweep + j < _
          unfold NSweeps
          show c0._sweep + j <
            (((c0._nvm_sweeps.set (N - 1) (combine c0._nvm_sweeps N)).take M).drop
              (N - 1)).length
          rw [hl.1]
          omega)
        (by
          rw [hNu]
          unfold NSweeps
          show (((c0._nvm_sweeps.set (N - 1) (combine c0._nvm_sweeps N)).take M).drop
              (N - 1)).length + (N - 1) ≤ c0._nvm_sweeps.length
          rw [hl.1]
          unfold NSweeps at hM
          omega)
        uj hrest
    refine ⟨_, rj, uj, hr0, hl.1, b1, huj, b2, ?_, ?_, b5⟩
    · show rj._sweep = j
      rw [b3]
      show c0._sweep + j = j
      omega
    · show uj._sweep = N - 1 + j
      rw [b4, g3]

/-- Witness for C23: the file with the three sweeps `n_hosts = 5`, `tau = 0.2` and
`tau = 0.3`, `w = 7,8`, the command line `-w.1 9`, the range 2-3 and the second
sweep of the range: the limited run has there `n_hosts = 5` and `w = {7, 9}`. -/
theorem sweep_range_witness :
    (interpreted [[("n_hosts".toList, "5".toList)], [("tau".toList, "0.2".toList)],
      [("tau".toList, "0.3".toList), ("w".toList, "7,8".toList)]])._sweep = 0 ∧
    (∀ nvm ∈ (interpreted [[("n_hosts".toList, "5".toList)], [("tau".toList, "0.2".toList)],
      [("tau".toList, "0.3".toList), ("w".toList, "7,8".toList)]])._nvm_sweeps,
      ∀ e ∈ nvm, '.' ∉ e.1) ∧
    (((Read (interpreted [[("n_hosts".toList, "5".toList)], [("tau".toList, "0.2".toList)],
        [("tau".toList, "0.3".toList), ("w".toList, "7,8".toList)]]) none
        [("w.1".toList, "9".toList)]).bind fun u => advance u (2 - 1 + 1)).isSome = true) ∧
    (((Read (interpreted [[("n_hosts".toList, "5".toList)], [("tau".toList, "0.2".toList)],
        [("tau".toList, "0.3".toList), ("w".toList, "7,8".toList)]]) (some (2, 3))
        [("w.1".toList, "9".toList)]).bind fun r => advance r 1).bind fun r =>
        (valueOf r "n_hosts").bind fun a => (valueOf r "w").map fun b => (a, b))
      = some (Value.scalar "5".toList, Value.vector ["7".toList, "9".toList]) ∧
    ∃ r0 rj uj,
      Read (interpreted [[("n_hosts".toList, "5".toList)], [("tau".toList, "0.2".toList)],
        [("tau".toList, "0.3".toList), ("w".toList, "7,8".toList)]]) (some (2, 3))
        [("w.1".toList, "9".toList)] = some r0 ∧
      NSweeps r0 = 2 ∧ advance r0 1 = some rj ∧
      ((Read (interpreted [[("n_hosts".toList, "5".toList)], [("tau".toList, "0.2".toList)],
        [("tau".toList, "0.3".toList), ("w".toList, "7,8".toList)]]) none
        [("w.1".toList, "9".toList)]).bind fun u => advance u (2 - 1 + 1)) = some uj ∧
      rj.parameters = uj.parameters ∧ Sweep rj = 1 := by
  have hplain : ∀ nvm ∈ (interpreted [[("n_hosts".toList, "5".toList)],
      [("tau".toList, "0.2".toList)],
      [("tau".toList, "0.3".toList), ("w".toList, "7,8".toList)]])._nvm_sweeps,
      ∀ e ∈ nvm, '.' ∉ e.1 := by decide
  refine ⟨rfl, hplain, by decide, by decide, ?_⟩
  obtain ⟨_, r0, rj, uj, h1, h2, h3, h4, h5, h6, _⟩ :=
    sweep_range (interpreted [[("n_hosts".toList, "5".toList)], [("tau".toList, "0.2".toList)],
        [("tau".toList, "0.3".toList), ("w".toList, "7,8".toList)]]) 2 3 1
      [("w.1".toList, "9".toList)] rfl (by decide) (by decide) (by decide) (by decide) hplain
      (by decide)
  exact ⟨r0, rj, uj, h1, h2, h3, h4, h5, h6⟩

end Claims

end Tinyhost
